import Mathlib

/-!
# Verification of the tab-graph construction core (`standalone_scripts/build_graph.py`)

This file is a shallow embedding, in Lean 4, of the algorithmic core of the
tab-graph builder: URL canonicalization, content fingerprinting (simhash),
near-duplicate resolution over a union-find structure, edge construction and
group (cluster) construction, together with proofs about these definitions.

Modelling conventions:
* Python `int` is modelled as `Nat`/`Int`; Python `float` similarity scores are
  modelled as exact rationals `ℚ` (the code only compares scores and rounds
  them to three decimals, and every concrete value used in a theorem below is
  exactly representable as a binary float, so the rational model agrees with
  the float computation on those inputs).
* Python lists indexed by integers are modelled either as Lean lists or, for
  the union-find parent array (whose accesses are all in range), as functions
  `Nat → Nat`.
* Python dicts with `int` keys are modelled as functions `Nat → Option Nat`;
  dict iteration order (insertion order) is modelled explicitly by association
  lists where it matters.
* `hashlib.md5(...)` (the per-token 64-bit hash feeding the simhash) is
  abstracted as a parameter `h : String → Nat`; the fingerprint properties
  proved here hold for every hash function, hence for md5 in particular.
* The fragments of CPython's `urllib.parse` used by `canonicalize_url`
  (`urlparse`, `parse_qsl`, `urlencode`/`quote_plus`, `urlunparse`) are
  modelled faithfully after CPython (≥ 3.11) on strings; see the individual
  doc comments.  The md5-based enrichment, network fetching, LLM calls and
  the float cosine similarity (`math.sqrt`) are abstracted as parameters,
  matching the spec's separation between the pure core and its collaborators.
-/

set_option maxRecDepth 10000

namespace TabGraph

/- Batteries marks the rational-number arithmetic `@[irreducible]`, which
keeps `decide`/`rfl` from evaluating the exact rational scores on concrete
inputs; restore the default reducibility for this development. -/
attribute [local semireducible] Rat.mul Rat.add Rat.sub Rat.inv

/-! ## Character-list utilities

Python strings are modelled as `List Char` (Unicode code points, as in
CPython).  The helpers below model `str.split`, `str.rsplit`, string
comparison (by code point, as in CPython) and Python's stable `list.sort`. -/

/-- Split at the first occurrence of `d`: `some (before, after)` with the
delimiter removed, or `none` if `d` does not occur. -/
def splitFirst (d : Char) : List Char → Option (List Char × List Char)
  | [] => none
  | c :: rest =>
    if c = d then some ([], rest)
    else
      match splitFirst d rest with
      | none => none
      | some r => some (c :: r.1, r.2)

theorem splitFirst_length {d : Char} : ∀ {l a b : List Char},
    splitFirst d l = some (a, b) → l = a ++ d :: b := by
  intro l
  induction l with
  | nil => intro a b h; exact Option.noConfusion h
  | cons c rest ih =>
    intro a b h
    by_cases hc : c = d
    · simp [splitFirst, hc] at h
      simp [hc, ← h.1, ← h.2]
    · simp only [splitFirst, if_neg hc] at h
      cases hr : splitFirst d rest with
      | none => rw [hr] at h; simp at h
      | some r =>
        rw [hr] at h
        simp only [Option.some.injEq, Prod.mk.injEq] at h
        have := ih (a := r.1) (b := r.2) (by rw [hr])
        rw [← h.1, ← h.2, this]
        simp

theorem splitFirst_none {d : Char} : ∀ {l : List Char},
    splitFirst d l = none → d ∉ l := by
  intro l
  induction l with
  | nil => intro _; simp
  | cons c rest ih =>
    intro h
    by_cases hc : c = d
    · simp [splitFirst, hc] at h
    · simp only [splitFirst, if_neg hc] at h
      cases hr : splitFirst d rest with
      | none =>
        intro hmem
        rcases List.mem_cons.mp hmem with h1 | h2
        · exact hc h1.symm
        · exact ih hr h2
      | some r => rw [hr] at h; simp at h

theorem splitFirst_not_mem {d : Char} : ∀ {l a b : List Char},
    splitFirst d l = some (a, b) → d ∉ a := by
  intro l
  induction l with
  | nil => intro a b h; simp [splitFirst] at h
  | cons c rest ih =>
    intro a b h
    by_cases hc : c = d
    · simp only [splitFirst, if_pos hc, Option.some.injEq, Prod.mk.injEq] at h
      rw [← h.1]
      exact List.not_mem_nil d
    · simp only [splitFirst, if_neg hc] at h
      cases hr : splitFirst d rest with
      | none => rw [hr] at h; simp at h
      | some r =>
        rw [hr] at h
        simp only [Option.some.injEq, Prod.mk.injEq] at h
        intro hmem
        rw [← h.1] at hmem
        rcases List.mem_cons.mp hmem with h1 | h2
        · exact hc h1.symm
        · exact ih (by rw [hr]) h2

theorem splitFirst_append_cons {d : Char} : ∀ {a : List Char} (b : List Char),
    d ∉ a → splitFirst d (a ++ d :: b) = some (a, b) := by
  intro a
  induction a with
  | nil => intro b _; simp [splitFirst]
  | cons c rest ih =>
    intro b hmem
    have hc : c ≠ d := fun h => hmem (by simp [h])
    have hd : d ∉ rest := fun h => hmem (by simp [h])
    simp only [List.cons_append, splitFirst, if_neg hc]
    rw [show rest.append (d :: b) = rest ++ d :: b from rfl, ih b hd]

/-- Accumulator worker for `splitAll`. -/
def splitAllAux (d : Char) : List Char → List Char → List (List Char)
  | [], acc => [acc.reverse]
  | c :: rest, acc =>
    if c = d then acc.reverse :: splitAllAux d rest []
    else splitAllAux d rest (c :: acc)

/-- `str.split(d)` keeping empty pieces (Python semantics). -/
def splitAll (d : Char) (l : List Char) : List (List Char) :=
  splitAllAux d l []

theorem splitAllAux_no_delim {d : Char} :
    ∀ {l : List Char} (acc : List Char), d ∉ l → splitAllAux d l acc = [acc.reverse ++ l] := by
  intro l
  induction l with
  | nil => intro acc _; simp [splitAllAux]
  | cons c rest ih =>
    intro acc hmem
    have hc : c ≠ d := fun h => hmem (by simp [h])
    have hd : d ∉ rest := fun h => hmem (by simp [h])
    rw [splitAllAux, if_neg hc, ih (c :: acc) hd]
    simp

theorem splitAllAux_delim {d : Char} :
    ∀ {a : List Char} (acc b : List Char), d ∉ a →
      splitAllAux d (a ++ d :: b) acc = (acc.reverse ++ a) :: splitAllAux d b [] := by
  intro a
  induction a with
  | nil => intro acc b _; simp [splitAllAux]
  | cons c rest ih =>
    intro acc b hmem
    have hc : c ≠ d := fun h => hmem (by simp [h])
    have hd : d ∉ rest := fun h => hmem (by simp [h])
    rw [List.cons_append, splitAllAux, if_neg hc, ih (c :: acc) b hd]
    simp

theorem splitAll_no_delim {d : Char} {l : List Char} (h : d ∉ l) :
    splitAll d l = [l] := by
  rw [splitAll, splitAllAux_no_delim [] h]
  rfl

theorem splitAll_delim {d : Char} {a b : List Char} (h : d ∉ a) :
    splitAll d (a ++ d :: b) = a :: splitAll d b := by
  rw [splitAll, splitAllAux_delim [] b h]
  rfl

/-- Split at the last occurrence of `d` (Python `rsplit(d, 1)` when present). -/
def splitLast (d : Char) (l : List Char) : Option (List Char × List Char) :=
  match splitFirst d l.reverse with
  | none => none
  | some r => some (r.2.reverse, r.1.reverse)

theorem splitLast_spec {d : Char} {l a b : List Char}
    (h : splitLast d l = some (a, b)) : l = a ++ d :: b ∧ d ∉ b := by
  unfold splitLast at h
  cases hr : splitFirst d l.reverse with
  | none => rw [hr] at h; simp at h
  | some r =>
    rw [hr] at h
    simp only [Option.some.injEq, Prod.mk.injEq] at h
    have hl := splitFirst_length hr
    have hm := splitFirst_not_mem hr
    constructor
    · have : l = (r.1 ++ d :: r.2).reverse := by rw [← hl]; simp
      rw [this, ← h.1, ← h.2]
      simp
    · rw [← h.2]
      intro hmem
      exact hm (List.mem_reverse.mp hmem)

theorem splitLast_none {d : Char} {l : List Char}
    (h : splitLast d l = none) : d ∉ l := by
  unfold splitLast at h
  cases hr : splitFirst d l.reverse with
  | none =>
    intro hmem
    exact splitFirst_none hr (List.mem_reverse.mpr hmem)
  | some r => rw [hr] at h; simp at h

/-- Code-point lexicographic strict order on character lists
(CPython string `<`). -/
def lexLt : List Char → List Char → Bool
  | [], [] => false
  | [], _ :: _ => true
  | _ :: _, [] => false
  | a :: as, b :: bs => if a < b then true else if b < a then false else lexLt as bs

/-- Strict tuple order on `(key, value)` pairs (CPython tuple `<` on pairs
of strings), used by `params.sort()`. -/
def pairLtB (a b : (List Char × List Char)) : Bool :=
  if lexLt a.1 b.1 then true else if lexLt b.1 a.1 then false else lexLt a.2 b.2

/-- Insert `x` into `l` keeping `x` before the first element not
strictly below it: the insertion step of a stable ascending sort. -/
def insIns (lt : α → α → Bool) (x : α) : List α → List α
  | [] => [x]
  | y :: ys => if lt y x then y :: insIns lt x ys else x :: y :: ys

/-- Stable ascending insertion sort.  CPython's `list.sort()` is also a
stable ascending sort for the same strict order, and stable sorts agree,
so this models `list.sort()`/`sorted()` exactly. -/
def insSort (lt : α → α → Bool) : List α → List α
  | [] => []
  | x :: xs => insIns lt x (insSort lt xs)

theorem insIns_perm (lt : α → α → Bool) (x : α) :
    ∀ l : List α, (insIns lt x l).Perm (x :: l) := by
  intro l
  induction l with
  | nil => simp [insIns]
  | cons y ys ih =>
    by_cases h : lt y x
    · simp only [insIns, if_pos h]
      exact (ih.cons y).trans (List.Perm.swap x y ys)
    · simp [insIns, if_neg h]

theorem insSort_perm (lt : α → α → Bool) :
    ∀ l : List α, (insSort lt l).Perm l := by
  intro l
  induction l with
  | nil => simp [insSort]
  | cons x xs ih =>
    exact (insIns_perm lt x (insSort lt xs)).trans (ih.cons x)

/-- Elements already pairwise in order are left untouched by `insSort`. -/
theorem insSort_eq_self (lt : α → α → Bool) :
    ∀ l : List α, l.Pairwise (fun a b => lt b a = false) → insSort lt l = l := by
  intro l
  induction l with
  | nil => simp [insSort]
  | cons x xs ih =>
    intro hp
    rcases List.pairwise_cons.mp hp with ⟨hx, hxs⟩
    rw [insSort, ih hxs]
    cases xs with
    | nil => simp [insIns]
    | cons y ys => simp [insIns, hx y (by simp)]

theorem insIns_sorted (lt : α → α → Bool)
    (hasymm : ∀ a b, lt a b = true → lt b a = false)
    (htrans : ∀ a b c, lt a b = true → lt b c = true → lt a c = true)
    (heq : ∀ a b, lt a b = false → lt b a = false → ∀ c, lt a c = lt b c) :
    ∀ (l : List α) (x : α), l.Pairwise (fun a b => lt b a = false) →
      (insIns lt x l).Pairwise (fun a b => lt b a = false) := by
  intro l
  induction l with
  | nil => intro x _; simp [insIns]
  | cons y ys ih =>
    intro x hp
    rcases List.pairwise_cons.mp hp with ⟨hy, hys⟩
    by_cases h : lt y x
    · simp only [insIns, if_pos h]
      refine List.pairwise_cons.mpr ⟨?_, ih x hys⟩
      intro a ha
      rcases List.mem_cons.mp ((insIns_perm lt x ys).mem_iff.mp ha) with rfl | hmem
      · exact hasymm y a h
      · exact hy a hmem
    · have h' : lt y x = false := by
        cases hyx : lt y x
        · rfl
        · exact absurd hyx h
      simp only [insIns, if_neg h]
      refine List.pairwise_cons.mpr ⟨?_, hp⟩
      intro a ha
      rcases List.mem_cons.mp ha with rfl | hmem
      · exact h'
      · have hay : lt a y = false := hy a hmem
        cases hax : lt a x
        · rfl
        · cases hya : lt y a
          · rw [← heq a y hay hya x, hax] at h'
            exact absurd h' (by simp)
          · rw [htrans y a x hya hax] at h'
            exact absurd h' (by simp)

theorem lexLt_asymm : ∀ a b : List Char, lexLt a b = true → lexLt b a = false := by
  intro a
  induction a with
  | nil =>
    intro b h
    cases b with
    | nil => exact absurd h (by simp [lexLt])
    | cons c cs => simp [lexLt]
  | cons x xs ih =>
    intro b h
    cases b with
    | nil => exact absurd h (by simp [lexLt])
    | cons y ys =>
      by_cases hxy : x < y
      · have hyx : ¬ y < x := lt_asymm hxy
        simp [lexLt, hyx, hxy]
      · by_cases hyx : y < x
        · simp [lexLt, hxy, hyx] at h
        · simp only [lexLt, if_neg hxy, if_neg hyx] at h
          simp only [lexLt, if_neg hyx, if_neg hxy]
          exact ih ys h

theorem lexLt_trans : ∀ a b c : List Char,
    lexLt a b = true → lexLt b c = true → lexLt a c = true := by
  intro a
  induction a with
  | nil =>
    intro b c hab hbc
    cases b with
    | nil => exact absurd hab (by simp [lexLt])
    | cons y ys =>
      cases c with
      | nil => exact absurd hbc (by simp [lexLt])
      | cons z zs => simp [lexLt]
  | cons x xs ih =>
    intro b c hab hbc
    cases b with
    | nil => exact absurd hab (by simp [lexLt])
    | cons y ys =>
      cases c with
      | nil => exact absurd hbc (by simp [lexLt])
      | cons z zs =>
        by_cases hxy : x < y
        · by_cases hyz : y < z
          · have hxz : x < z := lt_trans hxy hyz
            simp [lexLt, hxz]
          · by_cases hzy : z < y
            · simp [lexLt, hyz, hzy] at hbc
            · have hyz' : y = z := le_antisymm (le_of_not_lt hzy) (le_of_not_lt hyz)
              have hxz : x < z := hyz' ▸ hxy
              simp [lexLt, hxz]
        · by_cases hyx : y < x
          · simp [lexLt, hxy, hyx] at hab
          · have hxy' : x = y := le_antisymm (le_of_not_lt hyx) (le_of_not_lt hxy)
            simp only [lexLt, if_neg hxy, if_neg hyx] at hab
            subst hxy'
            by_cases hxz : x < z
            · simp [lexLt, hxz]
            · by_cases hzx : z < x
              · simp [lexLt, hxz, hzx] at hbc
              · simp only [lexLt, if_neg hxz, if_neg hzx] at hbc ⊢
                exact ih ys zs hab hbc

theorem lexLt_antisymm : ∀ a b : List Char,
    lexLt a b = false → lexLt b a = false → a = b := by
  intro a
  induction a with
  | nil =>
    intro b hab _
    cases b with
    | nil => rfl
    | cons y ys => exact absurd hab (by simp [lexLt])
  | cons x xs ih =>
    intro b hab hba
    cases b with
    | nil => exact absurd hba (by simp [lexLt])
    | cons y ys =>
      by_cases hxy : x < y
      · simp [lexLt, hxy] at hab
      · by_cases hyx : y < x
        · simp [lexLt, hyx] at hba
        · have hxy' : x = y := le_antisymm (le_of_not_lt hyx) (le_of_not_lt hxy)
          simp only [lexLt, if_neg hxy, if_neg hyx] at hab
          simp only [lexLt, if_neg hyx, if_neg hxy] at hba
          rw [hxy', ih ys hab hba]

theorem pairLtB_asymm (a b : (List Char × List Char)) :
    pairLtB a b = true → pairLtB b a = false := by
  intro h
  unfold pairLtB at h ⊢
  by_cases h1 : lexLt a.1 b.1 = true
  · simp [h1, lexLt_asymm _ _ h1]
  · have h1' : lexLt a.1 b.1 = false := by
      cases hc : lexLt a.1 b.1
      · rfl
      · exact absurd hc h1
    by_cases h2 : lexLt b.1 a.1 = true
    · simp [h1', h2] at h
    · have h2' : lexLt b.1 a.1 = false := by
        cases hc : lexLt b.1 a.1
        · rfl
        · exact absurd hc h2
      simp only [h1', h2', if_neg, Bool.false_eq_true, if_false] at h ⊢
      simp [lexLt_asymm _ _ h]

theorem pairLtB_trans (a b c : (List Char × List Char)) :
    pairLtB a b = true → pairLtB b c = true → pairLtB a c = true := by
  intro hab hbc
  unfold pairLtB at hab hbc ⊢
  by_cases k1 : lexLt a.1 b.1 = true
  · by_cases k2 : lexLt b.1 c.1 = true
    · simp [lexLt_trans _ _ _ k1 k2]
    · have k2' : lexLt b.1 c.1 = false := by
        cases hc : lexLt b.1 c.1
        · rfl
        · exact absurd hc k2
      by_cases k3 : lexLt c.1 b.1 = true
      · simp [k2', k3] at hbc
      · have k3' : lexLt c.1 b.1 = false := by
          cases hc : lexLt c.1 b.1
          · rfl
          · exact absurd hc k3
        have : b.1 = c.1 := lexLt_antisymm _ _ k2' k3'
        rw [← this]
        simp [k1]
  · have k1' : lexLt a.1 b.1 = false := by
      cases hc : lexLt a.1 b.1
      · rfl
      · exact absurd hc k1
    by_cases k4 : lexLt b.1 a.1 = true
    · simp [k1', k4] at hab
    · have k4' : lexLt b.1 a.1 = false := by
        cases hc : lexLt b.1 a.1
        · rfl
        · exact absurd hc k4
      have he : a.1 = b.1 := lexLt_antisymm _ _ k1' k4'
      simp only [k1', k4', Bool.false_eq_true, if_false] at hab
      by_cases k2 : lexLt b.1 c.1 = true
      · rw [he]
        simp [k2]
      · have k2' : lexLt b.1 c.1 = false := by
          cases hc : lexLt b.1 c.1
          · rfl
          · exact absurd hc k2
        by_cases k3 : lexLt c.1 b.1 = true
        · simp [k2', k3] at hbc
        · have k3' : lexLt c.1 b.1 = false := by
            cases hc : lexLt c.1 b.1
            · rfl
            · exact absurd hc k3
          simp only [k2', k3', Bool.false_eq_true, if_false] at hbc
          rw [he]
          simp [k2', k3', lexLt_trans _ _ _ hab hbc]

theorem pairLtB_antisymm (a b : (List Char × List Char)) :
    pairLtB a b = false → pairLtB b a = false → a = b := by
  intro hab hba
  unfold pairLtB at hab hba
  by_cases k1 : lexLt a.1 b.1 = true
  · simp [k1] at hab
  · have k1' : lexLt a.1 b.1 = false := by
      cases hc : lexLt a.1 b.1
      · rfl
      · exact absurd hc k1
    by_cases k2 : lexLt b.1 a.1 = true
    · simp [k2] at hba
    · have k2' : lexLt b.1 a.1 = false := by
        cases hc : lexLt b.1 a.1
        · rfl
        · exact absurd hc k2
      have hk : a.1 = b.1 := lexLt_antisymm _ _ k1' k2'
      simp only [k1', k2', Bool.false_eq_true, if_false] at hab hba
      have hv : a.2 = b.2 := lexLt_antisymm _ _ hab hba
      exact Prod.ext hk hv

theorem insSort_sorted (lt : α → α → Bool)
    (hasymm : ∀ a b, lt a b = true → lt b a = false)
    (htrans : ∀ a b c, lt a b = true → lt b c = true → lt a c = true)
    (heq : ∀ a b, lt a b = false → lt b a = false → ∀ c, lt a c = lt b c) :
    ∀ l : List α, (insSort lt l).Pairwise (fun a b => lt b a = false) := by
  intro l
  induction l with
  | nil => simp [insSort]
  | cons x xs ih => exact insIns_sorted lt hasymm htrans heq _ x ih


/-! ## Percent-encoding: models of `urllib.parse.unquote` / `quote_plus`

`unquote` decodes `%XX` escape runs as UTF-8 byte sequences with
`errors='replace'`; `quote_plus` encodes every character outside the
always-safe set as the uppercase-hex escapes of its UTF-8 bytes, mapping
spaces to `+`.  Granularity of the replacement character for invalid UTF-8
follows the maximal-subpart convention used by CPython's decoder; every
theorem below only exercises ASCII sequences, where the models coincide
with CPython exactly. -/

def isDigitCh (c : Char) : Bool := '0' ≤ c ∧ c ≤ '9'

def isAsciiAlpha (c : Char) : Bool := ('A' ≤ c ∧ c ≤ 'Z') ∨ ('a' ≤ c ∧ c ≤ 'z')

def isHexDigit (c : Char) : Bool :=
  isDigitCh c ∨ ('a' ≤ c ∧ c ≤ 'f') ∨ ('A' ≤ c ∧ c ≤ 'F')

def hexVal (c : Char) : Nat :=
  if isDigitCh c then c.toNat - 48
  else if 'a' ≤ c ∧ c ≤ 'f' then c.toNat - 87
  else c.toNat - 55

/-- Uppercase hex digit of `n < 16` (as produced by CPython's `quote`). -/
def hexDigitUpper (n : Nat) : Char :=
  if n < 10 then Char.ofNat (48 + n) else Char.ofNat (55 + n)

/-- UTF-8 encoding of one code point (`str.encode('utf-8')`, per char). -/
def utf8Encode (c : Char) : List Nat :=
  let n := c.toNat
  if n < 0x80 then [n]
  else if n < 0x800 then [0xC0 + n / 64, 0x80 + n % 64]
  else if n < 0x10000 then [0xE0 + n / 4096, 0x80 + n / 64 % 64, 0x80 + n % 64]
  else [0xF0 + n / 262144, 0x80 + n / 4096 % 64, 0x80 + n / 64 % 64, 0x80 + n % 64]

def replChar : Char := Char.ofNat 0xFFFD

def isCont (b : Nat) : Bool := 0x80 ≤ b ∧ b ≤ 0xBF

/-- Admissible second byte after a 3-byte lead (excludes overlong forms and
surrogates, as CPython's strict-then-replace decoder does). -/
def cont3ok (b b2 : Nat) : Bool :=
  if b = 0xE0 then 0xA0 ≤ b2 ∧ b2 ≤ 0xBF
  else if b = 0xED then 0x80 ≤ b2 ∧ b2 ≤ 0x9F
  else isCont b2

/-- Admissible second byte after a 4-byte lead. -/
def cont4ok (b b2 : Nat) : Bool :=
  if b = 0xF0 then 0x90 ≤ b2 ∧ b2 ≤ 0xBF
  else if b = 0xF4 then 0x80 ≤ b2 ∧ b2 ≤ 0x8F
  else isCont b2

/-- One token of a percent-decoded stream: a byte produced by a `%XX`
escape, or a literal (unescaped) character. -/
inductive QTok where
  | byte (b : Nat)
  | lit (c : Char)
deriving DecidableEq, Repr

/-- Tokenize a string for `unquote`: each valid `%XX` escape becomes a
byte token, everything else stays a literal character (a `%` that does not
start a valid escape is kept literally, as in `unquote_to_bytes`). -/
def escTokens : List Char → List QTok
  | [] => []
  | c :: a :: b :: rest =>
    if c = '%' ∧ isHexDigit a ∧ isHexDigit b then
      QTok.byte (hexVal a * 16 + hexVal b) :: escTokens rest
    else QTok.lit c :: escTokens (a :: b :: rest)
  | c :: rest => QTok.lit c :: escTokens rest

/-- Step of the UTF-8 decoder with empty pending state: classify one byte
(ASCII, 2/3/4-byte lead, or invalid). -/
def utf8EmptyStep (b : Nat) : List Char × List Nat :=
  if b < 0x80 then ([Char.ofNat b], [])
  else if 0xC2 ≤ b ∧ b ≤ 0xDF then ([], [b])
  else if 0xE0 ≤ b ∧ b ≤ 0xEF then ([], [b])
  else if 0xF0 ≤ b ∧ b ≤ 0xF4 then ([], [b])
  else ([replChar], [])

/-- One decoder step: `st` is the pending (incomplete) byte sequence.
Returns the emitted characters and the new pending state.  An invalid
continuation emits one replacement character for the maximal subpart and
reprocesses the offending byte, as CPython's `errors='replace'` decoder
does; a literal character flushes a pending sequence as invalid. -/
def utf8StepTok (st : List Nat) (t : QTok) : List Char × List Nat :=
  match t with
  | QTok.lit c => ((if st = [] then [] else [replChar]) ++ [c], [])
  | QTok.byte b =>
    match st with
    | [] => utf8EmptyStep b
    | [l1] =>
      if 0xC2 ≤ l1 ∧ l1 ≤ 0xDF then
        if isCont b then ([Char.ofNat ((l1 - 0xC0) * 64 + (b - 0x80))], [])
        else (replChar :: (utf8EmptyStep b).1, (utf8EmptyStep b).2)
      else if 0xE0 ≤ l1 ∧ l1 ≤ 0xEF then
        if cont3ok l1 b then ([], [l1, b])
        else (replChar :: (utf8EmptyStep b).1, (utf8EmptyStep b).2)
      else
        if cont4ok l1 b then ([], [l1, b])
        else (replChar :: (utf8EmptyStep b).1, (utf8EmptyStep b).2)
    | [l1, c2] =>
      if 0xE0 ≤ l1 ∧ l1 ≤ 0xEF then
        if isCont b then
          ([Char.ofNat ((l1 - 0xE0) * 4096 + (c2 - 0x80) * 64 + (b - 0x80))], [])
        else (replChar :: (utf8EmptyStep b).1, (utf8EmptyStep b).2)
      else
        if isCont b then ([], [l1, c2, b])
        else (replChar :: (utf8EmptyStep b).1, (utf8EmptyStep b).2)
    | [l1, c2, c3] =>
      if isCont b then
        ([Char.ofNat ((l1 - 0xF0) * 262144 + (c2 - 0x80) * 4096 +
            (c3 - 0x80) * 64 + (b - 0x80))], [])
      else (replChar :: (utf8EmptyStep b).1, (utf8EmptyStep b).2)
    | _ => ([replChar], [])

/-- Run the decoder over the token stream; a pending incomplete sequence
at the end yields one replacement character. -/
def utf8Run : List Nat → List QTok → List Char
  | st, [] => if st = [] then [] else [replChar]
  | st, t :: rest => (utf8StepTok st t).1 ++ utf8Run (utf8StepTok st t).2 rest

/-- `urllib.parse.unquote` with UTF-8/replace (the defaults used by
`parse_qsl`): `%XX` escape runs are decoded as UTF-8 with
`errors='replace'`, literal characters pass through. -/
def unquoteM (l : List Char) : List Char :=
  utf8Run [] (escTokens l)

/-- The always-safe characters of CPython `quote` (RFC 3986 unreserved). -/
def alwaysSafe (c : Char) : Bool :=
  isAsciiAlpha c ∨ isDigitCh c ∨ c ∈ ['_', '.', '-', '~']

/-- `%XX` escape (uppercase hex) of one byte. -/
def quoteByte (b : Nat) : List Char :=
  ['%', hexDigitUpper (b / 16), hexDigitUpper (b % 16)]

/-- `urllib.parse.quote_plus(s, safe='')`: keep always-safe characters,
map space to `+`, escape everything else as UTF-8 `%XX` runs. -/
def quotePlus (s : List Char) : List Char :=
  s.flatMap fun c =>
    if alwaysSafe c then [c]
    else if c = ' ' then ['+']
    else (utf8Encode c).flatMap quoteByte

/-- `'&'.join` of the `k=v` parts: the final step of `urlencode`. -/
def joinAmp : List (List Char) → List Char
  | [] => []
  | [x] => x
  | x :: y :: rest => x ++ '&' :: joinAmp (y :: rest)

/-- `urllib.parse.urlencode(params, doseq=True)` on string pairs:
`quote_plus` each key and value, join as `k=v` with `&`. -/
def urlencodeM (params : List (List Char × List Char)) : List Char :=
  joinAmp (params.map fun kv => quotePlus kv.1 ++ '=' :: quotePlus kv.2)

/-! ## Model of `urllib.parse.urlsplit` / `urlparse` (CPython 3.11)

Faithful to CPython on the fragment the claims exercise.  Two deliberate
approximations, neither reachable from any theorem below: `_checknetloc`'s
NFKC check (which can raise only for certain non-ASCII netlocs) is not
modelled, and `str.lower` is modelled as ASCII lowercasing (`Char.toLower`). -/

def scheme_chars : List Char :=
  String.data "abcdefghijklmnopqrstuvwxyzABCDEFGHIJKLMNOPQRSTUVWXYZ0123456789+-."

def lowerL (l : List Char) : List Char := l.map Char.toLower

/-- `_WHATWG_C0_CONTROL_OR_SPACE` membership (chars stripped from the left). -/
def controlOrSpace (c : Char) : Bool := c.val ≤ 0x20

/-- `_UNSAFE_URL_BYTES_TO_REMOVE` membership (removed everywhere). -/
def isUnsafeByte (c : Char) : Bool := c = '\t' ∨ c = '\r' ∨ c = '\n'

def isNetlocDelim (c : Char) : Bool := c = '/' ∨ c = '?' ∨ c = '#'

/-- The scheme-extraction step of `urlsplit`: split at the first `:` when
the part before it is a nonempty ASCII-alpha-initial run of
`scheme_chars`; the extracted scheme is lowercased. -/
def splitScheme (url : List Char) : List Char × List Char :=
  match splitFirst ':' url with
  | none => ([], url)
  | some br =>
    match br.1 with
    | [] => ([], url)
    | c0 :: _ =>
      if c0.val < 128 ∧ isAsciiAlpha c0 ∧ br.1.all (fun c => c ∈ scheme_chars) then
        (lowerL br.1, br.2)
      else ([], url)

/-- Digits-to-value (for IPv4 octets). -/
def digitsToNat (s : List Char) : Nat :=
  s.foldl (fun acc c => acc * 10 + (c.toNat - 48)) 0

/-- One dotted-quad octet as accepted by `ipaddress.IPv4Address`:
1–3 digits, value ≤ 255, no leading zero. -/
def isIPv4Octet (s : List Char) : Bool :=
  s ≠ [] ∧ s.length ≤ 3 ∧ s.all isDigitCh ∧ (s.length = 1 ∨ s.head? ≠ some '0') ∧
    digitsToNat s ≤ 255

def isIPv4 (s : List Char) : Bool :=
  let parts := splitAll '.' s
  parts.length = 4 ∧ parts.all isIPv4Octet

/-- One IPv6 hextet: 1–4 hex digits. -/
def isHextet (s : List Char) : Bool :=
  s ≠ [] ∧ s.length ≤ 4 ∧ s.all isHexDigit

/-- IPv6 address body (no zone), after `ipaddress.IPv6Address`:
colon-separated hextets with at most one `::`, optional dotted-quad tail. -/
def isIPv6Core (s : List Char) : Bool :=
  let parts0 := splitAll ':' s
  if parts0.length < 3 then false
  else
    let tailIPv4 : Bool := match parts0.getLast? with
      | some last => last.contains '.'
      | none => false
    let parts := if tailIPv4 then parts0.dropLast ++ [['0'], ['0']] else parts0
    let tailOk : Bool := if tailIPv4 then
        match parts0.getLast? with
        | some last => isIPv4 last
        | none => false
      else true
    if tailOk = false then false
    else if parts.length > 9 then false
    else
      let n := parts.length
      let inner := (List.range n).filter fun i =>
        0 < i ∧ i < n - 1 ∧ parts.getD i ['x'] = []
      match inner with
      | [] =>
        n = 8 ∧ parts.all isHextet
      | [i] =>
        let hi := if parts.getD 0 ['x'] = [] then i - 1 else i
        let lo := if parts.getD (n - 1) ['x'] = [] then n - i - 2 else n - i - 1
        (if parts.getD 0 ['x'] = [] then i - 1 = 0 else true) ∧
        (if parts.getD (n - 1) ['x'] = [] then n - i - 2 = 0 else true) ∧
        hi + lo ≤ 7 ∧
        ((List.range hi).all fun j => isHextet (parts.getD j [])) ∧
        ((List.range lo).all fun j => isHextet (parts.getD (n - 1 - j) []))
      | _ => false

/-- IPv6 with optional nonempty `%zone` suffix (`ipaddress.ip_address`). -/
def isIPv6Scope (h : List Char) : Bool :=
  match splitFirst '%' h with
  | none => isIPv6Core h
  | some r => isIPv6Core r.1 ∧ r.2 ≠ [] ∧ '%' ∉ r.2

/-- `_check_bracketed_host` (CPython ≥ 3.11): IPvFuture
`v<hex>+.<nonempty>` or a valid IPv6 address (IPv4 may not be bracketed). -/
def checkBracketedHost (h : List Char) : Bool :=
  match h with
  | 'v' :: rest =>
    match splitFirst '.' rest with
    | some r => r.1 ≠ [] ∧ r.1.all isHexDigit ∧ r.2 ≠ []
    | none => false
  | _ => isIPv6Scope h

/-- The text between the first `[` and the following `]` of the netloc
(`netloc.partition('[')[2].partition(']')[0]`). -/
def bracketedHostOf (netloc : List Char) : List Char :=
  ((netloc.dropWhile (fun c => c ≠ '[')).drop 1).takeWhile (fun c => c ≠ ']')

/-- The five components returned by `urlsplit`. -/
structure SplitR where
  scheme : List Char
  netloc : List Char
  path : List Char
  query : List Char
  fragment : List Char
deriving DecidableEq, Repr

/-- The six components returned by `urlparse`. -/
structure ParseR where
  scheme : List Char
  netloc : List Char
  path : List Char
  params : List Char
  query : List Char
  fragment : List Char
deriving DecidableEq, Repr

/-- Fragment-then-query extraction (the last two splits of `urlsplit`). -/
def splitFragQuery (scheme netloc u : List Char) : SplitR :=
  let fr := match splitFirst '#' u with
    | some r => r
    | none => (u, [])
  let qr := match splitFirst '?' fr.1 with
    | some r => r
    | none => (fr.1, [])
  ⟨scheme, netloc, qr.1, qr.2, fr.2⟩

/-- `urllib.parse.urlsplit(url)` (default arguments).  `.error` models the
`ValueError` raised for mismatched netloc brackets or an invalid bracketed
host. -/
def urlsplitM (url0 : List Char) : Except Unit SplitR :=
  let u1 := url0.dropWhile controlOrSpace
  let u2 := u1.filter (fun c => ¬ isUnsafeByte c)
  let sp := splitScheme u2
  let u3 := sp.2
  if u3.take 2 = ['/', '/'] then
    let netloc := (u3.drop 2).takeWhile (fun c => ¬ isNetlocDelim c)
    let u4 := (u3.drop 2).dropWhile (fun c => ¬ isNetlocDelim c)
    if netloc.contains '[' != netloc.contains ']' then Except.error ()
    else if netloc.contains '[' ∧ ¬ checkBracketedHost (bracketedHostOf netloc) then
      Except.error ()
    else Except.ok (splitFragQuery sp.1 netloc u4)
  else Except.ok (splitFragQuery sp.1 [] u3)

def uses_params : List (List Char) :=
  (["", "ftp", "hdl", "prospero", "http", "imap", "https", "shttp", "rtsp",
    "rtsps", "rtspu", "sip", "sips", "mms", "sftp", "tel"].map String.data)

/-- `_splitparams`: split `;params` out of the last path segment. -/
def splitparamsM (url : List Char) : List Char × List Char :=
  if '/' ∈ url then
    match splitLast '/' url with
    | some r =>
      match splitFirst ';' r.2 with
      | some sr => (r.1 ++ '/' :: sr.1, sr.2)
      | none => (url, [])
    | none => (url, [])
  else
    match splitFirst ';' url with
    | some sr => (sr.1, sr.2)
    | none => (url, [])

/-- `urllib.parse.urlparse(url)` (default arguments). -/
def urlparseM (url : List Char) : Except Unit ParseR :=
  match urlsplitM url with
  | Except.error e => Except.error e
  | Except.ok r =>
    if r.scheme ∈ uses_params ∧ ';' ∈ r.path then
      let pr := splitparamsM r.path
      Except.ok ⟨r.scheme, r.netloc, pr.1, pr.2, r.query, r.fragment⟩
    else
      Except.ok ⟨r.scheme, r.netloc, r.path, [], r.query, r.fragment⟩

/-- `+` to space, then `unquote`: the per-field decoding of `parse_qsl`. -/
def unqueryDecode (x : List Char) : List Char :=
  unquoteM (x.map fun c => if c = '+' then ' ' else c)

/-- `urllib.parse.parse_qsl(qs, keep_blank_values=True)`. -/
def parseQsl (qs : List Char) : List (List Char × List Char) :=
  if qs = [] then []
  else
    ((splitAll '&' qs).filter (fun s => s ≠ [])).map fun s =>
      match splitFirst '=' s with
      | some kv => (unqueryDecode kv.1, unqueryDecode kv.2)
      | none => (unqueryDecode s, [])

def uses_netloc : List (List Char) :=
  (["", "ftp", "http", "gopher", "nntp", "telnet", "imap", "wais", "file",
    "mms", "https", "shttp", "snews", "prospero", "rtsp", "rtsps", "rtspu",
    "rsync", "svn", "svn+ssh", "sftp", "nfs", "git", "git+ssh", "ws",
    "wss"].map String.data)

/-- `urllib.parse.urlunsplit` (CPython 3.11). -/
def urlunsplitM (scheme netloc url query fragment : List Char) : List Char :=
  let url1 :=
    if netloc ≠ [] ∨ (scheme ≠ [] ∧ scheme ∈ uses_netloc ∧ url.take 2 ≠ ['/', '/']) then
      let u := if url ≠ [] ∧ url.take 1 ≠ ['/'] then '/' :: url else url
      '/' :: '/' :: (netloc ++ u)
    else url
  let url2 := if scheme ≠ [] then scheme ++ ':' :: url1 else url1
  let url3 := if query ≠ [] then url2 ++ '?' :: query else url2
  if fragment ≠ [] then url3 ++ '#' :: fragment else url3

/-- `urllib.parse.urlunparse`. -/
def urlunparseM (scheme netloc url params query fragment : List Char) : List Char :=
  urlunsplitM scheme netloc (if params ≠ [] then url ++ ';' :: params else url)
    query fragment

/-! ## `canonicalize_url` from `build_graph.py` -/

/-- The `TRACKING_PARAMS` set of `build_graph.py`. -/
def TRACKING_PARAMS : List (List Char) :=
  (["fbclid", "gclid", "igshid", "mc_cid", "mc_eid", "msclkid", "ref",
    "ref_src", "utm_campaign", "utm_content", "utm_medium", "utm_source",
    "utm_term"].map String.data)

/-- A query key dropped by `canonicalize_url`: lowercased key in
`TRACKING_PARAMS` or starting with `utm_`. -/
def isTrackingKey (k : List Char) : Bool :=
  let kl := lowerL k
  kl ∈ TRACKING_PARAMS ∨ kl.take 4 = String.data "utm_"

/-- Strip `:80`/`:443` for matching scheme (`netloc.rsplit(":", 1)`). -/
def stripDefaultPort (scheme netloc : List Char) : List Char :=
  if ':' ∈ netloc then
    match splitLast ':' netloc with
    | some r =>
      if (scheme = String.data "http" ∧ r.2 = String.data "80") ∨
         (scheme = String.data "https" ∧ r.2 = String.data "443") then r.1
      else netloc
    | none => netloc
  else netloc

/-- Strip one leading `www.` label. -/
def stripWww (netloc : List Char) : List Char :=
  if netloc.take 4 = String.data "www." then netloc.drop 4 else netloc

/-- Strip a single trailing slash from a non-root path. -/
def stripTrailSlash (path : List Char) : List Char :=
  if path ≠ String.data "/" ∧ path.getLast? = some '/' then path.dropLast else path

/-- The query pipeline of `canonicalize_url`: parse, drop tracking keys,
sort by `(key, value)`, re-encode. -/
def canonQuery (query : List Char) : List Char :=
  urlencodeM (insSort pairLtB ((parseQsl query).filter fun kv => ¬ isTrackingKey kv.1))

/-- The component normalization of `canonicalize_url` (its body after
`urlparse` succeeded), ending in `urlunparse`. -/
def canonParts (parsed : ParseR) : List Char :=
  let scheme := lowerL (if parsed.scheme = [] then String.data "https" else parsed.scheme)
  let netloc := stripWww (stripDefaultPort scheme (lowerL parsed.netloc))
  let path := stripTrailSlash (if parsed.path = [] then String.data "/" else parsed.path)
  urlunparseM scheme netloc path [] (canonQuery parsed.query) []

/-- `canonicalize_url` from `build_graph.py`: normalize a URL, returning
the input unchanged when `urlparse` raises. -/
def canonicalize_url (url : String) : String :=
  match urlparseM url.data with
  | Except.error _ => url
  | Except.ok parsed => String.mk (canonParts parsed)

/-! ## Fingerprinter: `simhash_from_tokens` and `hamming_distance`

`simhash_from_tokens` keeps, per bit position `0 ≤ i < 64`, a vote counter
incremented when bit `i` of the token hash is set and decremented otherwise,
and finally sets output bit `i` when the counter is positive.  The 64-bit
md5-derived token hash `int.from_bytes(hashlib.md5(token).digest()[:8], "big")`
is abstracted as the parameter `h`. -/

/-- Per-token contribution to one slot of the 64-slot vote vector:
`+1` if bit `i` of the token's hash is set, `-1` otherwise. -/
def tokenVote (h : String → Nat) (t : String) (i : Nat) : Int :=
  if (h t >>> i) &&& 1 = 1 then 1 else -1

/-- The 64-slot vote vector accumulated over all token occurrences
(the Python `vector` list, modelled as a function on slot indices). -/
def simhashVector (h : String → Nat) (tokens : List String) : Nat → Int :=
  tokens.foldl (fun v t => fun i => v i + tokenVote h t i) (fun _ => 0)

/-- `simhash_from_tokens` from `build_graph.py` (md5 abstracted as `h`):
returns `none` on an empty token list, otherwise the 64-bit value whose bit
`i` is set exactly when the vote for slot `i` is positive. -/
def simhash_from_tokens (h : String → Nat) (tokens : List String) : Option Nat :=
  if tokens = [] then none
  else
    let vector := simhashVector h tokens
    some ((List.range 64).foldl
      (fun value i => if 0 < vector i then value ||| (1 <<< i) else value) 0)

/-- Halving loop for `popCount`; the first argument is fuel, and `m`
halvings reach `0` from any `m ≤ fuel`. -/
def popCountAux : Nat → Nat → Nat
  | 0, _ => 0
  | fuel + 1, m => if m = 0 then 0 else m % 2 + popCountAux fuel (m / 2)

/-- Population count of a natural number's binary representation
(Python `int.bit_count()` for non-negative ints). -/
def popCount (n : Nat) : Nat := popCountAux n n

/-- `hamming_distance` from `build_graph.py`: popcount of the XOR. -/
def hamming_distance (a b : Nat) : Nat :=
  popCount (a ^^^ b)

/-! The vote vector depends only on the token multiset. -/

theorem simhashVector_perm (h : String → Nat) {t1 t2 : List String}
    (p : t1.Perm t2) : simhashVector h t1 = simhashVector h t2 := by
  unfold simhashVector
  refine p.foldl_eq' ?_ _
  intro x _ y _ v
  funext i
  show v i + tokenVote h x i + tokenVote h y i = v i + tokenVote h y i + tokenVote h x i
  ring

/-! ## Union-find (flat parent array, path halving on find)

`dedupe_tabs` and `build_groups` both build `parent = list(range(len(tabs)))`
with

  def find(x):
      while parent[x] != x:
          parent[x] = parent[parent[x]]
          x = parent[x]
      return x

  def union(a, b):
      ra, rb = find(a), find(b)
      if ra != rb:
          parent[rb] = ra

The parent list is modelled as a function `Nat → Nat` (every access the
code performs is in range); the `while` loop is modelled with fuel `n`,
which the `findAux_spec`/`root_short` lemmas prove sufficient. -/

/-- Point update of the parent function (`parent[x] = v`). -/
def ufUpdate (p : Nat → Nat) (x v : Nat) : Nat → Nat :=
  fun y => if y = x then v else p y

structure UF where
  n : Nat
  parent : Nat → Nat

/-- `parent = list(range(n))`. -/
def UF.init (n : Nat) : UF := ⟨n, fun x => x⟩

/-- The `find` loop with path halving, with explicit fuel. -/
def findAux : Nat → (Nat → Nat) → Nat → Nat × (Nat → Nat)
  | 0, p, x => (x, p)
  | fuel + 1, p, x =>
    if p x = x then (x, p)
    else findAux fuel (ufUpdate p x (p (p x))) (p (p x))

def UF.find (uf : UF) (x : Nat) : Nat × UF :=
  ((findAux uf.n uf.parent x).1, ⟨uf.n, (findAux uf.n uf.parent x).2⟩)

/-- `union(a, b)`: find both roots, point `rb` at `ra` when distinct. -/
def UF.union (uf : UF) (a b : Nat) : UF :=
  let fa := uf.find a
  let fb := fa.2.find b
  if fa.1 ≠ fb.1 then ⟨fb.2.n, ufUpdate fb.2.parent fb.1 fa.1⟩ else fb.2

/-- `r` is the root of `x`: reachable by iterating `parent` and a fixpoint. -/
def HasRoot (p : Nat → Nat) (x r : Nat) : Prop :=
  (∃ k, p^[k] x = r) ∧ p r = r

/-- `x` and `y` lie in the same union-find class. -/
def SameRoot (p : Nat → Nat) (x y : Nat) : Prop :=
  ∃ r, HasRoot p x r ∧ HasRoot p y r

/-- The parent function maps `[0, n)` into itself. -/
def PRange (n : Nat) (p : Nat → Nat) : Prop :=
  ∀ x, x < n → p x < n

/-- Well-formed union-find state: range-closed and every node has a root. -/
def WFp (n : Nat) (p : Nat → Nat) : Prop :=
  PRange n p ∧ ∀ x, x < n → ∃ r, HasRoot p x r

def UF.WF (uf : UF) : Prop := WFp uf.n uf.parent

theorem UF.init_WF (n : Nat) : (UF.init n).WF := by
  constructor
  · intro x hx
    exact hx
  · intro x _
    exact ⟨x, ⟨0, rfl⟩, rfl⟩

theorem hasRoot_self {p : Nat → Nat} {r : Nat} (h : p r = r) : HasRoot p r r :=
  ⟨⟨0, rfl⟩, h⟩

theorem hasRoot_unique {p : Nat → Nat} {x r s : Nat}
    (hr : HasRoot p x r) (hs : HasRoot p x s) : r = s := by
  obtain ⟨⟨k1, h1⟩, f1⟩ := hr
  obtain ⟨⟨k2, h2⟩, f2⟩ := hs
  rcases le_total k1 k2 with h | h
  · have : p^[k2] x = r := by
      have e : k2 = (k2 - k1) + k1 := by omega
      rw [e, Function.iterate_add_apply, h1, Function.iterate_fixed f1]
    rw [this] at h2
    exact h2
  · have : p^[k1] x = s := by
      have e : k1 = (k1 - k2) + k2 := by omega
      rw [e, Function.iterate_add_apply, h2, Function.iterate_fixed f2]
    rw [this] at h1
    exact h1.symm

theorem hasRoot_step {p : Nat → Nat} {x r : Nat} (h : HasRoot p x r) :
    HasRoot p (p x) r := by
  obtain ⟨⟨k, hk⟩, hfix⟩ := h
  cases k with
  | zero =>
    subst hk
    exact ⟨⟨0, by simpa using hfix⟩, hfix⟩
  | succ k =>
    rw [Function.iterate_succ_apply] at hk
    exact ⟨⟨k, hk⟩, hfix⟩

theorem sameRoot_refl {p : Nat → Nat} {x r : Nat} (h : HasRoot p x r) :
    SameRoot p x x := ⟨r, h, h⟩

theorem sameRoot_symm {p : Nat → Nat} {x y : Nat} (h : SameRoot p x y) :
    SameRoot p y x := by
  obtain ⟨r, h1, h2⟩ := h
  exact ⟨r, h2, h1⟩

theorem sameRoot_trans {p : Nat → Nat} {x y z : Nat}
    (h1 : SameRoot p x y) (h2 : SameRoot p y z) : SameRoot p x z := by
  obtain ⟨r, hx, hy⟩ := h1
  obtain ⟨s, hy2, hz⟩ := h2
  rw [hasRoot_unique hy hy2] at hx
  exact ⟨s, hx, hz⟩

/-- Path halving (`parent[x] = parent[parent[x]]`) preserves every
root-reachability fact, without lengthening any path. -/
theorem halve_iterate {p : Nat → Nat} {x r : Nat} (hx : p x ≠ x) (hroot : p r = r) :
    ∀ k y, p^[k] y = r → ∃ m, m ≤ k ∧ (ufUpdate p x (p (p x)))^[m] y = r := by
  intro k
  induction k using Nat.strong_induction_on with
  | _ k ih =>
    intro y hy
    match k with
    | 0 =>
      exact ⟨0, le_rfl, hy⟩
    | k + 1 =>
      rw [Function.iterate_succ_apply] at hy
      by_cases hyx : y = x
      · subst hyx
        match k with
        | 0 =>
          simp only [Function.iterate_zero_apply] at hy
          refine ⟨1, by omega, ?_⟩
          have hg : ufUpdate p y (p (p y)) y = r := by
            unfold ufUpdate
            simp [hy, hroot]
          simp [Function.iterate_one, hg]
        | k0 + 1 =>
          rw [Function.iterate_succ_apply] at hy
          obtain ⟨m, hm, hm2⟩ := ih k0 (by omega) (p (p y)) hy
          refine ⟨m + 1, by omega, ?_⟩
          rw [Function.iterate_succ_apply]
          have hstep : ufUpdate p y (p (p y)) y = p (p y) := by
            unfold ufUpdate
            simp
          rw [hstep]
          exact hm2
      · obtain ⟨m, hm, hm2⟩ := ih k (by omega) (p y) hy
        refine ⟨m + 1, by omega, ?_⟩
        rw [Function.iterate_succ_apply]
        have : ufUpdate p x (p (p x)) y = p y := by
          unfold ufUpdate
          simp [hyx]
        rw [this]
        exact hm2

theorem halve_hasRoot {p : Nat → Nat} {x r y : Nat} (hx : p x ≠ x)
    (h : HasRoot p y r) : HasRoot (ufUpdate p x (p (p x))) y r := by
  obtain ⟨⟨k, hk⟩, hroot⟩ := h
  have hrx : r ≠ x := by
    intro he
    rw [he] at hroot
    exact hx hroot
  obtain ⟨m, _, hm⟩ := halve_iterate hx hroot k y hk
  refine ⟨⟨m, hm⟩, ?_⟩
  unfold ufUpdate
  simp [hrx, hroot]

/-- Specification of the `find` loop: given fuel at least the distance to
the root, it returns the root, preserves every root assignment (shortening
paths only), and keeps the parent function range-closed. -/
theorem findAux_spec : ∀ (fuel : Nat) (p : Nat → Nat) (x k r : Nat),
    p^[k] x = r → p r = r → k ≤ fuel →
    (findAux fuel p x).1 = r ∧
    (∀ y s k₂, p^[k₂] y = s → p s = s →
      (∃ k₃, k₃ ≤ k₂ ∧ ((findAux fuel p x).2)^[k₃] y = s) ∧ (findAux fuel p x).2 s = s) ∧
    (∀ (n : Nat), PRange n p → x < n → PRange n (findAux fuel p x).2) := by
  intro fuel
  induction fuel with
  | zero =>
    intro p x k r hk hroot hfuel
    have hk0 : k = 0 := by omega
    subst hk0
    simp only [Function.iterate_zero_apply] at hk
    refine ⟨hk, ?_, ?_⟩
    · intro y s k₂ h1 h2
      exact ⟨⟨k₂, le_rfl, h1⟩, h2⟩
    · intro n hp _
      exact hp
  | succ fuel ih =>
    intro p x k r hk hroot hfuel
    by_cases hpx : p x = x
    · have hr : r = x := by
        rw [Function.iterate_fixed hpx k] at hk
        exact hk.symm
      subst hr
      rw [findAux, if_pos hpx]
      refine ⟨rfl, ?_, ?_⟩
      · intro y s k₂ h1 h2
        exact ⟨⟨k₂, le_rfl, h1⟩, h2⟩
      · intro n hp _
        exact hp
    · have hk1 : ∃ k1, k = k1 + 1 := by
        cases k with
        | zero =>
          exfalso
          simp only [Function.iterate_zero_apply] at hk
          rw [hk] at hpx
          exact hpx hroot
        | succ k1 => exact ⟨k1, rfl⟩
      obtain ⟨k1, rfl⟩ := hk1
      rw [Function.iterate_succ_apply] at hk
      have hrunfold : findAux (fuel + 1) p x = findAux fuel (ufUpdate p x (p (p x))) (p (p x)) := by
        rw [findAux, if_neg hpx]
      set p' := ufUpdate p x (p (p x)) with hp'
      have hrootne : r ≠ x := by
        intro he
        rw [he] at hroot
        exact hpx hroot
      have hp'root : p' r = r := by
        rw [hp']
        unfold ufUpdate
        simp [hrootne, hroot]
      have hg : ∃ m, m ≤ fuel ∧ p'^[m] (p (p x)) = r := by
        cases k1 with
        | zero =>
          have hpxr : p x = r := hk
          refine ⟨0, by omega, ?_⟩
          simp [hpxr, hroot]
        | succ k2 =>
          rw [Function.iterate_succ_apply] at hk
          obtain ⟨m, hm, hm2⟩ := halve_iterate hpx hroot k2 (p (p x)) hk
          exact ⟨m, by omega, hm2⟩
      obtain ⟨m, hmle, hm⟩ := hg
      obtain ⟨ih1, ih2, ih3⟩ := ih p' (p (p x)) m r hm hp'root hmle
      rw [hrunfold]
      refine ⟨ih1, ?_, ?_⟩
      · intro y s k₂ h1 h2
        have hsne : s ≠ x := by
          intro he
          rw [he] at h2
          exact hpx h2
        have hp's : p' s = s := by
          rw [hp']
          unfold ufUpdate
          simp [hsne, h2]
        obtain ⟨m2, hm2le, hm2⟩ := halve_iterate hpx h2 k₂ y h1
        obtain ⟨⟨k₃, hk₃le, hk₃⟩, hfix⟩ := ih2 y s m2 hm2 hp's
        exact ⟨⟨k₃, by omega, hk₃⟩, hfix⟩
      · intro n hp hx
        have hp'range : PRange n p' := by
          intro y hy
          rw [hp']
          unfold ufUpdate
          by_cases hyx : y = x
          · simp [hyx]
            exact hp _ (hp _ hx)
          · simp [hyx]
            exact hp _ hy
        exact ih3 n hp'range (hp _ (hp _ hx))

theorem iterate_lt {n : Nat} {p : Nat → Nat} (hp : PRange n p) {x : Nat} (hx : x < n) :
    ∀ k, p^[k] x < n := by
  intro k
  induction k with
  | zero => simpa using hx
  | succ k ih =>
    rw [Function.iterate_succ_apply']
    exact hp _ ih

theorem hasRoot_lt {n : Nat} {p : Nat → Nat} (hp : PRange n p) {y r : Nat}
    (hy : y < n) (h : HasRoot p y r) : r < n := by
  obtain ⟨⟨k, hk⟩, _⟩ := h
  rw [← hk]
  exact iterate_lt hp hy k

/-- In a range-closed parent function on `[0, n)`, any root reachable at
all is reachable in at most `n` steps (pigeonhole on the iterates). -/
theorem root_short {n : Nat} {p : Nat → Nat} (hp : PRange n p) {x r : Nat} (hx : x < n) :
    ∀ k, p^[k] x = r → ∃ k', k' ≤ n ∧ p^[k'] x = r := by
  intro k
  induction k using Nat.strong_induction_on with
  | _ k ih =>
    intro hk
    by_cases hkn : k ≤ n
    · exact ⟨k, hkn, hk⟩
    · have hshort : ∀ iv jv : Nat, iv < jv → jv ≤ n → p^[iv] x = p^[jv] x →
          ∃ k2, k2 < k ∧ p^[k2] x = r := by
        intro iv jv hij hjn heq
        refine ⟨(k - jv) + iv, by omega, ?_⟩
        have : p^[(k - jv) + jv] x = r := by
          have e : (k - jv) + jv = k := by omega
          rw [e]
          exact hk
        rw [Function.iterate_add_apply, ← heq, ← Function.iterate_add_apply] at this
        exact this
      have hcard : Fintype.card (Fin n) < Fintype.card (Fin (n + 1)) := by
        simp
      obtain ⟨i, j, hne, heq⟩ := Fintype.exists_ne_map_eq_of_card_lt
        (fun i : Fin (n + 1) => (⟨p^[(i : Nat)] x, iterate_lt hp hx i⟩ : Fin n)) hcard
      have heqv : p^[(i : Nat)] x = p^[(j : Nat)] x := by
        have := congrArg (fun t : Fin n => (t : Nat)) heq
        simpa using this
      have hijne : (i : Nat) ≠ (j : Nat) := by
        intro hcon
        exact hne (Fin.ext hcon)
      rcases Nat.lt_or_ge (i : Nat) (j : Nat) with hij | hij
      · obtain ⟨k2, hk2, hk2e⟩ := hshort i j hij (by omega) heqv
        exact ih k2 hk2 hk2e
      · have hij' : (j : Nat) < (i : Nat) := by omega
        obtain ⟨k2, hk2, hk2e⟩ := hshort j i hij' (by omega) heqv.symm
        exact ih k2 hk2 hk2e

/-- Specification of `UF.find`: preserves the size, returns the root of
`x` (w.r.t. the state both before and after), preserves every root
assignment, and preserves well-formedness. -/
theorem UF.find_spec (uf : UF) (hwf : uf.WF) (x : Nat) (hx : x < uf.n) :
    (uf.find x).2.n = uf.n ∧
    HasRoot uf.parent x (uf.find x).1 ∧
    (∀ y s, HasRoot uf.parent y s → HasRoot (uf.find x).2.parent y s) ∧
    (uf.find x).2.WF := by
  obtain ⟨hrange, hroots⟩ := hwf
  obtain ⟨r, hr⟩ := hroots x hx
  obtain ⟨⟨k, hk⟩, hfix⟩ := hr
  obtain ⟨k', hk'n, hk'e⟩ := root_short hrange hx k hk
  obtain ⟨h1, h2, h3⟩ := findAux_spec uf.n uf.parent x k' r hk'e hfix hk'n
  have hpres : ∀ y s, HasRoot uf.parent y s → HasRoot (uf.find x).2.parent y s := by
    intro y s hs
    obtain ⟨⟨k2, hk2⟩, hfix2⟩ := hs
    obtain ⟨⟨k3, _, hk3⟩, hfix3⟩ := h2 y s k2 hk2 hfix2
    exact ⟨⟨k3, hk3⟩, hfix3⟩
  refine ⟨rfl, ?_, hpres, ?_, ?_⟩
  · show HasRoot uf.parent x (uf.find x).1
    have : (uf.find x).1 = r := h1
    rw [this]
    exact ⟨⟨k, hk⟩, hfix⟩
  · show PRange (uf.find x).2.n (uf.find x).2.parent
    exact h3 uf.n hrange hx
  · intro y hy
    obtain ⟨s, hs⟩ := hroots y hy
    exact ⟨s, hpres y s hs⟩

theorem sameRoot_iff_of_pres {n : Nat} {p p' : Nat → Nat} (hwf : WFp n p)
    (hpres : ∀ y s, HasRoot p y s → HasRoot p' y s) {y z : Nat}
    (hy : y < n) (hz : z < n) :
    SameRoot p y z ↔ SameRoot p' y z := by
  constructor
  · rintro ⟨r, h1, h2⟩
    exact ⟨r, hpres _ _ h1, hpres _ _ h2⟩
  · rintro ⟨r, h1, h2⟩
    obtain ⟨sy, hsy⟩ := hwf.2 y hy
    obtain ⟨sz, hsz⟩ := hwf.2 z hz
    have e1 : sy = r := hasRoot_unique (hpres _ _ hsy) h1
    have e2 : sz = r := hasRoot_unique (hpres _ _ hsz) h2
    exact ⟨r, e1 ▸ hsy, e2 ▸ hsz⟩

theorem hasRoot_iff_of_pres {n : Nat} {p p' : Nat → Nat} (hwf : WFp n p)
    (hpres : ∀ y s, HasRoot p y s → HasRoot p' y s) {y : Nat}
    (hy : y < n) (s : Nat) :
    HasRoot p y s ↔ HasRoot p' y s := by
  constructor
  · exact hpres y s
  · intro h'
    obtain ⟨t, ht⟩ := hwf.2 y hy
    have e : t = s := hasRoot_unique (hpres _ _ ht) h'
    exact e ▸ ht

/-- `parent[rb] = ra`: classes of `rb` get root `ra`, others keep theirs. -/
theorem shift_to_rb {p : Nat → Nat} {ra rb : Nat} (hrb : p rb = rb) :
    ∀ k y, p^[k] y = rb → ∃ m, (ufUpdate p rb ra)^[m] y = ra := by
  intro k
  induction k with
  | zero =>
    intro y hy
    simp only [Function.iterate_zero_apply] at hy
    subst hy
    refine ⟨1, ?_⟩
    simp only [Function.iterate_one]
    unfold ufUpdate
    simp
  | succ k ih =>
    intro y hy
    rw [Function.iterate_succ_apply] at hy
    by_cases hyrb : y = rb
    · subst hyrb
      refine ⟨1, ?_⟩
      simp only [Function.iterate_one]
      unfold ufUpdate
      simp
    · obtain ⟨m, hm⟩ := ih (p y) hy
      refine ⟨m + 1, ?_⟩
      rw [Function.iterate_succ_apply]
      have hstep : ufUpdate p rb ra y = p y := by
        unfold ufUpdate
        simp [hyrb]
      rw [hstep]
      exact hm

theorem shift_keep {p : Nat → Nat} {ra rb s : Nat} (hs : s ≠ rb) (hrb : p rb = rb) :
    ∀ k y, p^[k] y = s → (ufUpdate p rb ra)^[k] y = s := by
  intro k
  induction k with
  | zero =>
    intro y hy
    simpa using hy
  | succ k ih =>
    intro y hy
    rw [Function.iterate_succ_apply] at hy ⊢
    by_cases hyrb : y = rb
    · exfalso
      subst hyrb
      rw [hrb, Function.iterate_fixed hrb k] at hy
      exact hs hy.symm
    · have hstep : ufUpdate p rb ra y = p y := by
        unfold ufUpdate
        simp [hyrb]
      rw [hstep]
      exact ih (p y) hy

theorem union_root_shift {p : Nat → Nat} {ra rb : Nat} (hra : p ra = ra)
    (hrb : p rb = rb) (hne : ra ≠ rb) :
    ∀ y s, HasRoot p y s → HasRoot (ufUpdate p rb ra) y (if s = rb then ra else s) := by
  intro y s hs
  obtain ⟨⟨k, hk⟩, hfix⟩ := hs
  have hra' : ufUpdate p rb ra ra = ra := by
    unfold ufUpdate
    simp [hne, hra]
  by_cases hsrb : s = rb
  · subst hsrb
    rw [if_pos rfl]
    obtain ⟨m, hm⟩ := @shift_to_rb p ra s hfix k y hk
    exact ⟨⟨m, hm⟩, hra'⟩
  · rw [if_neg hsrb]
    refine ⟨⟨k, shift_keep hsrb hrb k y hk⟩, ?_⟩
    unfold ufUpdate
    simp [hsrb, hfix]

/-- Specification of `UF.union`: size and well-formedness are preserved,
`a` and `b` become equivalent, and the equivalence of the new state is
exactly the old one extended by joining the classes of `a` and `b`. -/
theorem UF.union_spec (uf : UF) (hwf : uf.WF) (a b : Nat) (ha : a < uf.n) (hb : b < uf.n) :
    (uf.union a b).n = uf.n ∧ (uf.union a b).WF ∧
    SameRoot (uf.union a b).parent a b ∧
    (∀ y z, y < uf.n → z < uf.n →
      (SameRoot (uf.union a b).parent y z ↔
        (SameRoot uf.parent y z ∨
         (SameRoot uf.parent y a ∧ SameRoot uf.parent b z) ∨
         (SameRoot uf.parent y b ∧ SameRoot uf.parent a z)))) := by
  obtain ⟨hn1, hra, hpres1, hwf1⟩ := UF.find_spec uf hwf a ha
  obtain ⟨hn2, hrb1, hpres2, hwf2⟩ := UF.find_spec (uf.find a).2 hwf1 b (by rw [hn1]; exact hb)
  set ra := (uf.find a).1 with hradef
  set rb := ((uf.find a).2.find b).1 with hrbdef
  set uf2 := ((uf.find a).2.find b).2 with huf2def
  have hnn : uf2.n = uf.n := by rw [hn2, hn1]
  have hpres : ∀ y s, HasRoot uf.parent y s → HasRoot uf2.parent y s := by
    intro y s hs
    exact hpres2 y s (hpres1 y s hs)
  have hrb0 : HasRoot uf.parent b rb := by
    exact (hasRoot_iff_of_pres hwf hpres1 hb rb).mpr hrb1
  have hiffHR : ∀ y, y < uf.n → ∀ s, HasRoot uf.parent y s ↔ HasRoot uf2.parent y s := by
    intro y hy s
    exact hasRoot_iff_of_pres hwf hpres hy s
  have hiffSR : ∀ y z, y < uf.n → z < uf.n →
      (SameRoot uf.parent y z ↔ SameRoot uf2.parent y z) := by
    intro y z hy hz
    exact sameRoot_iff_of_pres hwf hpres hy hz
  have hra2 : HasRoot uf2.parent a ra := (hiffHR a ha ra).mp hra
  have hrb2 : HasRoot uf2.parent b rb := hpres2 b rb hrb1
  have hraroot : uf2.parent ra = ra := hra2.2
  have hrbroot : uf2.parent rb = rb := hrb2.2
  have hralt : ra < uf.n := hasRoot_lt hwf.1 ha hra
  have hrblt : rb < uf.n := hasRoot_lt hwf.1 hb hrb0
  have hunfold : uf.union a b =
      (if ra ≠ rb then (⟨uf2.n, ufUpdate uf2.parent rb ra⟩ : UF) else uf2) := by
    rfl
  by_cases hrr : ra = rb
  · rw [hunfold, if_neg (by simpa using hrr)]
    have hab2 : SameRoot uf2.parent a b := ⟨ra, hra2, hrr ▸ hrb2⟩
    have hab0 : SameRoot uf.parent a b := ⟨ra, hra, hrr ▸ hrb0⟩
    refine ⟨hnn, hwf2, hab2, ?_⟩
    intro y z hy hz
    rw [← hiffSR y z hy hz]
    constructor
    · intro h
      exact Or.inl h
    · intro h
      rcases h with h | ⟨h1, h2⟩ | ⟨h1, h2⟩
      · exact h
      · exact sameRoot_trans (sameRoot_trans h1 hab0) h2
      · exact sameRoot_trans (sameRoot_trans h1 (sameRoot_symm hab0)) h2
  · rw [hunfold, if_pos (by simpa using hrr)]
    set p3 := ufUpdate uf2.parent rb ra with hp3def
    have hshift : ∀ y s, HasRoot uf2.parent y s →
        HasRoot p3 y (if s = rb then ra else s) :=
      union_root_shift hraroot hrbroot hrr
    have hroot3 : ∀ y, y < uf.n → ∀ s, HasRoot uf.parent y s →
        HasRoot p3 y (if s = rb then ra else s) := by
      intro y hy s hs
      exact hshift y s ((hiffHR y hy s).mp hs)
    have hwf3 : WFp uf.n p3 := by
      constructor
      · intro y hy
        rw [hp3def]
        unfold ufUpdate
        by_cases hyrb : y = rb
        · simp only [hyrb, if_pos rfl]
          exact hralt
        · simp only [if_neg hyrb]
          have := hwf2.1 y (by rw [hnn]; exact hy)
          rw [hnn] at this
          exact this
      · intro y hy
        obtain ⟨s, hs⟩ := hwf.2 y hy
        exact ⟨if s = rb then ra else s, hroot3 y hy s hs⟩
    have hab3 : SameRoot p3 a b := by
      refine ⟨ra, ?_, ?_⟩
      · have := hroot3 a ha ra hra
        rw [if_neg hrr] at this
        exact this
      · have := hroot3 b hb rb hrb0
        rw [if_pos rfl] at this
        exact this
    refine ⟨hnn, ⟨?_, ?_⟩, hab3, ?_⟩
    · show PRange uf2.n p3
      rw [hnn]
      exact hwf3.1
    · show ∀ x, x < uf2.n → ∃ r, HasRoot p3 x r
      rw [hnn]
      exact hwf3.2
    · intro y z hy hz
      obtain ⟨sy, hsy⟩ := hwf.2 y hy
      obtain ⟨sz, hsz⟩ := hwf.2 z hz
      have hy3 := hroot3 y hy sy hsy
      have hz3 := hroot3 z hz sz hsz
      constructor
      · rintro ⟨r, h1, h2⟩
        have e1 : (if sy = rb then ra else sy) = r := hasRoot_unique hy3 h1
        have e2 : (if sz = rb then ra else sz) = r := hasRoot_unique hz3 h2
        have e3 : (if sy = rb then ra else sy) = (if sz = rb then ra else sz) := by
          rw [e1, e2]
        by_cases c1 : sy = rb
        · by_cases c2 : sz = rb
          · exact Or.inl ⟨sy, hsy, (c1.trans c2.symm) ▸ hsz⟩
          · rw [if_pos c1, if_neg c2] at e3
            exact Or.inr (Or.inr ⟨⟨rb, c1 ▸ hsy, hrb0⟩, ⟨ra, hra, e3 ▸ hsz⟩⟩)
        · by_cases c2 : sz = rb
          · rw [if_neg c1, if_pos c2] at e3
            exact Or.inr (Or.inl ⟨⟨ra, e3.symm ▸ hsy, hra⟩, ⟨rb, hrb0, c2 ▸ hsz⟩⟩)
          · rw [if_neg c1, if_neg c2] at e3
            exact Or.inl ⟨sy, hsy, e3 ▸ hsz⟩
      · intro h
        rcases h with ⟨r, h1, h2⟩ | ⟨⟨r1, hy1, ha1⟩, ⟨r2, hb2, hz2⟩⟩ |
          ⟨⟨r1, hy1, hb1⟩, ⟨r2, ha2, hz2⟩⟩
        · have e1 : sy = r := hasRoot_unique hsy h1
          have e2 : sz = r := hasRoot_unique hsz h2
          have e : sy = sz := e1.trans e2.symm
          refine ⟨if sy = rb then ra else sy, hy3, ?_⟩
          rw [e]
          exact hz3
        · have e1 : sy = r1 := hasRoot_unique hsy hy1
          have e2 : r1 = ra := hasRoot_unique ha1 hra
          have e3 : r2 = rb := hasRoot_unique hb2 hrb0
          have e4 : sz = r2 := hasRoot_unique hsz hz2
          refine ⟨ra, ?_, ?_⟩
          · have := hy3
            rw [e1, e2] at this
            rw [if_neg hrr] at this
            exact this
          · have := hz3
            rw [e4, e3] at this
            rw [if_pos rfl] at this
            exact this
        · have e1 : sy = r1 := hasRoot_unique hsy hy1
          have e2 : r1 = rb := hasRoot_unique hb1 hrb0
          have e3 : r2 = ra := hasRoot_unique ha2 hra
          have e4 : sz = r2 := hasRoot_unique hsz hz2
          refine ⟨ra, ?_, ?_⟩
          · have := hy3
            rw [e1, e2] at this
            rw [if_pos rfl] at this
            exact this
          · have := hz3
            rw [e4, e3] at this
            rw [if_neg hrr] at this
            exact this

/-! ## Tab records and `dedupe_tabs`

A tab is the dict produced by `load_tabs` and enriched by the collaborator
(the core reads `url`, `domain`, `canonical_url`, `simhash`, `keywords`,
`embedding`, and writes `canonical_url`, `duplicate_of`, `aliases`,
`group_id`).  `id` is assigned in input order by `load_tabs`, so in the
pipeline it always equals the tab's index in the full list. -/

structure Tab where
  id : Nat
  url : String
  title : String
  domain : String
  canonical_url : Option String
  simhash : Option Nat
  duplicate_of : Option Nat
  aliases : List String
  keywords : List String
  embedding : Option (List ℚ)
deriving DecidableEq, Repr, Inhabited

/-- Python `x or d` for an optional string (`None` and `""` are falsy). -/
def pyOrStr (o : Option String) (d : String) : String :=
  match o with
  | some s => if s = "" then d else s
  | none => d

/-- Python falsyness of an optional string. -/
def pyFalsy (o : Option String) : Bool :=
  match o with
  | some s => s = ""
  | none => true

/-- The canonical key computed in phase 1 of `dedupe_tabs`:
`tab.get("canonical_url") or canonicalize_url(tab.get("url", ""))`. -/
def canonOf (t : Tab) : String :=
  pyOrStr t.canonical_url (canonicalize_url t.url)

/-- `tabs[i]` (all accesses the code performs are in range). -/
def tget (tabs : List Tab) (i : Nat) : Tab := tabs.getD i default

/-- Apply a list of `union` operations in order. -/
def unionOps (ops : List (Nat × Nat)) (uf : UF) : UF :=
  ops.foldl (fun uf ab => uf.union ab.1 ab.2) uf

/-- The ordered pair list of a triangular loop
`for i in range(n): for j in range(i+1, n): if cond(i, j): union(i, j)`. -/
def pairsCondOps (n : Nat) (cond : Nat → Nat → Bool) : List (Nat × Nat) :=
  (List.range n).flatMap fun i =>
    (List.range' (i + 1) (n - (i + 1))).filterMap fun j =>
      if cond i j then some (i, j) else none

/-- Phase 1 of `dedupe_tabs`: canonical-url exact matching.  Walks the tab
list with its index, sets each tab's `canonical_url` to the computed key
(when nonempty), and unions each tab with the first tab that had the same
key (`canonical_map`).  Returns the updated tabs, the map and the
union-find state. -/
def dedupePhase1 : List Tab → Nat → (String → Option Nat) → UF →
    (List Tab × (String → Option Nat) × UF)
  | [], _, cmap, uf => ([], cmap, uf)
  | t :: rest, idx, cmap, uf =>
    let canonical := canonOf t
    if canonical = "" then
      let r := dedupePhase1 rest (idx + 1) cmap uf
      (t :: r.1, r.2)
    else
      let t' := { t with canonical_url := some canonical }
      match cmap canonical with
      | some prev =>
        let r := dedupePhase1 rest (idx + 1) cmap (uf.union idx prev)
        (t' :: r.1, r.2)
      | none =>
        let r := dedupePhase1 rest (idx + 1)
          (fun s => if s = canonical then some idx else cmap s) uf
        (t' :: r.1, r.2)

/-- The phase-2 union condition of `dedupe_tabs`: both simhashes present,
same nonempty domain, Hamming distance within the threshold.  (The code's
`continue` on a missing simhash or domain only skips work and is
equivalent to this guard.) -/
def dedupeCond (tabs : List Tab) (thr i j : Nat) : Bool :=
  match (tget tabs i).simhash, (tget tabs j).simhash with
  | some a, some b =>
    (tget tabs i).domain ≠ "" ∧ (tget tabs i).domain = (tget tabs j).domain ∧
      hamming_distance a b ≤ thr
  | _, _ => false

/-- Phase 2 of `dedupe_tabs`: simhash proximity within a domain. -/
def dedupePhase2 (tabs1 : List Tab) (thr : Nat) (uf : UF) : UF :=
  unionOps (pairsCondOps tabs1.length (dedupeCond tabs1 thr)) uf

/-- `d.setdefault(key, []).append(idx)` on an insertion-ordered dict. -/
def insertGroupK {κ : Type} [DecidableEq κ] :
    List (κ × List Nat) → κ → Nat → List (κ × List Nat)
  | [], r, idx => [(r, [idx])]
  | (k, mems) :: t, r, idx =>
    if k = r then (k, mems ++ [idx]) :: t
    else (k, mems) :: insertGroupK t r idx

/-- `for idx in idxs: groups.setdefault(find(idx), []).append(idx)` —
the group-collection loop shared by `dedupe_tabs` and `build_groups`
(note each `find` also path-compresses the state). -/
def groupFold : List Nat → UF → List (Nat × List Nat) →
    List (Nat × List Nat) × UF
  | [], uf, acc => (acc, uf)
  | idx :: rest, uf, acc =>
    groupFold rest (uf.find idx).2 (insertGroupK acc (uf.find idx).1 idx)

/-- Collect the union-find classes, keyed by root, in index order. -/
def UF.groups (uf : UF) : List (Nat × List Nat) × UF :=
  groupFold (List.range uf.n) uf []

/-- Python `min` on a (nonempty) list of ints. -/
def pyMin : List Nat → Nat
  | [] => 0
  | h :: t => t.foldl Nat.min h

/-- Code-point order on strings (Python string `<`). -/
def strLtB (a b : String) : Bool := lexLt a.data b.data

/-- Python `set(l)` modelled as deduplication (iteration order of a
Python set is unspecified; everything downstream sorts). -/
def dedupKeep : List String → List String
  | [] => []
  | x :: xs => if x ∈ dedupKeep xs then dedupKeep xs else x :: dedupKeep xs

/-- `sorted(set(l))` for strings: deduplicate, sort ascending. -/
def sortedStrSet (l : List String) : List String :=
  insSort strLtB (dedupKeep l)

def setTab (tabs : List Tab) (i : Nat) (t : Tab) : List Tab := tabs.set i t

/-- Resolution of one duplicate cluster (the body of the
`for indices in groups.values()` loop of `dedupe_tabs`), acting on
`(tabs, primary_map, duplicates)`. -/
def dedupeCluster (st : List Tab × (Nat → Option Nat) × Nat) (indices : List Nat) :
    List Tab × (Nat → Option Nat) × Nat :=
  let tabs := st.1
  let primary := pyMin indices
  let nonprimaries := indices.filter (fun idx => idx ≠ primary)
  let dups' := st.2.2 + nonprimaries.length
  let pm' := indices.foldl (fun m idx => fun x => if x = idx then some primary else m x) st.2.1
  let aliases := nonprimaries.map fun idx => (tget tabs idx).url
  if aliases = [] then (tabs, pm', dups')
  else
    let primary_tab := tget tabs primary
    let tabs1 := setTab tabs primary
      { primary_tab with
        aliases := sortedStrSet (primary_tab.aliases ++ aliases.filter (fun u => u ≠ "")) }
    let tabs2 := indices.foldl (fun ts idx =>
      if idx = primary then ts
      else
        let t := tget ts idx
        let t1 := { t with duplicate_of := some primary }
        let t2 := if pyFalsy t1.canonical_url then
            { t1 with canonical_url := (tget ts primary).canonical_url }
          else t1
        setTab ts idx t2) tabs1
    (tabs2, pm', dups')

/-- `dedupe_tabs` from `build_graph.py`.  Returns the id→primary map and
the duplicate count as in the source, plus the updated tab list (the
source mutates `tabs` in place). -/
def dedupe_tabs (tabs : List Tab) (hamming_threshold : Nat) :
    (Nat → Option Nat) × Nat × List Tab :=
  let p1 := dedupePhase1 tabs 0 (fun _ => none) (UF.init tabs.length)
  let uf2 := dedupePhase2 p1.1 hamming_threshold p1.2.2
  let fin := (uf2.groups).1.foldl (fun st entry => dedupeCluster st entry.2)
    (p1.1, (fun _ => none), 0)
  (fin.2.1, fin.2.2, fin.1)

/-! ## Similarity scorer, `build_edges`, `build_groups`, and the assembler

Float scores are modelled as exact rationals.  The float cosine similarity
(`math.sqrt`-based, including its zero-norm fallback to `0.0`) is
abstracted as the parameter `cosF`, applied only when both embeddings are
present, nonempty and of equal length — exactly the guards
`cosine_similarity` performs before computing the dot product. -/

/-- `cosine_similarity` from `build_graph.py`: `0.0` for missing or empty
vectors and for mismatched dimensions; otherwise the float computation
abstracted as `cosF`. -/
def cosine_similarity (cosF : List ℚ → List ℚ → ℚ) :
    Option (List ℚ) → Option (List ℚ) → ℚ
  | some a, some b =>
    if a = [] ∨ b = [] then 0
    else if a.length ≠ b.length then 0
    else cosF a b
  | _, _ => 0

/-- `jaccard` from `build_graph.py` on keyword lists (set semantics). -/
def jaccard (a b : List String) : ℚ :=
  let sa := a.eraseDups
  let sb := b.eraseDups
  if sa = [] ∨ sb = [] then 0
  else ((sa.filter fun x => x ∈ sb).length : ℚ) /
    (((sa ++ sb.filter fun x => x ∉ sa).length : ℚ))

/-- `similarity_score` from `build_graph.py`: cosine, falling back to
keyword Jaccard when the cosine is exactly `0.0`, plus the uncapped domain
bonus for a shared nonempty domain. -/
def similarity_score (cosF : List ℚ → List ℚ → ℚ) (ta tb : Tab)
    (domain_bonus : ℚ) : ℚ :=
  let s := cosine_similarity cosF ta.embedding tb.embedding
  let s := if s = 0 then jaccard ta.keywords tb.keywords else s
  if ta.domain ≠ "" ∧ ta.domain = tb.domain then s + domain_bonus else s

/-- `build_similarity_matrix` from `build_graph.py`: the symmetric n×n
matrix (unused diagonal `0.0`), modelled as a function of the indices. -/
def build_similarity_matrix (cosF : List ℚ → List ℚ → ℚ) (tabs : List Tab)
    (domain_bonus : ℚ) : Nat → Nat → ℚ :=
  fun i j =>
    if i < j then similarity_score cosF (tget tabs i) (tget tabs j) domain_bonus
    else if j < i then similarity_score cosF (tget tabs j) (tget tabs i) domain_bonus
    else 0

/-- Round half to even (Python `round` to an integer). -/
def roundHalfEven (x : ℚ) : ℤ :=
  let f := Int.floor x
  let r := x - f
  if r < 1/2 then f
  else if 1/2 < r then f + 1
  else if f % 2 = 0 then f else f + 1

/-- Python `round(x, 3)` on exactly-representable values. -/
def round3 (q : ℚ) : ℚ := (roundHalfEven (q * 1000) : ℚ) / 1000

structure EdgeRec where
  source : Nat
  target : Nat
  weight : ℚ
  reason : String
deriving DecidableEq, Repr

/-- `build_edges` from `build_graph.py`. -/
def build_edges (tabs : List Tab) (sim : Nat → Nat → ℚ) (threshold : ℚ) :
    List EdgeRec :=
  (List.range tabs.length).flatMap fun i =>
    (List.range' (i + 1) (tabs.length - (i + 1))).filterMap fun j =>
      let weight := sim i j
      if weight ≥ threshold then
        some { source := (tget tabs i).id, target := (tget tabs j).id,
               weight := round3 weight,
               reason := if (tget tabs i).domain = (tget tabs j).domain then
                   "similarity+domain" else "similarity" }
      else none

/-- The `domain_map` of `build_groups`: domain → tab indices, insertion
ordered, nonempty domains only. -/
def domainMapAux : List Tab → Nat → List (String × List Nat) →
    List (String × List Nat)
  | [], _, acc => acc
  | t :: rest, idx, acc =>
    domainMapAux rest (idx + 1)
      (if t.domain ≠ "" then insertGroupK acc t.domain idx else acc)

def domainMapOf (tabs : List Tab) : List (String × List Nat) :=
  domainMapAux tabs 0 []

/-- The union operations of the domain-grouping phase: every domain with
at least `max 2 domain_group_min` tabs has its members united with the
first of them. -/
def domainOps (tabs : List Tab) (domain_group_min : Nat) : List (Nat × Nat) :=
  (domainMapOf tabs).flatMap fun e =>
    if e.2.length ≥ max 2 domain_group_min then
      match e.2 with
      | [] => []
      | root :: restIdx => restIdx.map fun idx => (root, idx)
    else []

/-- `[(j, matrix[i][j]) for j in range(len(tabs)) if j != i]`. -/
def scoredNeighbors (n : Nat) (sim : Nat → Nat → ℚ) (i : Nat) : List (Nat × ℚ) :=
  (List.range n).filterMap fun j => if j ≠ i then some (j, sim i j) else none

/-- The filtered neighbor list of tab `i` under mutual-KNN: sort by
descending score (stable), keep scores ≥ the threshold, truncate to the
top `knn_k` when positive. -/
def neighborsOf (n : Nat) (sim : Nat → Nat → ℚ) (threshold : ℚ) (knn_k : Nat)
    (i : Nat) : List Nat :=
  let sorted := insSort (fun a b : (Nat × ℚ) => decide (b.2 < a.2)) (scoredNeighbors n sim i)
  let filtered := (sorted.filter fun t => decide (threshold ≤ t.2)).map Prod.fst
  if 0 < knn_k then filtered.take knn_k else filtered

/-- The union operations of the mutual-KNN phase.  (`neighbors[i]` is a
Python set; its iteration order is unspecified, but the resulting
partition — all any theorem below depends on — is determined by the set
of united pairs, so the neighbor-list order is used here.) -/
def knnOps (n : Nat) (sim : Nat → Nat → ℚ) (threshold : ℚ) (knn_k : Nat) :
    List (Nat × Nat) :=
  (List.range n).flatMap fun i =>
    (neighborsOf n sim threshold knn_k i).filterMap fun j =>
      if i ∈ neighborsOf n sim threshold knn_k j then some (i, j) else none

structure GroupRec where
  id : Nat
  tab_ids : List Nat
  size : Nat
deriving DecidableEq, Repr

/-- The group-numbering loop of `build_groups`: enumerate the collected
classes, emit group records, write `tab_to_group`. -/
def groupsFinish (tabs : List Tab) : List (Nat × List Nat) → Nat →
    (Nat → Option Nat) → List GroupRec × (Nat → Option Nat)
  | [], _, t2g => ([], t2g)
  | entry :: rest, gid, t2g =>
    let tab_ids := entry.2.map fun i => (tget tabs i).id
    let t2g' := tab_ids.foldl (fun m tid => fun x => if x = tid then some gid else m x) t2g
    let r := groupsFinish tabs rest (gid + 1) t2g'
    ({ id := gid, tab_ids := tab_ids, size := tab_ids.length } :: r.1, r.2)

/-- `build_groups` from `build_graph.py`: optional domain grouping, then
mutual-KNN or plain threshold unioning, then class collection and
numbering.  Returns the groups and `tab_to_group`. -/
def build_groups (tabs : List Tab) (sim : Nat → Nat → ℚ) (threshold : ℚ)
    (domain_group : Bool) (domain_group_min : Nat) (mutual_knn : Bool)
    (knn_k : Nat) : List GroupRec × (Nat → Option Nat) :=
  let n := tabs.length
  let uf0 := UF.init n
  let uf1 := if domain_group then unionOps (domainOps tabs domain_group_min) uf0 else uf0
  let uf2 := if mutual_knn then unionOps (knnOps n sim threshold knn_k) uf1
    else unionOps (pairsCondOps n (fun i j => decide (sim i j ≥ threshold))) uf1
  groupsFinish tabs (uf2.groups).1 0 (fun _ => none)

/-- `tab["group_id"]`: the group of the tab's primary, `-1` if none. -/
def gidOfTab (pm : Nat → Option Nat) (t2g : Nat → Option Nat) (t : Tab) : Int :=
  let primary_id := (pm t.id).getD t.id
  match t2g primary_id with
  | some g => (g : Int)
  | none => -1

structure Params where
  edge_threshold : ℚ
  group_threshold : ℚ
  domain_bonus : ℚ
  domain_group : Bool
  domain_group_min : Nat
  mutual_knn : Bool
  knn_k : Nat
  dedupe_hamming : Nat
deriving Repr

/-- The output graph (the fields of the claims: the stats counters, the
updated tabs with their `group_id`s, the groups and the edges; the label
generator, timestamps and enrichment error counters are outside every
claim and omitted). -/
structure Graph where
  tab_count : Nat
  group_count : Nat
  edge_count : Nat
  duplicates : Nat
  tabs : List Tab
  group_ids : List Int
  groups : List GroupRec
  edges : List EdgeRec
deriving DecidableEq, Repr

/-- The graph-assembly stage of `main` (`build_graph.py` lines 778–843):
dedupe, filter primaries, similarity matrix, edges, groups, group-id
propagation to duplicates, final counts.  The enrichment loop (fetching,
summaries, embeddings) runs before this stage and is represented by the
already-enriched input tabs. -/
def mainCore (cosF : List ℚ → List ℚ → ℚ) (tabs : List Tab) (args : Params) : Graph :=
  let d := dedupe_tabs tabs args.dedupe_hamming
  let pm := d.1
  let duplicates := d.2.1
  let tabs2 := d.2.2
  let primary_tabs := tabs2.filter fun t => t.duplicate_of = none
  let sim := build_similarity_matrix cosF primary_tabs args.domain_bonus
  let edges := build_edges primary_tabs sim args.edge_threshold
  let bg := build_groups primary_tabs sim args.group_threshold args.domain_group
    args.domain_group_min args.mutual_knn args.knn_k
  let t2g := bg.2
  let gids := tabs2.map (gidOfTab pm t2g)
  let groups := bg.1.map fun g =>
    let tab_ids := (tabs2.filter fun t => gidOfTab pm t2g t = (g.id : Int)).map Tab.id
    { id := g.id, tab_ids := tab_ids, size := tab_ids.length }
  { tab_count := tabs2.length, group_count := groups.length,
    edge_count := edges.length, duplicates := duplicates, tabs := tabs2,
    group_ids := gids, groups := groups, edges := edges }

/-! ## Support lemmas: `build_edges` membership, `round(…, 3)` bounds,
and id-preservation through `dedupe_tabs` -/

/-- Every edge of `build_edges` comes from one triangular pair `i < j`
whose raw similarity clears the threshold; its fields are determined by
that pair. -/
theorem build_edges_mem {tabs : List Tab} {sim : Nat → Nat → ℚ} {thr : ℚ}
    {e : EdgeRec} (he : e ∈ build_edges tabs sim thr) :
    ∃ i j, i < j ∧ j < tabs.length ∧ thr ≤ sim i j ∧
      e.source = (tget tabs i).id ∧ e.target = (tget tabs j).id ∧
      e.weight = round3 (sim i j) := by
  unfold build_edges at he
  rcases List.mem_flatMap.mp he with ⟨i, hi, hmem⟩
  rcases List.mem_filterMap.mp hmem with ⟨j, hj, hsome⟩
  rw [List.mem_range] at hi
  rw [List.mem_range'_1] at hj
  by_cases hc : sim i j ≥ thr
  · rw [if_pos hc] at hsome
    have he2 := Option.some.inj hsome
    refine ⟨i, j, Nat.lt_of_succ_le hj.1, by omega, hc, ?_, ?_, ?_⟩ <;>
      rw [← he2]
  · rw [if_neg hc] at hsome
    exact Option.noConfusion hsome

/-- Round-half-to-even never moves a value down by as much as `1/2`. -/
theorem roundHalfEven_ge (x : ℚ) : x - 1/2 ≤ (roundHalfEven x : ℚ) := by
  have hle : (Int.floor x : ℚ) ≤ x := Int.floor_le x
  have hlt : x < (Int.floor x : ℚ) + 1 := Int.lt_floor_add_one x
  simp only [roundHalfEven]
  split_ifs with h1 h2 h3 <;> push_cast <;> linarith

/-- Round-half-to-even respects an integer lower bound. -/
theorem roundHalfEven_int_le {m : ℤ} {x : ℚ} (h : (m : ℚ) ≤ x) :
    m ≤ roundHalfEven x := by
  have hf : m ≤ Int.floor x := Int.le_floor.mpr h
  simp only [roundHalfEven]
  split_ifs <;> omega

/-- Python `round(q, 3)` never moves a value down by as much as `1/2000`. -/
theorem round3_ge (q : ℚ) : q - 1/2000 ≤ round3 q := by
  unfold round3
  have := roundHalfEven_ge (q * 1000)
  linarith

/-- A threshold expressible in thousandths survives `round(q, 3)`:
`t ≤ q` gives `t ≤ round3 q`. -/
theorem round3_thousandth_le {t q : ℚ} {m : ℤ} (hm : t * 1000 = (m : ℚ))
    (h : t ≤ q) : t ≤ round3 q := by
  have h1 : (m : ℚ) ≤ q * 1000 := by
    rw [← hm]
    linarith
  have h2 := roundHalfEven_int_le h1
  have h3 : (m : ℚ) ≤ (roundHalfEven (q * 1000) : ℚ) := by
    exact_mod_cast h2
  unfold round3
  rw [show t = t * 1000 / 1000 by ring, hm]
  linarith

/-- `l.set i (l.getD i d) = l`. -/
theorem set_getD_self {α : Type} : ∀ (l : List α) (i : Nat) (d : α),
    l.set i (l.getD i d) = l
  | [], _, _ => rfl
  | _ :: _, 0, _ => rfl
  | a :: t, i + 1, d => congrArg (a :: ·) (set_getD_self t i d)

/-- Writing a tab with an unchanged id leaves the id column unchanged. -/
theorem setTab_map_id {tabs : List Tab} {i : Nat} {t : Tab}
    (h : t.id = (tget tabs i).id) :
    (setTab tabs i t).map Tab.id = tabs.map Tab.id := by
  by_cases hi : i < tabs.length
  · unfold setTab
    rw [List.map_set]
    unfold tget at h
    rw [List.getD_eq_getElem tabs default hi] at h
    have hmap : Tab.id tabs[i] = (tabs.map Tab.id).getD i t.id := by
      rw [List.getD_eq_getElem (tabs.map Tab.id) t.id (by simpa using hi)]
      simp
    rw [h, hmap, set_getD_self]
  · unfold setTab
    rw [List.set_eq_of_length_le (Nat.le_of_not_lt hi)]

/-- The per-cluster rewrite loop of `dedupe_tabs` never changes ids. -/
theorem dedupeCluster_map_id (st : List Tab × (Nat → Option Nat) × Nat)
    (indices : List Nat) :
    (dedupeCluster st indices).1.map Tab.id = st.1.map Tab.id := by
  unfold dedupeCluster
  by_cases ha : (indices.filter (fun idx => idx ≠ pyMin indices)).map
      (fun idx => (tget st.1 idx).url) = []
  · simp only [ha, if_pos]
  · simp only [ha, if_neg, if_false]
    have hfold : ∀ (idxs : List Nat) (ts : List Tab),
        (idxs.foldl (fun ts idx =>
          if idx = pyMin indices then ts
          else
            let t := tget ts idx
            let t1 := { t with duplicate_of := some (pyMin indices) }
            let t2 := if pyFalsy t1.canonical_url then
                { t1 with canonical_url := (tget ts (pyMin indices)).canonical_url }
              else t1
            setTab ts idx t2) ts).map Tab.id = ts.map Tab.id := by
      intro idxs
      induction idxs with
      | nil => intro ts; rfl
      | cons x xs ih =>
        intro ts
        rw [List.foldl_cons, ih]
        by_cases hx : x = pyMin indices
        · rw [if_pos hx]
        · rw [if_neg hx]
          by_cases hcu : pyFalsy (tget ts x).canonical_url
          · simp only [hcu, if_pos]
            exact setTab_map_id rfl
          · simp only [hcu, if_neg, if_false]
            exact setTab_map_id rfl
    rw [hfold]
    exact setTab_map_id rfl

/-- The cluster fold of `dedupe_tabs` never changes ids. -/
theorem dedupeFold_map_id :
    ∀ (entries : List (Nat × List Nat)) (st : List Tab × (Nat → Option Nat) × Nat),
      ((entries.foldl (fun st entry => dedupeCluster st entry.2) st).1).map Tab.id =
        st.1.map Tab.id
  | [], _ => rfl
  | entry :: rest, st => by
    rw [List.foldl_cons, dedupeFold_map_id rest, dedupeCluster_map_id]

/-- Phase 1 of `dedupe_tabs` only rewrites `canonical_url`; ids are kept. -/
theorem dedupePhase1_map_id :
    ∀ (tabs : List Tab) (idx : Nat) (cmap : String → Option Nat) (uf : UF),
      (dedupePhase1 tabs idx cmap uf).1.map Tab.id = tabs.map Tab.id
  | [], _, _, _ => rfl
  | t :: rest, idx, cmap, uf => by
    unfold dedupePhase1
    by_cases hc : canonOf t = ""
    · simp only [hc, if_pos]
      rw [List.map_cons, List.map_cons, dedupePhase1_map_id rest]
    · simp only [hc, if_neg, if_false]
      cases cmap (canonOf t) with
      | some prev =>
        simp only [List.map_cons]
        rw [dedupePhase1_map_id rest]
      | none =>
        simp only [List.map_cons]
        rw [dedupePhase1_map_id rest]

/-- `dedupe_tabs` returns the tabs with their ids untouched (it only sets
`canonical_url`, `duplicate_of` and `aliases`). -/
theorem dedupe_tabs_map_id (tabs : List Tab) (thr : Nat) :
    (dedupe_tabs tabs thr).2.2.map Tab.id = tabs.map Tab.id := by
  unfold dedupe_tabs
  rw [dedupeFold_map_id, dedupePhase1_map_id]

/-! ## Support lemmas: insertion-ordered group dictionaries
(`insertGroupK`), the class-collection fold, and `unionOps` -/

/-- Lookup in an insertion-ordered group dictionary (first match). -/
def lookupG {κ : Type} [DecidableEq κ] : List (κ × List Nat) → κ → List Nat
  | [], _ => []
  | (k, m) :: t, r => if k = r then m else lookupG t r

/-- `setdefault(r, []).append(idx)` appends `idx` to the entry `lookupG`
reads for `r` and leaves every other key's entry unchanged. -/
theorem lookupG_insert {κ : Type} [DecidableEq κ] :
    ∀ (acc : List (κ × List Nat)) (r : κ) (idx : Nat) (k : κ),
      lookupG (insertGroupK acc r idx) k =
        if k = r then lookupG acc k ++ [idx] else lookupG acc k
  | [], r, idx, k => by
    by_cases h : k = r
    · subst h
      simp [insertGroupK, lookupG]
    · have h2 : r ≠ k := fun e => h e.symm
      simp [insertGroupK, lookupG, h, h2]
  | (k0, m) :: t, r, idx, k => by
    by_cases h0 : k0 = r
    · subst h0
      rw [show insertGroupK ((k0, m) :: t) k0 idx = (k0, m ++ [idx]) :: t from by
        simp [insertGroupK]]
      by_cases h : k = k0
      · subst h
        simp [lookupG]
      · have h2 : k0 ≠ k := fun e => h e.symm
        simp [lookupG, h2, h]
    · rw [show insertGroupK ((k0, m) :: t) r idx = (k0, m) :: insertGroupK t r idx from by
        simp [insertGroupK, h0]]
      by_cases h : k = k0
      · subst h
        have h2 : k ≠ r := fun e => h0 e
        simp [lookupG, h2]
      · have h2 : k0 ≠ k := fun e => h e.symm
        simp [lookupG, h2, lookupG_insert t r idx k]

/-- The key list after a `setdefault`-append: unchanged when the key is
present, extended by the key otherwise. -/
theorem insertGroupK_keys {κ : Type} [DecidableEq κ] :
    ∀ (acc : List (κ × List Nat)) (r : κ) (idx : Nat),
      (insertGroupK acc r idx).map Prod.fst =
        if r ∈ acc.map Prod.fst then acc.map Prod.fst
        else acc.map Prod.fst ++ [r]
  | [], r, idx => by simp [insertGroupK]
  | (k0, m) :: t, r, idx => by
    by_cases h0 : k0 = r
    · subst h0
      simp [insertGroupK]
    · have h1 : r ≠ k0 := fun e => h0 e.symm
      rw [show insertGroupK ((k0, m) :: t) r idx = (k0, m) :: insertGroupK t r idx from by
        simp [insertGroupK, h0]]
      by_cases hm : r ∈ t.map Prod.fst
      · simp [insertGroupK_keys t r idx, hm, h1]
      · simp [insertGroupK_keys t r idx, hm, h1]

/-- Every member of the dictionary after a `setdefault`-append is an old
member or the appended index. -/
theorem insertGroupK_members {κ : Type} [DecidableEq κ] :
    ∀ (acc : List (κ × List Nat)) (r : κ) (idx : Nat) (e : κ × List Nat),
      e ∈ insertGroupK acc r idx → ∀ x ∈ e.2, (∃ e0 ∈ acc, x ∈ e0.2) ∨ x = idx
  | [], r, idx, e, he, x, hx => by
    simp [insertGroupK] at he
    subst he
    simp at hx
    exact Or.inr hx
  | (k0, m) :: t, r, idx, e, he, x, hx => by
    by_cases h0 : k0 = r
    · subst h0
      rw [show insertGroupK ((k0, m) :: t) k0 idx = (k0, m ++ [idx]) :: t from by
        simp [insertGroupK]] at he
      rcases List.mem_cons.mp he with rfl | ht
      · rcases List.mem_append.mp hx with hm | hi
        · exact Or.inl ⟨(k0, m), List.mem_cons_self _ _, hm⟩
        · exact Or.inr (List.mem_singleton.mp hi)
      · exact Or.inl ⟨e, List.mem_cons_of_mem _ ht, hx⟩
    · rw [show insertGroupK ((k0, m) :: t) r idx = (k0, m) :: insertGroupK t r idx from by
        simp [insertGroupK, h0]] at he
      rcases List.mem_cons.mp he with he2 | ht
      · exact Or.inl ⟨e, by rw [he2]; exact List.mem_cons_self _ _, hx⟩
      · rcases insertGroupK_members t r idx e ht x hx with ⟨e0, he0, hx0⟩ | hxi
        · exact Or.inl ⟨e0, List.mem_cons_of_mem _ he0, hx0⟩
        · exact Or.inr hxi

/-- A `setdefault`-append never creates an empty member list. -/
theorem insertGroupK_ne_nil {κ : Type} [DecidableEq κ] :
    ∀ (acc : List (κ × List Nat)) (r : κ) (idx : Nat),
      (∀ e ∈ acc, e.2 ≠ []) → ∀ e ∈ insertGroupK acc r idx, e.2 ≠ []
  | [], r, idx, _, e, he => by
    simp [insertGroupK] at he
    subst he
    simp
  | (k0, m) :: t, r, idx, hacc, e, he => by
    by_cases h0 : k0 = r
    · subst h0
      rw [show insertGroupK ((k0, m) :: t) k0 idx = (k0, m ++ [idx]) :: t from by
        simp [insertGroupK]] at he
      rcases List.mem_cons.mp he with rfl | ht
      · simp
      · exact hacc e (List.mem_cons_of_mem _ ht)
    · rw [show insertGroupK ((k0, m) :: t) r idx = (k0, m) :: insertGroupK t r idx from by
        simp [insertGroupK, h0]] at he
      rcases List.mem_cons.mp he with he2 | ht
      · exact hacc e (by rw [he2]; exact List.mem_cons_self _ _)
      · exact insertGroupK_ne_nil t r idx
          (fun e2 he2 => hacc e2 (List.mem_cons_of_mem _ he2)) e ht

/-- With distinct keys, the lookup of an entry's key is its member list. -/
theorem lookupG_of_mem {κ : Type} [DecidableEq κ] :
    ∀ (acc : List (κ × List Nat)), (acc.map Prod.fst).Nodup →
      ∀ (e : κ × List Nat), e ∈ acc → lookupG acc e.1 = e.2
  | [], _, e, he => absurd he (List.not_mem_nil e)
  | (k0, m) :: t, hnd, e, he => by
    rcases List.mem_cons.mp he with rfl | ht
    · simp [lookupG]
    · have hk : k0 ≠ e.1 := by
        intro hk
        have : e.1 ∈ t.map Prod.fst := List.mem_map_of_mem Prod.fst ht
        rw [← hk] at this
        exact (List.nodup_cons.mp (by simpa using hnd)).1 this
      rw [show lookupG ((k0, m) :: t) e.1 = if k0 = e.1 then m else lookupG t e.1 from rfl,
        if_neg hk]
      exact lookupG_of_mem t (List.nodup_cons.mp (by simpa using hnd)).2 e ht

/-- A nonempty lookup comes from an entry of the dictionary. -/
theorem mem_of_lookupG {κ : Type} [DecidableEq κ] :
    ∀ (acc : List (κ × List Nat)) (k : κ), lookupG acc k ≠ [] →
      (k, lookupG acc k) ∈ acc
  | [], k, h => absurd rfl h
  | (k0, m) :: t, k, h => by
    by_cases h0 : k0 = k
    · subst h0
      rw [show lookupG ((k0, m) :: t) k0 = m from by simp [lookupG]]
      exact List.mem_cons_self _ _
    · rw [show lookupG ((k0, m) :: t) k = lookupG t k from by simp [lookupG, h0]] at h ⊢
      exact List.mem_cons_of_mem _ (mem_of_lookupG t k h)

/-- Two distinct elements force a length of at least two. -/
theorem two_le_length_of_ne {α : Type} {l : List α} {a b : α}
    (ha : a ∈ l) (hb : b ∈ l) (hne : a ≠ b) : 2 ≤ l.length := by
  obtain ⟨s, t, rfl⟩ := List.append_of_mem ha
  rcases List.mem_append.mp hb with hs | hst
  · have := List.length_pos_of_mem hs
    simp only [List.length_append, List.length_cons]
    omega
  · rcases List.mem_cons.mp hst with rfl | ht
    · exact absurd rfl hne
    · have := List.length_pos_of_mem ht
      simp only [List.length_append, List.length_cons]
      omega

/-- `union(a, b)` keeps the node count. -/
theorem UF.union_n (uf : UF) (a b : Nat) : (uf.union a b).n = uf.n := by
  simp only [UF.union]
  split
  · rfl
  · rfl

/-- Applying a list of in-range `union` operations keeps the node count
and well-formedness, never separates joined classes, and joins each listed
pair. -/
theorem unionOps_spec :
    ∀ (ops : List (Nat × Nat)) (uf : UF), uf.WF →
      (∀ p ∈ ops, p.1 < uf.n ∧ p.2 < uf.n) →
      (unionOps ops uf).n = uf.n ∧ (unionOps ops uf).WF ∧
      (∀ y z, y < uf.n → z < uf.n → SameRoot uf.parent y z →
        SameRoot (unionOps ops uf).parent y z) ∧
      (∀ p ∈ ops, SameRoot (unionOps ops uf).parent p.1 p.2)
  | [], uf, hwf, _ =>
    ⟨rfl, hwf, fun _ _ _ _ h => h, fun p hp => absurd hp (List.not_mem_nil p)⟩
  | (a, b) :: rest, uf, hwf, hb => by
    have hab := hb (a, b) (List.mem_cons_self _ _)
    obtain ⟨hn1, hwf1, hsr1, hiff⟩ := UF.union_spec uf hwf a b hab.1 hab.2
    have hrest : ∀ p ∈ rest, p.1 < (uf.union a b).n ∧ p.2 < (uf.union a b).n := by
      intro p hp
      rw [hn1]
      exact hb p (List.mem_cons_of_mem _ hp)
    obtain ⟨ihn, ihwf, ihmono, ihpairs⟩ := unionOps_spec rest (uf.union a b) hwf1 hrest
    have hstep : unionOps ((a, b) :: rest) uf = unionOps rest (uf.union a b) := rfl
    refine ⟨?_, ?_, ?_, ?_⟩
    · rw [hstep, ihn, hn1]
    · rw [hstep]
      exact ihwf
    · intro y z hy hz hyz
      rw [hstep]
      refine ihmono y z (by rw [hn1]; exact hy) (by rw [hn1]; exact hz) ?_
      exact (hiff y z hy hz).mpr (Or.inl hyz)
    · intro p hp
      rcases List.mem_cons.mp hp with rfl | hp2
      · rw [hstep]
        exact ihmono a b (by rw [hn1]; exact hab.1) (by rw [hn1]; exact hab.2) hsr1
      · rw [hstep]
        exact ihpairs p hp2

/-- Upper bound for `unionOps`: any symmetric transitive relation that
contains the starting classes and every listed pair contains the classes
after the operations. -/
theorem unionOps_sub (T : Nat → Nat → Prop)
    (hsy : ∀ x y, T x y → T y x)
    (htr : ∀ x y z, T x y → T y z → T x z) :
    ∀ (ops : List (Nat × Nat)) (uf : UF), uf.WF →
      (∀ p ∈ ops, p.1 < uf.n ∧ p.2 < uf.n) →
      (∀ y z, y < uf.n → z < uf.n → SameRoot uf.parent y z → T y z) →
      (∀ p ∈ ops, T p.1 p.2) →
      ∀ y z, y < uf.n → z < uf.n →
        SameRoot (unionOps ops uf).parent y z → T y z
  | [], uf, _, _, hbase, _, y, z, hy, hz, h => hbase y z hy hz h
  | (a, b) :: rest, uf, hwf, hb, hbase, hpairs, y, z, hy, hz, h => by
    have hab := hb (a, b) (List.mem_cons_self _ _)
    obtain ⟨hn1, hwf1, _, hiff⟩ := UF.union_spec uf hwf a b hab.1 hab.2
    have hTab : T a b := hpairs (a, b) (List.mem_cons_self _ _)
    have hrest : ∀ p ∈ rest, p.1 < (uf.union a b).n ∧ p.2 < (uf.union a b).n := by
      intro p hp
      rw [hn1]
      exact hb p (List.mem_cons_of_mem _ hp)
    have hbase1 : ∀ y2 z2, y2 < (uf.union a b).n → z2 < (uf.union a b).n →
        SameRoot (uf.union a b).parent y2 z2 → T y2 z2 := by
      intro y2 z2 hy2 hz2 hsr
      rw [hn1] at hy2 hz2
      rcases (hiff y2 z2 hy2 hz2).mp hsr with hold | ⟨h1, h2⟩ | ⟨h1, h2⟩
      · exact hbase y2 z2 hy2 hz2 hold
      · exact htr y2 b z2 (htr y2 a b (hbase y2 a hy2 hab.1 h1) hTab)
          (hbase b z2 hab.2 hz2 h2)
      · exact htr y2 a z2 (htr y2 b a (hbase y2 b hy2 hab.2 h1) (hsy a b hTab))
          (hbase a z2 hab.1 hz2 h2)
    have hstep : unionOps ((a, b) :: rest) uf = unionOps rest (uf.union a b) := rfl
    rw [hstep] at h
    exact unionOps_sub T hsy htr rest (uf.union a b) hwf1 hrest hbase1
      (fun p hp => hpairs p (List.mem_cons_of_mem _ hp)) y z
      (by rw [hn1]; exact hy) (by rw [hn1]; exact hz) h

/-- The class-collection fold keeps keys distinct. -/
theorem groupFold_keys_nodup :
    ∀ (idxs : List Nat) (uf : UF) (acc : List (Nat × List Nat)),
      (acc.map Prod.fst).Nodup → ((groupFold idxs uf acc).1.map Prod.fst).Nodup
  | [], _, _, h => h
  | idx :: rest, uf, acc, h => by
    rw [groupFold]
    refine groupFold_keys_nodup rest _ _ ?_
    rw [insertGroupK_keys]
    by_cases hm : (uf.find idx).1 ∈ acc.map Prod.fst
    · rw [if_pos hm]
      exact h
    · rw [if_neg hm]
      simp [List.nodup_append, h, hm]

/-- The class-collection fold keeps member lists nonempty. -/
theorem groupFold_ne_nil :
    ∀ (idxs : List Nat) (uf : UF) (acc : List (Nat × List Nat)),
      (∀ e ∈ acc, e.2 ≠ []) → ∀ e ∈ (groupFold idxs uf acc).1, e.2 ≠ []
  | [], _, _, h => h
  | idx :: rest, uf, acc, h => by
    rw [groupFold]
    exact groupFold_ne_nil rest _ _ (insertGroupK_ne_nil acc _ idx h)

/-- Every member the class-collection fold stores satisfies any property
held by the accumulator's members and the processed indices. -/
theorem groupFold_members (P : Nat → Prop) :
    ∀ (idxs : List Nat) (uf : UF) (acc : List (Nat × List Nat)),
      (∀ e ∈ acc, ∀ x ∈ e.2, P x) → (∀ i ∈ idxs, P i) →
      ∀ e ∈ (groupFold idxs uf acc).1, ∀ x ∈ e.2, P x
  | [], _, _, hacc, _ => hacc
  | idx :: rest, uf, acc, hacc, hidx => by
    rw [groupFold]
    refine groupFold_members P rest _ _ ?_ ?_
    · intro e he x hx
      rcases insertGroupK_members acc _ idx e he x hx with ⟨e0, he0, hx0⟩ | rfl
      · exact hacc e0 he0 x hx0
      · exact hidx x (List.mem_cons_self _ _)
    · intro i hi
      exact hidx i (List.mem_cons_of_mem _ hi)

/-- The class-collection fold: the union-find state keeps its size,
well-formedness and roots, and the collected dictionary holds, under each
key, exactly the accumulator's members plus the processed indices rooted
at that key. -/
theorem groupFold_spec :
    ∀ (idxs : List Nat) (uf : UF) (acc : List (Nat × List Nat)),
      uf.WF → (∀ i ∈ idxs, i < uf.n) →
      (groupFold idxs uf acc).2.n = uf.n ∧
      (groupFold idxs uf acc).2.WF ∧
      (∀ y s, HasRoot uf.parent y s → HasRoot (groupFold idxs uf acc).2.parent y s) ∧
      (∀ k x, x ∈ lookupG (groupFold idxs uf acc).1 k ↔
        x ∈ lookupG acc k ∨ (x ∈ idxs ∧ HasRoot uf.parent x k))
  | [], uf, acc, hwf, _ => by
    refine ⟨rfl, hwf, fun _ _ h => h, ?_⟩
    intro k x
    simp [groupFold]
  | idx :: rest, uf, acc, hwf, hb => by
    have hidx : idx < uf.n := hb idx (List.mem_cons_self _ _)
    obtain ⟨hn1, hr1, hpres1, hwf1⟩ := UF.find_spec uf hwf idx hidx
    have hrest : ∀ i ∈ rest, i < (uf.find idx).2.n := by
      intro i hi
      rw [hn1]
      exact hb i (List.mem_cons_of_mem _ hi)
    obtain ⟨ihn, ihwf, ihpres, ihlook⟩ :=
      groupFold_spec rest (uf.find idx).2 (insertGroupK acc (uf.find idx).1 idx) hwf1 hrest
    have hstep : groupFold (idx :: rest) uf acc =
        groupFold rest (uf.find idx).2 (insertGroupK acc (uf.find idx).1 idx) := rfl
    rw [hstep]
    refine ⟨ihn.trans hn1, ihwf, fun y s h => ihpres y s (hpres1 y s h), ?_⟩
    intro k x
    rw [ihlook k x, lookupG_insert acc (uf.find idx).1 idx k]
    constructor
    · rintro (hacc | ⟨hxr, hroot⟩)
      · by_cases hk : k = (uf.find idx).1
        · rw [if_pos hk] at hacc
          rcases List.mem_append.mp hacc with h1 | h2
          · exact Or.inl h1
          · have hx : x = idx := List.mem_singleton.mp h2
            subst hx
            subst hk
            exact Or.inr ⟨List.mem_cons_self _ _, hr1⟩
        · rw [if_neg hk] at hacc
          exact Or.inl hacc
      · have hx : x < uf.n := hrest x hxr |>.trans_eq hn1
        have hroot0 : HasRoot uf.parent x k :=
          (hasRoot_iff_of_pres hwf hpres1 hx k).mpr hroot
        exact Or.inr ⟨List.mem_cons_of_mem _ hxr, hroot0⟩
    · rintro (hacc | ⟨hxmem, hroot⟩)
      · by_cases hk : k = (uf.find idx).1
        · rw [if_pos hk]
          exact Or.inl (List.mem_append.mpr (Or.inl hacc))
        · rw [if_neg hk]
          exact Or.inl hacc
      · rcases List.mem_cons.mp hxmem with hxi | hxr
        · have hk : k = (uf.find idx).1 := hasRoot_unique (hxi ▸ hroot) hr1
          rw [if_pos hk]
          exact Or.inl (List.mem_append.mpr (Or.inr (List.mem_singleton.mpr hxi)))
        · have hx : x < uf.n := hb x (List.mem_cons_of_mem _ hxr)
          refine Or.inr ⟨hxr, (hasRoot_iff_of_pres hwf hpres1 hx k).mp hroot⟩

/-- The collected classes of a well-formed union-find state: the lookup
under key `k` holds exactly the in-range nodes rooted at `k`; keys are
distinct; classes are nonempty lists of in-range nodes. -/
theorem UF.groups_spec (uf : UF) (hwf : uf.WF) :
    (∀ k x, x ∈ lookupG (uf.groups).1 k ↔ x < uf.n ∧ HasRoot uf.parent x k) ∧
    ((uf.groups).1.map Prod.fst).Nodup ∧
    (∀ e ∈ (uf.groups).1, e.2 ≠ []) ∧
    (∀ e ∈ (uf.groups).1, ∀ x ∈ e.2, x < uf.n) := by
  obtain ⟨_, _, _, hlook⟩ := groupFold_spec (List.range uf.n) uf []
    hwf (fun i hi => List.mem_range.mp hi)
  refine ⟨?_, ?_, ?_, ?_⟩
  · intro k x
    rw [show (uf.groups).1 = (groupFold (List.range uf.n) uf []).1 from rfl, hlook k x]
    simp [lookupG, List.mem_range]
  · exact groupFold_keys_nodup (List.range uf.n) uf [] (by simp)
  · exact groupFold_ne_nil (List.range uf.n) uf [] (by simp)
  · exact groupFold_members (· < uf.n) (List.range uf.n) uf [] (by simp)
      (fun i hi => List.mem_range.mp hi)

/-- An entry of the collected classes is its key's lookup. -/
theorem UF.groups_entry_eq (uf : UF) (hwf : uf.WF) {e : Nat × List Nat}
    (he : e ∈ (uf.groups).1) : e.2 = lookupG (uf.groups).1 e.1 :=
  (lookupG_of_mem (uf.groups).1 (uf.groups_spec hwf).2.1 e he).symm

/-- Every in-range node appears in a collected class keyed by its root. -/
theorem UF.groups_cover (uf : UF) (hwf : uf.WF) {x : Nat} (hx : x < uf.n) :
    ∃ e ∈ (uf.groups).1, x ∈ e.2 ∧ HasRoot uf.parent x e.1 := by
  obtain ⟨r, hr⟩ := hwf.2 x hx
  have hmem : x ∈ lookupG (uf.groups).1 r :=
    ((uf.groups_spec hwf).1 r x).mpr ⟨hx, hr⟩
  have hne : lookupG (uf.groups).1 r ≠ [] := by
    intro h
    rw [h] at hmem
    exact absurd hmem (List.not_mem_nil x)
  exact ⟨(r, lookupG (uf.groups).1 r), mem_of_lookupG _ r hne, hmem, hr⟩

/-- A collected class is closed under `SameRoot`: a node sharing a root
with a member belongs to the class. -/
theorem UF.groups_closed (uf : UF) (hwf : uf.WF) {e : Nat × List Nat}
    (he : e ∈ (uf.groups).1) {x y : Nat} (hx : x ∈ e.2) (hy : y < uf.n)
    (hsr : SameRoot uf.parent x y) : y ∈ e.2 := by
  have hx2 := ((uf.groups_spec hwf).1 e.1 x).mp (by rw [← uf.groups_entry_eq hwf he]; exact hx)
  obtain ⟨r, hxr, hyr⟩ := hsr
  have : r = e.1 := hasRoot_unique hxr hx2.2
  subst this
  rw [uf.groups_entry_eq hwf he]
  exact ((uf.groups_spec hwf).1 e.1 y).mpr ⟨hy, hyr⟩

/-- Two members of one collected class share a root. -/
theorem UF.groups_sameRoot (uf : UF) (hwf : uf.WF) {e : Nat × List Nat}
    (he : e ∈ (uf.groups).1) {x y : Nat} (hx : x ∈ e.2) (hy : y ∈ e.2) :
    SameRoot uf.parent x y := by
  have heq := uf.groups_entry_eq hwf he
  have hx2 := ((uf.groups_spec hwf).1 e.1 x).mp (by rw [← heq]; exact hx)
  have hy2 := ((uf.groups_spec hwf).1 e.1 y).mp (by rw [← heq]; exact hy)
  exact ⟨e.1, hx2.2, hy2.2⟩

/-- The numbering loop emits one record per collected class, carrying the
class's tab ids; and every record comes from a class. -/
theorem groupsFinish_classes (tabs : List Tab) :
    ∀ (entries : List (Nat × List Nat)) (gid : Nat) (t2g : Nat → Option Nat),
      (∀ g ∈ (groupsFinish tabs entries gid t2g).1,
        ∃ entry ∈ entries, g.tab_ids = entry.2.map fun i => (tget tabs i).id) ∧
      (∀ entry ∈ entries,
        ∃ g ∈ (groupsFinish tabs entries gid t2g).1,
          g.tab_ids = entry.2.map fun i => (tget tabs i).id)
  | [], gid, t2g => by
    constructor
    · intro g hg
      exact absurd hg (List.not_mem_nil g)
    · intro entry hentry
      exact absurd hentry (List.not_mem_nil entry)
  | entry :: rest, gid, t2g => by
    obtain ⟨ih1, ih2⟩ := groupsFinish_classes tabs rest (gid + 1)
      ((entry.2.map fun i => (tget tabs i).id).foldl
        (fun m tid => fun x => if x = tid then some gid else m x) t2g)
    rw [groupsFinish]
    constructor
    · intro g hg
      rcases List.mem_cons.mp hg with rfl | hg2
      · exact ⟨entry, List.mem_cons_self _ _, rfl⟩
      · obtain ⟨e2, he2, heq⟩ := ih1 g hg2
        exact ⟨e2, List.mem_cons_of_mem _ he2, heq⟩
    · intro e2 he2
      rcases List.mem_cons.mp he2 with rfl | hr
      · exact ⟨_, List.mem_cons_self _ _, rfl⟩
      · obtain ⟨g, hg, heq⟩ := ih2 e2 hr
        exact ⟨g, List.mem_cons_of_mem _ hg, heq⟩

/-! ## Support lemmas: the domain map and the three union-operation lists
of `build_groups` -/

/-- Membership persists through the domain-map fold. -/
theorem domainMapAux_persist :
    ∀ (ts : List Tab) (idx : Nat) (acc : List (String × List Nat))
      (k : String) (x : Nat),
      x ∈ lookupG acc k → x ∈ lookupG (domainMapAux ts idx acc) k
  | [], _, _, _, _, h => h
  | t :: rest, idx, acc, k, x, h => by
    rw [domainMapAux]
    refine domainMapAux_persist rest (idx + 1) _ k x ?_
    by_cases hd : t.domain ≠ ""
    · rw [if_pos hd, lookupG_insert]
      by_cases hk : k = t.domain
      · rw [if_pos hk]
        exact List.mem_append.mpr (Or.inl h)
      · rw [if_neg hk]
        exact h
    · rw [if_neg hd]
      exact h

/-- Each tab with a nonempty domain is recorded under its domain. -/
theorem domainMapAux_mem :
    ∀ (ts : List Tab) (idx : Nat) (acc : List (String × List Nat))
      (i : Nat) (hi : i < ts.length),
      (ts[i]).domain ≠ "" →
      (idx + i) ∈ lookupG (domainMapAux ts idx acc) ((ts[i]).domain)
  | [], _, _, i, hi, _ => absurd hi (by simp)
  | t :: rest, idx, acc, 0, hi, hd => by
    rw [domainMapAux]
    simp only [List.getElem_cons_zero] at hd ⊢
    refine domainMapAux_persist rest (idx + 1) _ _ _ ?_
    rw [if_pos hd, lookupG_insert, if_pos rfl]
    simp
  | t :: rest, idx, acc, i + 1, hi, hd => by
    rw [domainMapAux]
    simp only [List.getElem_cons_succ] at hd ⊢
    have := domainMapAux_mem rest (idx + 1)
      (if t.domain ≠ "" then insertGroupK acc t.domain idx else acc) i
      (by simpa using Nat.lt_of_succ_lt_succ hi) hd
    rw [show idx + (i + 1) = (idx + 1) + i by omega]
    exact this

/-- Per-domain member count equals the filter count over the processed
tabs (for nonempty domains). -/
theorem domainMapAux_len :
    ∀ (ts : List Tab) (idx : Nat) (acc : List (String × List Nat))
      (k : String), k ≠ "" →
      (lookupG (domainMapAux ts idx acc) k).length =
        (lookupG acc k).length + (ts.filter fun t => t.domain = k).length
  | [], _, _, _, _ => by simp [domainMapAux]
  | t :: rest, idx, acc, k, hk => by
    rw [domainMapAux, domainMapAux_len rest (idx + 1) _ k hk]
    by_cases hd : t.domain ≠ ""
    · rw [if_pos hd, lookupG_insert]
      by_cases hkd : k = t.domain
      · rw [if_pos hkd, List.filter_cons, if_pos (by simp [hkd])]
        simp only [List.length_append, List.length_cons, List.length_nil]
        omega
      · rw [if_neg hkd, List.filter_cons,
          if_neg (by simp only [decide_eq_true_eq]; exact fun e => hkd e.symm)]
    · rw [if_neg hd]
      have hde : t.domain = "" := by
        by_cases h2 : t.domain = ""
        · exact h2
        · exact absurd h2 hd
      rw [List.filter_cons,
        if_neg (by simp only [hde, decide_eq_true_eq]; exact fun e => hk e.symm)]

/-- Domain-map members are bounded by the number of processed tabs. -/
theorem domainMapAux_bound :
    ∀ (ts : List Tab) (idx : Nat) (acc : List (String × List Nat)),
      (∀ e ∈ acc, ∀ x ∈ e.2, x < idx) →
      ∀ e ∈ domainMapAux ts idx acc, ∀ x ∈ e.2, x < idx + ts.length
  | [], idx, acc, hacc, e, he, x, hx => by
    rw [domainMapAux] at he
    have := hacc e he x hx
    simp only [List.length_nil]
    omega
  | t :: rest, idx, acc, hacc, e, he, x, hx => by
    rw [domainMapAux] at he
    have hnext : ∀ e2 ∈ (if t.domain ≠ "" then insertGroupK acc t.domain idx else acc),
        ∀ x2 ∈ e2.2, x2 < idx + 1 := by
      intro e2 he2 x2 hx2
      by_cases hd : t.domain ≠ ""
      · rw [if_pos hd] at he2
        rcases insertGroupK_members acc t.domain idx e2 he2 x2 hx2 with ⟨e0, he0, hx0⟩ | h2
        · exact Nat.lt_succ_of_lt (hacc e0 he0 x2 hx0)
        · rw [h2]
          exact Nat.lt_succ_self idx
      · rw [if_neg hd] at he2
        exact Nat.lt_succ_of_lt (hacc e2 he2 x2 hx2)
    have := domainMapAux_bound rest (idx + 1) _ hnext e he x hx
    simp only [List.length_cons]
    omega

/-- Both ends of every domain-grouping union are in range. -/
theorem domainOps_bound {tabs : List Tab} {dgm : Nat} :
    ∀ p ∈ domainOps tabs dgm, p.1 < tabs.length ∧ p.2 < tabs.length := by
  intro p hp
  unfold domainOps at hp
  rcases List.mem_flatMap.mp hp with ⟨e, he, hpe⟩
  have hb := domainMapAux_bound tabs 0 [] (by simp [lookupG]) e he
  obtain ⟨d, mems⟩ := e
  by_cases hlen : mems.length ≥ max 2 dgm
  · rw [if_pos hlen] at hpe
    cases mems with
    | nil => exact absurd hpe (List.not_mem_nil p)
    | cons root restIdx =>
      rcases List.mem_map.mp hpe with ⟨i2, hi2, hpeq⟩
      rw [← hpeq]
      constructor
      · have := hb root (List.mem_cons_self _ _)
        omega
      · have := hb i2 (List.mem_cons_of_mem _ hi2)
        omega
  · rw [if_neg hlen] at hpe
    exact absurd hpe (List.not_mem_nil p)

/-- A domain entry large enough for the grouping rule contributes a union
of each later member with the first member. -/
theorem domainOps_pairs {tabs : List Tab} {dgm : Nat} {d : String}
    {root : Nat} {restIdx : List Nat}
    (he : (d, root :: restIdx) ∈ domainMapOf tabs)
    (hlen : (root :: restIdx).length ≥ max 2 dgm) :
    ∀ x ∈ restIdx, (root, x) ∈ domainOps tabs dgm := by
  intro x hx
  unfold domainOps
  refine List.mem_flatMap.mpr ⟨(d, root :: restIdx), he, ?_⟩
  rw [if_pos hlen]
  exact List.mem_map.mpr ⟨x, hx, rfl⟩

/-- Membership in the triangular conditional pair list. -/
theorem pairsCondOps_mem {n : Nat} {cond : Nat → Nat → Bool} {i j : Nat} :
    (i, j) ∈ pairsCondOps n cond ↔ i < j ∧ j < n ∧ cond i j = true := by
  unfold pairsCondOps
  constructor
  · intro h
    rcases List.mem_flatMap.mp h with ⟨i0, hi0, hmem⟩
    rcases List.mem_filterMap.mp hmem with ⟨j0, hj0, hsome⟩
    rw [List.mem_range] at hi0
    rw [List.mem_range'_1] at hj0
    by_cases hc : cond i0 j0 = true
    · rw [if_pos hc] at hsome
      have heq := Option.some.inj hsome
      injection heq with h1 h2
      subst h1
      subst h2
      exact ⟨by omega, by omega, hc⟩
    · rw [if_neg hc] at hsome
      exact Option.noConfusion hsome
  · rintro ⟨hij, hjn, hc⟩
    refine List.mem_flatMap.mpr ⟨i, List.mem_range.mpr (by omega), ?_⟩
    refine List.mem_filterMap.mpr ⟨j, List.mem_range'_1.mpr ⟨by omega, by omega⟩, ?_⟩
    rw [if_pos hc]

/-- A filtered neighbor is in range, distinct, and clears the threshold. -/
theorem neighborsOf_mem {n : Nat} {sim : Nat → Nat → ℚ} {thr : ℚ} {kk i j : Nat}
    (h : j ∈ neighborsOf n sim thr kk i) : j < n ∧ j ≠ i ∧ thr ≤ sim i j := by
  simp only [neighborsOf] at h
  have h1 : j ∈ ((insSort (fun a b : (Nat × ℚ) => decide (b.2 < a.2))
      (scoredNeighbors n sim i)).filter fun t => decide (thr ≤ t.2)).map Prod.fst := by
    by_cases hk : 0 < kk
    · rw [if_pos hk] at h
      exact List.mem_of_mem_take h
    · rw [if_neg hk] at h
      exact h
  rcases List.mem_map.mp h1 with ⟨t, ht, htj⟩
  have ht2 := List.mem_filter.mp ht
  have hperm : t ∈ scoredNeighbors n sim i :=
    ((insSort_perm _ _).mem_iff).mp ht2.1
  rcases List.mem_filterMap.mp hperm with ⟨j0, hj0, hsome⟩
  rw [List.mem_range] at hj0
  by_cases hji : j0 ≠ i
  · rw [if_pos hji] at hsome
    have heq := Option.some.inj hsome
    rw [← htj, ← heq]
    exact ⟨hj0, hji, of_decide_eq_true (by rw [← heq] at ht2; exact ht2.2)⟩
  · rw [if_neg hji] at hsome
    exact Option.noConfusion hsome

/-- A mutual-KNN union joins two distinct in-range tabs whose similarity
clears the threshold in both orientations. -/
theorem knnOps_mem {n : Nat} {sim : Nat → Nat → ℚ} {thr : ℚ} {kk : Nat}
    {p : Nat × Nat} (hp : p ∈ knnOps n sim thr kk) :
    p.1 < n ∧ p.2 < n ∧ p.1 ≠ p.2 ∧ thr ≤ sim p.1 p.2 ∧ thr ≤ sim p.2 p.1 := by
  unfold knnOps at hp
  rcases List.mem_flatMap.mp hp with ⟨i, hi, hmem⟩
  rcases List.mem_filterMap.mp hmem with ⟨j, hj, hsome⟩
  rw [List.mem_range] at hi
  by_cases hc : i ∈ neighborsOf n sim thr kk j
  · rw [if_pos hc] at hsome
    have heq := Option.some.inj hsome
    obtain ⟨hj1, hjne, hj2⟩ := neighborsOf_mem hj
    obtain ⟨hi1, hine, hi2⟩ := neighborsOf_mem hc
    rw [← heq]
    exact ⟨hi, hj1, fun e => hjne e.symm, hj2, hi2⟩
  · rw [if_neg hc] at hsome
    exact Option.noConfusion hsome

/-- Two tabs in one union-find class end in one emitted group record. -/
theorem sameRoot_groups_core (tabs : List Tab) (uf2 : UF) (hwf2 : uf2.WF)
    (hn2 : uf2.n = tabs.length) {i j : Nat} (hi : i < tabs.length)
    (hj : j < tabs.length) (hsr : SameRoot uf2.parent i j) :
    ∃ g ∈ (groupsFinish tabs (uf2.groups).1 0 (fun _ => none)).1,
      (tget tabs i).id ∈ g.tab_ids ∧ (tget tabs j).id ∈ g.tab_ids := by
  obtain ⟨e, he, hie, _⟩ := uf2.groups_cover hwf2 (x := i) (by rw [hn2]; exact hi)
  have hje : j ∈ e.2 := uf2.groups_closed hwf2 he hie (by rw [hn2]; exact hj) hsr
  obtain ⟨g, hg, hgeq⟩ :=
    (groupsFinish_classes tabs (uf2.groups).1 0 (fun _ => none)).2 e he
  refine ⟨g, hg, ?_, ?_⟩
  · rw [hgeq]
    exact List.mem_map.mpr ⟨i, hie, rfl⟩
  · rw [hgeq]
    exact List.mem_map.mpr ⟨j, hje, rfl⟩

/-- Core of the mutual-KNN refinement: over any shared first-phase state,
each group produced with the mutual-KNN union list is contained in a
group produced with the plain threshold union list. -/
theorem knn_refines_core (tabs : List Tab) (sim : Nat → Nat → ℚ) (thr : ℚ)
    (kk : Nat) (uf1 : UF) (hwf1 : uf1.WF) (hn1 : uf1.n = tabs.length) :
    ∀ g ∈ (groupsFinish tabs
        ((unionOps (knnOps tabs.length sim thr kk) uf1).groups).1 0
        (fun _ => none)).1,
      ∃ g2 ∈ (groupsFinish tabs
          ((unionOps (pairsCondOps tabs.length
            (fun a b => decide (sim a b ≥ thr))) uf1).groups).1 0
          (fun _ => none)).1,
        ∀ x ∈ g.tab_ids, x ∈ g2.tab_ids := by
  intro g hg
  have hbk : ∀ p ∈ knnOps tabs.length sim thr kk, p.1 < uf1.n ∧ p.2 < uf1.n := by
    intro p hp
    have h := knnOps_mem hp
    rw [hn1]
    exact ⟨h.1, h.2.1⟩
  have hbp : ∀ p ∈ pairsCondOps tabs.length (fun a b => decide (sim a b ≥ thr)),
      p.1 < uf1.n ∧ p.2 < uf1.n := by
    intro p hp
    obtain ⟨p1, p2⟩ := p
    have h := pairsCondOps_mem.mp hp
    rw [hn1]
    exact ⟨by omega, by omega⟩
  obtain ⟨hnK, hwfK, hmonoK, _⟩ := unionOps_spec (knnOps tabs.length sim thr kk) uf1 hwf1 hbk
  obtain ⟨hnF, hwfF, hmonoF, hpairsF⟩ := unionOps_spec
    (pairsCondOps tabs.length (fun a b => decide (sim a b ≥ thr))) uf1 hwf1 hbp
  obtain ⟨eK, heK, hgeq⟩ := (groupsFinish_classes tabs _ 0 (fun _ => none)).1 g hg
  have hKmem : ∀ x ∈ eK.2, x < tabs.length := by
    intro x hx
    have h := ((unionOps (knnOps tabs.length sim thr kk) uf1).groups_spec hwfK).2.2.2
      eK heK x hx
    rw [hnK, hn1] at h
    exact h
  have hKne : eK.2 ≠ [] :=
    ((unionOps (knnOps tabs.length sim thr kk) uf1).groups_spec hwfK).2.2.1 eK heK
  obtain ⟨m0, ms, hKm⟩ : ∃ m0 ms, eK.2 = m0 :: ms := by
    cases hc : eK.2 with
    | nil => exact absurd hc hKne
    | cons a b => exact ⟨a, b, rfl⟩
  have hm0K : m0 ∈ eK.2 := by rw [hKm]; exact List.mem_cons_self _ _
  have hm0n : m0 < tabs.length := hKmem m0 hm0K
  obtain ⟨eF, heF, hm0F, _⟩ :=
    (unionOps (pairsCondOps tabs.length (fun a b => decide (sim a b ≥ thr))) uf1).groups_cover
      hwfF (x := m0) (by rw [hnF, hn1]; exact hm0n)
  obtain ⟨g2, hg2, hg2eq⟩ := (groupsFinish_classes tabs _ 0 (fun _ => none)).2 eF heF
  refine ⟨g2, hg2, ?_⟩
  intro x hx
  rw [hgeq] at hx
  rcases List.mem_map.mp hx with ⟨i, hieK, hxeq⟩
  have hin : i < tabs.length := hKmem i hieK
  have hsrK : SameRoot (unionOps (knnOps tabs.length sim thr kk) uf1).parent i m0 :=
    (unionOps (knnOps tabs.length sim thr kk) uf1).groups_sameRoot hwfK heK hieK hm0K
  have hsrF : SameRoot (unionOps (pairsCondOps tabs.length
      (fun a b => decide (sim a b ≥ thr))) uf1).parent i m0 := by
    have hsub := unionOps_sub
      (fun y z => y < tabs.length ∧ z < tabs.length ∧
        SameRoot (unionOps (pairsCondOps tabs.length
          (fun a b => decide (sim a b ≥ thr))) uf1).parent y z)
      (fun a b h => ⟨h.2.1, h.1, sameRoot_symm h.2.2⟩)
      (fun a b c h1 h2 => ⟨h1.1, h2.2.1, sameRoot_trans h1.2.2 h2.2.2⟩)
      (knnOps tabs.length sim thr kk) uf1 hwf1 hbk
      (fun y z hy hz hsr => ⟨by rw [← hn1]; exact hy, by rw [← hn1]; exact hz,
        hmonoF y z hy hz hsr⟩)
      ?_ i m0 (by rw [hn1]; exact hin) (by rw [hn1]; exact hm0n) hsrK
    · exact hsub.2.2
    · intro p hp
      obtain ⟨h1, h2, hne, hs12, hs21⟩ := knnOps_mem hp
      refine ⟨h1, h2, ?_⟩
      rcases Nat.lt_or_ge p.1 p.2 with hlt | hge
      · exact hpairsF (p.1, p.2) (pairsCondOps_mem.mpr ⟨hlt, h2, decide_eq_true hs12⟩)
      · have hlt2 : p.2 < p.1 := by omega
        exact sameRoot_symm
          (hpairsF (p.2, p.1) (pairsCondOps_mem.mpr ⟨hlt2, h1, decide_eq_true hs21⟩))
  have hiF : i ∈ eF.2 :=
    (unionOps (pairsCondOps tabs.length (fun a b => decide (sim a b ≥ thr))) uf1).groups_closed
      hwfF heF hm0F (by rw [hnF, hn1]; exact hin) (sameRoot_symm hsrF)
  rw [hg2eq, ← hxeq]
  exact List.mem_map.mpr ⟨i, hiF, rfl⟩

/-! ## Support lemmas for `dedupe_tabs`: `min`, list writes, sorted alias
sets, class disjointness, and nonemptiness of the canonicalizer output -/

theorem foldl_min_le_init : ∀ (t : List Nat) (a : Nat), t.foldl Nat.min a ≤ a
  | [], _ => Nat.le_refl _
  | b :: t, a => Nat.le_trans (foldl_min_le_init t (Nat.min a b)) (Nat.min_le_left a b)

theorem foldl_min_le_mem : ∀ (t : List Nat) (a : Nat), ∀ x ∈ t, t.foldl Nat.min a ≤ x
  | b :: t, a, x, hx => by
    rcases List.mem_cons.mp hx with rfl | hxt
    · exact Nat.le_trans (foldl_min_le_init t (Nat.min a x)) (Nat.min_le_right a x)
    · exact foldl_min_le_mem t (Nat.min a b) x hxt

theorem foldl_min_mem : ∀ (t : List Nat) (a : Nat), t.foldl Nat.min a ∈ a :: t
  | [], a => List.mem_cons_self a []
  | b :: t, a => by
    have h := foldl_min_mem t (Nat.min a b)
    rcases List.mem_cons.mp h with he | ht
    · rw [List.foldl_cons, he, Nat.min, Nat.min_def]
      by_cases h3 : a ≤ b
      · rw [if_pos h3]
        exact List.mem_cons_self _ _
      · rw [if_neg h3]
        exact List.mem_cons_of_mem _ (List.mem_cons_self _ _)
    · exact List.mem_cons_of_mem _ (List.mem_cons_of_mem _ ht)

/-- `min(indices)` is a member (for nonempty input). -/
theorem pyMin_mem : ∀ (l : List Nat), l ≠ [] → pyMin l ∈ l
  | [], h => absurd rfl h
  | a :: t, _ => foldl_min_mem t a

/-- `min(indices)` is a lower bound. -/
theorem pyMin_le : ∀ (l : List Nat), ∀ x ∈ l, pyMin l ≤ x
  | a :: t, x, hx => by
    rcases List.mem_cons.mp hx with rfl | hxt
    · exact foldl_min_le_init t x
    · exact foldl_min_le_mem t a x hxt

/-- Reading through a write: the written slot (when in range), every other
slot unchanged. -/
theorem tget_setTab : ∀ (ts : List Tab) (i : Nat) (t : Tab) (y : Nat),
    tget (setTab ts i t) y = if y = i ∧ i < ts.length then t else tget ts y
  | [], i, t, y => by simp [setTab, tget]
  | a :: ts, 0, t, 0 => by simp [setTab, tget]
  | a :: ts, 0, t, y + 1 => by simp [setTab, tget, List.getD]
  | a :: ts, i + 1, t, 0 => by simp [setTab, tget]
  | a :: ts, i + 1, t, y + 1 => by
    have ih := tget_setTab ts i t y
    simp only [setTab] at ih ⊢
    rw [show (a :: ts).set (i + 1) t = a :: ts.set i t from rfl]
    rw [show tget (a :: ts.set i t) (y + 1) = tget (ts.set i t) y from rfl,
      show tget (a :: ts) (y + 1) = tget ts y from rfl, ih]
    by_cases h : y = i ∧ i < ts.length
    · rw [if_pos h, if_pos ⟨by omega, by simp [List.length_cons]; omega⟩]
    · rw [if_neg h, if_neg (by simp [List.length_cons]; omega)]

/-- `setTab` keeps the length. -/
theorem setTab_length (ts : List Tab) (i : Nat) (t : Tab) :
    (setTab ts i t).length = ts.length := by
  simp [setTab]

theorem dedupKeep_mem : ∀ (l : List String) (x : String), x ∈ dedupKeep l ↔ x ∈ l
  | [], x => Iff.rfl
  | a :: l, x => by
    rw [dedupKeep]
    by_cases h : a ∈ dedupKeep l
    · rw [if_pos h]
      rw [dedupKeep_mem l x]
      constructor
      · exact List.mem_cons_of_mem a
      · intro hx
        rcases List.mem_cons.mp hx with rfl | hxl
        · exact (dedupKeep_mem l x).mp h
        · exact hxl
    · rw [if_neg h]
      constructor
      · intro hx
        rcases List.mem_cons.mp hx with rfl | hxl
        · exact List.mem_cons_self _ _
        · exact List.mem_cons_of_mem _ ((dedupKeep_mem l x).mp hxl)
      · intro hx
        rcases List.mem_cons.mp hx with rfl | hxl
        · exact List.mem_cons_self _ _
        · exact List.mem_cons_of_mem _ ((dedupKeep_mem l x).mpr hxl)

theorem dedupKeep_nodup : ∀ (l : List String), (dedupKeep l).Nodup
  | [] => List.nodup_nil
  | a :: l => by
    rw [dedupKeep]
    by_cases h : a ∈ dedupKeep l
    · rw [if_pos h]
      exact dedupKeep_nodup l
    · rw [if_neg h]
      exact List.nodup_cons.mpr ⟨h, dedupKeep_nodup l⟩

theorem string_ext {a b : String} (h : a.data = b.data) : a = b := by
  cases a
  cases b
  exact congrArg String.mk h

theorem strLtB_asymm (a b : String) : strLtB a b = true → strLtB b a = false :=
  lexLt_asymm a.data b.data

theorem strLtB_trans (a b c : String) :
    strLtB a b = true → strLtB b c = true → strLtB a c = true :=
  lexLt_trans a.data b.data c.data

theorem strLtB_antisymm (a b : String) :
    strLtB a b = false → strLtB b a = false → a = b := fun h1 h2 =>
  string_ext (lexLt_antisymm a.data b.data h1 h2)

/-- Membership in `sorted(set(l))` is membership in `l`. -/
theorem mem_sortedStrSet (l : List String) (x : String) :
    x ∈ sortedStrSet l ↔ x ∈ l := by
  unfold sortedStrSet
  rw [(insSort_perm strLtB (dedupKeep l)).mem_iff]
  exact dedupKeep_mem l x

/-- `sorted(set(l))` is strictly ascending (hence deduplicated and
sorted). -/
theorem sortedStrSet_sorted (l : List String) :
    (sortedStrSet l).Pairwise fun a b => strLtB a b = true := by
  have hnd : (sortedStrSet l).Nodup :=
    ((insSort_perm strLtB (dedupKeep l)).nodup_iff).mpr (dedupKeep_nodup l)
  have hsort : (sortedStrSet l).Pairwise fun a b => strLtB b a = false := by
    unfold sortedStrSet
    exact insSort_sorted strLtB strLtB_asymm strLtB_trans
      (fun a b h1 h2 c => by rw [strLtB_antisymm a b h1 h2]) (dedupKeep l)
  refine (hnd.and hsort).imp ?_
  intro a b h
  cases hab : strLtB a b
  · exact absurd (strLtB_antisymm a b hab h.2) h.1
  · rfl

/-- Distinct collected classes are disjoint. -/
theorem UF.groups_disjoint (uf : UF) (hwf : uf.WF) :
    (uf.groups).1.Pairwise fun e1 e2 => ∀ x, x ∈ e1.2 → x ∉ e2.2 := by
  have hkeys := (uf.groups_spec hwf).2.1
  have hpw : (uf.groups).1.Pairwise fun e1 e2 => e1.1 ≠ e2.1 :=
    List.pairwise_map.mp hkeys
  refine hpw.imp_of_mem ?_
  intro e1 e2 he1 he2 hne x hx1 hx2
  have h1 := ((uf.groups_spec hwf).1 e1.1 x).mp
    (by rw [← uf.groups_entry_eq hwf he1]; exact hx1)
  have h2 := ((uf.groups_spec hwf).1 e2.1 x).mp
    (by rw [← uf.groups_entry_eq hwf he2]; exact hx2)
  exact hne (hasRoot_unique h1.2 h2.2)

/-- The rendered canonical string is never empty (the scheme defaults to
`https` and the path to `/`). -/
theorem canonParts_ne_nil (parsed : ParseR) : canonParts parsed ≠ [] := by
  have hscheme : lowerL (if parsed.scheme = [] then String.data "https"
      else parsed.scheme) ≠ [] := by
    by_cases h : parsed.scheme = []
    · rw [if_pos h]
      simp [lowerL]
    · rw [if_neg h]
      simpa [lowerL, List.map_eq_nil_iff] using h
  unfold canonParts urlunparseM urlunsplitM
  simp only [if_neg (by simp : ¬ (([] : List Char) ≠ []))]
  split_ifs with h1 h2 h3 h4 h5 <;> simp_all

/-- `canonicalize_url` never returns the empty string. -/
theorem canonicalize_url_ne_empty (u : String) : canonicalize_url u ≠ "" := by
  by_cases hu : u = ""
  · subst hu
    decide
  · unfold canonicalize_url
    cases hp : urlparseM u.data with
    | error e => exact hu
    | ok parsed =>
      intro hmk
      have : canonParts parsed = [] := by
        have := congrArg String.data hmk
        simpa using this
      exact canonParts_ne_nil parsed this

/-- The canonical key of a tab is never empty. -/
theorem canonOf_ne_empty (t : Tab) : canonOf t ≠ "" := by
  unfold canonOf pyOrStr
  cases t.canonical_url with
  | none => exact canonicalize_url_ne_empty t.url
  | some s =>
    show (if s = "" then canonicalize_url t.url else s) ≠ ""
    by_cases hs : s = ""
    · rw [if_pos hs]
      exact canonicalize_url_ne_empty t.url
    · rw [if_neg hs]
      exact hs

/-- The per-duplicate rewrite of `dedupe_tabs`: set `duplicate_of`, and
copy the primary's `canonical_url` when the own one is falsy (`pcan` is
the primary's `canonical_url`, stable during the loop). -/
def clusterStep (primary : Nat) (pcan : Option String) (t : Tab) : Tab :=
  let t1 := { t with duplicate_of := some primary }
  if pyFalsy t1.canonical_url then { t1 with canonical_url := pcan } else t1

theorem clusterStep_idem (primary : Nat) (pcan : Option String) (t : Tab) :
    clusterStep primary pcan (clusterStep primary pcan t) =
      clusterStep primary pcan t := by
  unfold clusterStep
  by_cases h : pyFalsy t.canonical_url
  · rw [if_pos h]
    by_cases h2 : pyFalsy pcan
    · rw [if_pos h2]
    · rw [if_neg h2]
  · rw [if_neg h, if_neg h]

/-- The raw-URL alias list a cluster contributes. -/
def clusterAliases (tabs0 : List Tab) (indices : List Nat) : List String :=
  (indices.filter fun idx => idx ≠ pyMin indices).map
    fun idx => (tget tabs0 idx).url

/-- The primary tab after one cluster is resolved. -/
def primaryResult (tabs0 : List Tab) (indices : List Nat) : Tab :=
  if clusterAliases tabs0 indices = [] then tget tabs0 (pyMin indices)
  else { tget tabs0 (pyMin indices) with
         aliases := sortedStrSet ((tget tabs0 (pyMin indices)).aliases ++
           (clusterAliases tabs0 indices).filter fun u => u ≠ "") }

/-- A non-primary tab after one cluster is resolved. -/
def nonprimaryResult (tabs0 : List Tab) (indices : List Nat) (y : Nat) : Tab :=
  if clusterAliases tabs0 indices = [] then tget tabs0 y
  else clusterStep (pyMin indices) ((tget tabs0 (pyMin indices)).canonical_url)
    (tget tabs0 y)

/-- The `primary_map` write loop: every listed index maps to the primary,
everything else is unchanged. -/
theorem pmFold_spec (primary : Nat) :
    ∀ (idxs : List Nat) (m : Nat → Option Nat) (x : Nat),
      (idxs.foldl (fun m idx => fun y => if y = idx then some primary else m y) m) x =
        if x ∈ idxs then some primary else m x
  | [], m, x => by simp
  | idx :: rest, m, x => by
    rw [List.foldl_cons, pmFold_spec primary rest _ x]
    by_cases hr : x ∈ rest
    · rw [if_pos hr, if_pos (List.mem_cons_of_mem _ hr)]
    · rw [if_neg hr]
      by_cases hx : x = idx
      · rw [if_pos hx, if_pos (by rw [hx]; exact List.mem_cons_self _ _)]
      · have hmem : x ∉ idx :: rest := by
          intro h
          rcases List.mem_cons.mp h with h2 | h2
          · exact hx h2
          · exact hr h2
        rw [if_neg hx, if_neg hmem]

/-- The duplicate-rewrite loop of one cluster: length kept, the primary
slot and unlisted slots untouched, every other listed slot rewritten by
`clusterStep` with the primary's (stable) `canonical_url`. -/
theorem clusterLoop_spec (primary : Nat) :
    ∀ (idxs : List Nat) (ts : List Tab), (∀ x ∈ idxs, x < ts.length) →
      ((idxs.foldl (fun ts idx =>
          if idx = primary then ts
          else
            let t := tget ts idx
            let t1 := { t with duplicate_of := some primary }
            let t2 := if pyFalsy t1.canonical_url then
                { t1 with canonical_url := (tget ts primary).canonical_url }
              else t1
            setTab ts idx t2) ts).length = ts.length) ∧
      (∀ y, y = primary ∨ y ∉ idxs →
        tget (idxs.foldl (fun ts idx =>
          if idx = primary then ts
          else
            let t := tget ts idx
            let t1 := { t with duplicate_of := some primary }
            let t2 := if pyFalsy t1.canonical_url then
                { t1 with canonical_url := (tget ts primary).canonical_url }
              else t1
            setTab ts idx t2) ts) y = tget ts y) ∧
      (∀ y ∈ idxs, y ≠ primary →
        tget (idxs.foldl (fun ts idx =>
          if idx = primary then ts
          else
            let t := tget ts idx
            let t1 := { t with duplicate_of := some primary }
            let t2 := if pyFalsy t1.canonical_url then
                { t1 with canonical_url := (tget ts primary).canonical_url }
              else t1
            setTab ts idx t2) ts) y =
          clusterStep primary ((tget ts primary).canonical_url) (tget ts y))
  | [], ts, _ => ⟨rfl, fun _ _ => rfl, fun y hy => absurd hy (List.not_mem_nil y)⟩
  | idx1 :: rest, ts, hb => by
    by_cases hip : idx1 = primary
    · rw [List.foldl_cons]
      rw [if_pos hip]
      obtain ⟨ih1, ih2, ih3⟩ := clusterLoop_spec primary rest ts
        (fun x hx => hb x (List.mem_cons_of_mem _ hx))
      refine ⟨ih1, ?_, ?_⟩
      · intro y hy
        refine ih2 y ?_
        rcases hy with h | h
        · exact Or.inl h
        · exact Or.inr (fun h2 => h (List.mem_cons_of_mem _ h2))
      · intro y hy hyp
        rcases List.mem_cons.mp hy with h | h
        · exact absurd (h.trans hip) hyp
        · exact ih3 y h hyp
    · rw [List.foldl_cons, if_neg hip]
      have hwrite : setTab ts idx1
          (if pyFalsy ({ tget ts idx1 with duplicate_of := some primary }).canonical_url then
            { { tget ts idx1 with duplicate_of := some primary } with
              canonical_url := (tget ts primary).canonical_url }
          else { tget ts idx1 with duplicate_of := some primary }) =
          setTab ts idx1 (clusterStep primary
            ((tget ts primary).canonical_url) (tget ts idx1)) := rfl
      rw [hwrite]
      have hlen1 : (setTab ts idx1 (clusterStep primary
          ((tget ts primary).canonical_url) (tget ts idx1))).length = ts.length :=
        setTab_length ts idx1 _
      obtain ⟨ih1, ih2, ih3⟩ := clusterLoop_spec primary rest
        (setTab ts idx1 (clusterStep primary
          ((tget ts primary).canonical_url) (tget ts idx1)))
        (fun x hx => by rw [hlen1]; exact hb x (List.mem_cons_of_mem _ hx))
      have hidx1 : idx1 < ts.length := hb idx1 (List.mem_cons_self _ _)
      have hprim : tget (setTab ts idx1 (clusterStep primary
          ((tget ts primary).canonical_url) (tget ts idx1))) primary = tget ts primary := by
        rw [tget_setTab, if_neg (by intro h; exact hip h.1.symm)]
      refine ⟨ih1.trans hlen1, ?_, ?_⟩
      · intro y hy
        have hyidx : y ≠ idx1 := by
          rcases hy with h | h
          · intro h2
            exact hip (h2.symm.trans h)
          · intro h2
            exact h (by rw [h2]; exact List.mem_cons_self _ _)
        have h2 := ih2 y (by
          rcases hy with h | h
          · exact Or.inl h
          · exact Or.inr (fun h3 => h (List.mem_cons_of_mem _ h3)))
        rw [h2, tget_setTab, if_neg (by intro h3; exact hyidx h3.1)]
      · intro y hy hyp
        by_cases hyr : y ∈ rest
        · have h3 := ih3 y hyr hyp
          rw [h3, hprim]
          by_cases hyi : y = idx1
          · rw [tget_setTab, if_pos ⟨hyi, hidx1⟩, hyi, clusterStep_idem]
          · rw [tget_setTab, if_neg (by intro h4; exact hyi h4.1)]
        · have hyi : y = idx1 := by
            rcases List.mem_cons.mp hy with h | h
            · exact h
            · exact absurd h hyr
          have h2 := ih2 y (Or.inr hyr)
          rw [h2, tget_setTab, if_pos ⟨hyi, hidx1⟩, hyi]

/-- Full effect of one cluster resolution on the state. -/
theorem dedupeCluster_spec (tabs0 : List Tab) (pm0 : Nat → Option Nat) (d0 : Nat)
    (indices : List Nat) (hne : indices ≠ [])
    (hb : ∀ x ∈ indices, x < tabs0.length) :
    (dedupeCluster (tabs0, pm0, d0) indices).1.length = tabs0.length ∧
    (∀ y, y ∉ indices →
      tget (dedupeCluster (tabs0, pm0, d0) indices).1 y = tget tabs0 y) ∧
    (∀ y, y ∉ indices →
      (dedupeCluster (tabs0, pm0, d0) indices).2.1 y = pm0 y) ∧
    (∀ y ∈ indices,
      (dedupeCluster (tabs0, pm0, d0) indices).2.1 y = some (pyMin indices)) ∧
    (tget (dedupeCluster (tabs0, pm0, d0) indices).1 (pyMin indices) =
      primaryResult tabs0 indices) ∧
    (∀ y ∈ indices, y ≠ pyMin indices →
      tget (dedupeCluster (tabs0, pm0, d0) indices).1 y =
        nonprimaryResult tabs0 indices y) := by
  have hpm : ∀ x, (dedupeCluster (tabs0, pm0, d0) indices).2.1 x =
      if x ∈ indices then some (pyMin indices) else pm0 x := by
    intro x
    unfold dedupeCluster
    by_cases ha : (indices.filter fun idx => idx ≠ pyMin indices).map
        (fun idx => (tget tabs0 idx).url) = []
    · rw [if_pos ha]
      exact pmFold_spec (pyMin indices) indices pm0 x
    · rw [if_neg ha]
      exact pmFold_spec (pyMin indices) indices pm0 x
  have hprimmem : pyMin indices ∈ indices := pyMin_mem indices hne
  have hprimlt : pyMin indices < tabs0.length := hb _ hprimmem
  have hmain : (dedupeCluster (tabs0, pm0, d0) indices).1.length = tabs0.length ∧
      (∀ y, y ∉ indices →
        tget (dedupeCluster (tabs0, pm0, d0) indices).1 y = tget tabs0 y) ∧
      (tget (dedupeCluster (tabs0, pm0, d0) indices).1 (pyMin indices) =
        primaryResult tabs0 indices) ∧
      (∀ y ∈ indices, y ≠ pyMin indices →
        tget (dedupeCluster (tabs0, pm0, d0) indices).1 y =
          nonprimaryResult tabs0 indices y) := by
    unfold dedupeCluster
    by_cases ha : (indices.filter fun idx => idx ≠ pyMin indices).map
        (fun idx => (tget tabs0 idx).url) = []
    · rw [if_pos ha]
      have hpr : primaryResult tabs0 indices = tget tabs0 (pyMin indices) := by
        unfold primaryResult clusterAliases
        rw [if_pos ha]
      refine ⟨rfl, fun y _ => rfl, hpr.symm, ?_⟩
      intro y hy hyp
      have hnp : nonprimaryResult tabs0 indices y = tget tabs0 y := by
        unfold nonprimaryResult clusterAliases
        rw [if_pos ha]
      rw [hnp]
    · rw [if_neg ha]
      have hlen1 : (setTab tabs0 (pyMin indices)
          { tget tabs0 (pyMin indices) with
            aliases := sortedStrSet ((tget tabs0 (pyMin indices)).aliases ++
              ((indices.filter fun idx => idx ≠ pyMin indices).map
                (fun idx => (tget tabs0 idx).url)).filter fun u => u ≠ "") }).length =
          tabs0.length := setTab_length _ _ _
      obtain ⟨hl1, hl2, hl3⟩ := clusterLoop_spec (pyMin indices) indices
        (setTab tabs0 (pyMin indices)
          { tget tabs0 (pyMin indices) with
            aliases := sortedStrSet ((tget tabs0 (pyMin indices)).aliases ++
              ((indices.filter fun idx => idx ≠ pyMin indices).map
                (fun idx => (tget tabs0 idx).url)).filter fun u => u ≠ "") })
        (fun x hx => by rw [hlen1]; exact hb x hx)
      have hget1 : ∀ y, y ≠ pyMin indices →
          tget (setTab tabs0 (pyMin indices)
            { tget tabs0 (pyMin indices) with
              aliases := sortedStrSet ((tget tabs0 (pyMin indices)).aliases ++
                ((indices.filter fun idx => idx ≠ pyMin indices).map
                  (fun idx => (tget tabs0 idx).url)).filter fun u => u ≠ "") }) y =
            tget tabs0 y := by
        intro y hy
        rw [tget_setTab, if_neg (by intro h; exact hy h.1)]
      have hgetp : tget (setTab tabs0 (pyMin indices)
          { tget tabs0 (pyMin indices) with
            aliases := sortedStrSet ((tget tabs0 (pyMin indices)).aliases ++
              ((indices.filter fun idx => idx ≠ pyMin indices).map
                (fun idx => (tget tabs0 idx).url)).filter fun u => u ≠ "") })
          (pyMin indices) =
          { tget tabs0 (pyMin indices) with
            aliases := sortedStrSet ((tget tabs0 (pyMin indices)).aliases ++
              ((indices.filter fun idx => idx ≠ pyMin indices).map
                (fun idx => (tget tabs0 idx).url)).filter fun u => u ≠ "") } := by
        rw [tget_setTab, if_pos ⟨rfl, hprimlt⟩]
      refine ⟨hl1.trans hlen1, ?_, ?_, ?_⟩
      · intro y hy
        have h2 := hl2 y (Or.inr hy)
        rw [h2, hget1 y (by intro h; rw [h] at hy; exact hy hprimmem)]
      · have h2 := hl2 (pyMin indices) (Or.inl rfl)
        rw [h2, hgetp]
        unfold primaryResult clusterAliases
        rw [if_neg ha]
      · intro y hy hyp
        have h3 := hl3 y hy hyp
        rw [h3, hgetp, hget1 y hyp]
        unfold nonprimaryResult clusterAliases
        rw [if_neg ha]
  exact ⟨hmain.1, hmain.2.1,
    fun y hy => by rw [hpm y, if_neg hy],
    fun y hy => by rw [hpm y, if_pos hy],
    hmain.2.2.1, hmain.2.2.2⟩

/-- `clusterAliases` reads only the member slots. -/
theorem clusterAliases_congr {tabs1 tabs0 : List Tab} {indices : List Nat}
    (h : ∀ x ∈ indices, tget tabs1 x = tget tabs0 x) :
    clusterAliases tabs1 indices = clusterAliases tabs0 indices := by
  unfold clusterAliases
  refine List.map_congr_left ?_
  intro x hx
  rw [h x (List.mem_of_mem_filter hx)]

theorem primaryResult_congr {tabs1 tabs0 : List Tab} {indices : List Nat}
    (hne : indices ≠ []) (h : ∀ x ∈ indices, tget tabs1 x = tget tabs0 x) :
    primaryResult tabs1 indices = primaryResult tabs0 indices := by
  unfold primaryResult
  rw [clusterAliases_congr h, h (pyMin indices) (pyMin_mem indices hne)]

theorem nonprimaryResult_congr {tabs1 tabs0 : List Tab} {indices : List Nat}
    {y : Nat} (hne : indices ≠ []) (hy : y ∈ indices)
    (h : ∀ x ∈ indices, tget tabs1 x = tget tabs0 x) :
    nonprimaryResult tabs1 indices y = nonprimaryResult tabs0 indices y := by
  unfold nonprimaryResult
  rw [clusterAliases_congr h, h (pyMin indices) (pyMin_mem indices hne), h y hy]

/-- Full effect of the cluster-resolution fold: with pairwise-disjoint
nonempty in-range clusters, each member's final tab and `primary_map`
entry are determined by its own cluster over the initial tabs. -/
theorem dedupeFold_spec :
    ∀ (entries : List (Nat × List Nat)) (tabs0 : List Tab)
      (pm0 : Nat → Option Nat) (d0 : Nat),
      entries.Pairwise (fun e1 e2 => ∀ x, x ∈ e1.2 → x ∉ e2.2) →
      (∀ e ∈ entries, e.2 ≠ []) →
      (∀ e ∈ entries, ∀ x ∈ e.2, x < tabs0.length) →
      (entries.foldl (fun st entry => dedupeCluster st entry.2)
        (tabs0, pm0, d0)).1.length = tabs0.length ∧
      (∀ y, (∀ e ∈ entries, y ∉ e.2) →
        tget (entries.foldl (fun st entry => dedupeCluster st entry.2)
          (tabs0, pm0, d0)).1 y = tget tabs0 y ∧
        (entries.foldl (fun st entry => dedupeCluster st entry.2)
          (tabs0, pm0, d0)).2.1 y = pm0 y) ∧
      (∀ e ∈ entries, ∀ y ∈ e.2,
        (entries.foldl (fun st entry => dedupeCluster st entry.2)
          (tabs0, pm0, d0)).2.1 y = some (pyMin e.2) ∧
        tget (entries.foldl (fun st entry => dedupeCluster st entry.2)
          (tabs0, pm0, d0)).1 y =
          (if y = pyMin e.2 then primaryResult tabs0 e.2
           else nonprimaryResult tabs0 e.2 y))
  | [], tabs0, pm0, d0, _, _, _ =>
    ⟨rfl, fun _ _ => ⟨rfl, rfl⟩, fun e he => absurd he (List.not_mem_nil e)⟩
  | e0 :: rest, tabs0, pm0, d0, hdisj, hne, hbound => by
    have hne0 : e0.2 ≠ [] := hne e0 (List.mem_cons_self _ _)
    have hb0 : ∀ x ∈ e0.2, x < tabs0.length :=
      hbound e0 (List.mem_cons_self _ _)
    obtain ⟨cs1, cs2, cs3, cs4, cs5, cs6⟩ :=
      dedupeCluster_spec tabs0 pm0 d0 e0.2 hne0 hb0
    have hd0 : ∀ e ∈ rest, ∀ x, x ∈ e0.2 → x ∉ e.2 :=
      fun e he => (List.pairwise_cons.mp hdisj).1 e he
    have hdisjr := (List.pairwise_cons.mp hdisj).2
    obtain ⟨ih1, ih2, ih3⟩ := dedupeFold_spec rest
      (dedupeCluster (tabs0, pm0, d0) e0.2).1
      (dedupeCluster (tabs0, pm0, d0) e0.2).2.1
      (dedupeCluster (tabs0, pm0, d0) e0.2).2.2
      hdisjr (fun e he => hne e (List.mem_cons_of_mem _ he))
      (fun e he x hx => by
        rw [cs1]
        exact hbound e (List.mem_cons_of_mem _ he) x hx)
    have hstep : (e0 :: rest).foldl (fun st entry => dedupeCluster st entry.2)
        (tabs0, pm0, d0) =
        rest.foldl (fun st entry => dedupeCluster st entry.2)
          (dedupeCluster (tabs0, pm0, d0) e0.2) := rfl
    rw [hstep]
    refine ⟨ih1.trans cs1, ?_, ?_⟩
    · intro y hy
      have hy0 : y ∉ e0.2 := hy e0 (List.mem_cons_self _ _)
      have hyr : ∀ e ∈ rest, y ∉ e.2 := fun e he => hy e (List.mem_cons_of_mem _ he)
      obtain ⟨iha, ihb⟩ := ih2 y hyr
      exact ⟨iha.trans (cs2 y hy0), ihb.trans (cs3 y hy0)⟩
    · intro e he y hy
      rcases List.mem_cons.mp he with he0 | her
      · rw [he0] at hy ⊢
        have hyr : ∀ e2 ∈ rest, y ∉ e2.2 := fun e2 he2 => hd0 e2 he2 y hy
        obtain ⟨iha, ihb⟩ := ih2 y hyr
        refine ⟨ihb.trans (cs4 y hy), ?_⟩
        rw [iha]
        by_cases hyp : y = pyMin e0.2
        · rw [if_pos hyp, hyp]
          exact cs5
        · rw [if_neg hyp]
          exact cs6 y hy hyp
      · have hcongr : ∀ x ∈ e.2,
            tget (dedupeCluster (tabs0, pm0, d0) e0.2).1 x = tget tabs0 x := by
          intro x hx
          refine cs2 x ?_
          intro hx0
          exact hd0 e her x hx0 hx
        obtain ⟨iha, ihb⟩ := ih3 e her y hy
        refine ⟨iha, ?_⟩
        rw [ihb]
        have hner : e.2 ≠ [] := hne e (List.mem_cons_of_mem _ her)
        by_cases hyp : y = pyMin e.2
        · rw [if_pos hyp, if_pos hyp]
          exact primaryResult_congr hner hcongr
        · rw [if_neg hyp, if_neg hyp]
          exact nonprimaryResult_congr hner hy hcongr

/-- Full specification of phase 1 of `dedupe_tabs` (canonical-url exact
matching): the union-find keeps its size and well-formedness and only
gains merges; the tabs get their canonical key written; the
`canonical_map` representative is merged with every later tab carrying its
key; and any two processed tabs with one nonempty canonical key are
merged. -/
theorem dedupePhase1_spec :
    ∀ (ts : List Tab) (idx : Nat) (cmap : String → Option Nat) (uf : UF),
      uf.WF →
      (∀ s v, cmap s = some v → v < uf.n) →
      idx + ts.length ≤ uf.n →
      (dedupePhase1 ts idx cmap uf).2.2.n = uf.n ∧
      (dedupePhase1 ts idx cmap uf).2.2.WF ∧
      (∀ y z, y < uf.n → z < uf.n → SameRoot uf.parent y z →
        SameRoot (dedupePhase1 ts idx cmap uf).2.2.parent y z) ∧
      (dedupePhase1 ts idx cmap uf).1.length = ts.length ∧
      (∀ k, k < ts.length →
        tget (dedupePhase1 ts idx cmap uf).1 k =
          (if canonOf (tget ts k) = "" then tget ts k
           else { tget ts k with canonical_url := some (canonOf (tget ts k)) })) ∧
      (∀ s v, cmap s = some v → ∀ k, k < ts.length → canonOf (tget ts k) = s →
        s ≠ "" → SameRoot (dedupePhase1 ts idx cmap uf).2.2.parent v (idx + k)) ∧
      (∀ k1 k2, k1 < ts.length → k2 < ts.length →
        canonOf (tget ts k1) = canonOf (tget ts k2) → canonOf (tget ts k1) ≠ "" →
        SameRoot (dedupePhase1 ts idx cmap uf).2.2.parent (idx + k1) (idx + k2))
  | [], idx, cmap, uf, hwf, hcm, hb => by
    refine ⟨rfl, hwf, fun _ _ _ _ h => h, rfl, ?_, ?_, ?_⟩
    · intro k hk
      exact absurd hk (by simp)
    · intro s v _ k hk
      exact absurd hk (by simp)
    · intro k1 k2 hk1
      exact absurd hk1 (by simp)
  | t :: rest, idx, cmap, uf, hwf, hcm, hb => by
    have hidxn : idx < uf.n := by
      simp only [List.length_cons] at hb
      omega
    have hbrest : idx + 1 + rest.length ≤ uf.n := by
      simp only [List.length_cons] at hb
      omega
    by_cases hc : canonOf t = ""
    · rw [show dedupePhase1 (t :: rest) idx cmap uf =
        (t :: (dedupePhase1 rest (idx + 1) cmap uf).1,
         (dedupePhase1 rest (idx + 1) cmap uf).2) from by
          rw [dedupePhase1]
          rw [if_pos hc]]
      obtain ⟨ihn, ihwf, ihmono, ihlen, ihtabs, ihR3, ihR2⟩ :=
        dedupePhase1_spec rest (idx + 1) cmap uf hwf hcm hbrest
      refine ⟨ihn, ihwf, ihmono, by simp [ihlen], ?_, ?_, ?_⟩
      · intro k hk
        cases k with
        | zero =>
          show tget (t :: (dedupePhase1 rest (idx + 1) cmap uf).1) 0 =
            (if canonOf t = "" then t
             else { t with canonical_url := some (canonOf t) })
          rw [if_pos hc]
          rfl
        | succ k =>
          rw [show tget (t :: (dedupePhase1 rest (idx + 1) cmap uf).1) (k + 1) =
            tget (dedupePhase1 rest (idx + 1) cmap uf).1 k from rfl,
            show tget (t :: rest) (k + 1) = tget rest k from rfl]
          exact ihtabs k (by simpa using Nat.lt_of_succ_lt_succ hk)
      · intro s v hcm0 k hk hcan hs
        cases k with
        | zero =>
          rw [show tget (t :: rest) 0 = t from rfl] at hcan
          exact absurd (hcan.symm.trans hc) hs
        | succ k =>
          rw [show idx + (k + 1) = (idx + 1) + k by omega]
          exact ihR3 s v hcm0 k (by simpa using Nat.lt_of_succ_lt_succ hk)
            (by rw [show tget (t :: rest) (k + 1) = tget rest k from rfl] at hcan
                exact hcan) hs
      · intro k1 k2 hk1 hk2 hcan hne
        cases k1 with
        | zero =>
          rw [show tget (t :: rest) 0 = t from rfl] at hcan hne
          exact absurd hc hne
        | succ k1 =>
          cases k2 with
          | zero =>
            rw [show tget (t :: rest) 0 = t from rfl] at hcan
            rw [hcan] at hne
            exact absurd hc hne
          | succ k2 =>
            rw [show idx + (k1 + 1) = (idx + 1) + k1 by omega,
              show idx + (k2 + 1) = (idx + 1) + k2 by omega]
            rw [show tget (t :: rest) (k1 + 1) = tget rest k1 from rfl] at hcan hne
            rw [show tget (t :: rest) (k2 + 1) = tget rest k2 from rfl] at hcan
            exact ihR2 k1 k2 (by simpa using Nat.lt_of_succ_lt_succ hk1)
              (by simpa using Nat.lt_of_succ_lt_succ hk2) hcan hne
    · cases hm : cmap (canonOf t) with
      | some prev =>
        rw [show dedupePhase1 (t :: rest) idx cmap uf =
          ({ t with canonical_url := some (canonOf t) } ::
            (dedupePhase1 rest (idx + 1) cmap (uf.union idx prev)).1,
           (dedupePhase1 rest (idx + 1) cmap (uf.union idx prev)).2) from by
            rw [dedupePhase1]
            rw [if_neg hc, hm]]
        have hprevn : prev < uf.n := hcm _ _ hm
        obtain ⟨hn1, hwf1, hsr1, hiff⟩ := UF.union_spec uf hwf idx prev hidxn hprevn
        obtain ⟨ihn, ihwf, ihmono, ihlen, ihtabs, ihR3, ihR2⟩ :=
          dedupePhase1_spec rest (idx + 1) cmap (uf.union idx prev) hwf1
            (fun s v h => by rw [hn1]; exact hcm s v h)
            (by rw [hn1]; exact hbrest)
        have hmono2 : ∀ y z, y < uf.n → z < uf.n → SameRoot uf.parent y z →
            SameRoot (dedupePhase1 rest (idx + 1) cmap
              (uf.union idx prev)).2.2.parent y z := by
          intro y z hy hz hsr
          exact ihmono y z (by rw [hn1]; exact hy) (by rw [hn1]; exact hz)
            ((hiff y z hy hz).mpr (Or.inl hsr))
        have hsr1f : SameRoot (dedupePhase1 rest (idx + 1) cmap
            (uf.union idx prev)).2.2.parent idx prev :=
          ihmono idx prev (by rw [hn1]; exact hidxn) (by rw [hn1]; exact hprevn) hsr1
        refine ⟨ihn.trans hn1, ihwf, hmono2, by simp [ihlen], ?_, ?_, ?_⟩
        · intro k hk
          cases k with
          | zero =>
            rw [show tget (t :: rest) 0 = t from rfl,
              show tget ({ t with canonical_url := some (canonOf t) } ::
                (dedupePhase1 rest (idx + 1) cmap (uf.union idx prev)).1) 0 =
                { t with canonical_url := some (canonOf t) } from rfl, if_neg hc]
          | succ k =>
            rw [show tget ({ t with canonical_url := some (canonOf t) } ::
                (dedupePhase1 rest (idx + 1) cmap (uf.union idx prev)).1) (k + 1) =
                tget (dedupePhase1 rest (idx + 1) cmap (uf.union idx prev)).1 k from rfl,
              show tget (t :: rest) (k + 1) = tget rest k from rfl]
            exact ihtabs k (by simpa using Nat.lt_of_succ_lt_succ hk)
        · intro s v hcm0 k hk hcan hs
          cases k with
          | zero =>
            rw [show tget (t :: rest) 0 = t from rfl] at hcan
            have hv : v = prev := by
              rw [← hcan] at hcm0
              rw [hcm0] at hm
              exact Option.some.inj hm
            subst hv
            rw [show idx + 0 = idx from rfl]
            exact sameRoot_symm hsr1f
          | succ k =>
            rw [show idx + (k + 1) = (idx + 1) + k by omega]
            exact ihR3 s v hcm0 k (by simpa using Nat.lt_of_succ_lt_succ hk)
              (by rw [show tget (t :: rest) (k + 1) = tget rest k from rfl] at hcan
                  exact hcan) hs
        · intro k1 k2 hk1 hk2 hcan hne
          have hrefl0 : SameRoot (dedupePhase1 rest (idx + 1) cmap
              (uf.union idx prev)).2.2.parent idx idx := by
            obtain ⟨r, hr⟩ := ihwf.2 idx (by rw [ihn, hn1]; exact hidxn)
            exact sameRoot_refl hr
          cases k1 with
          | zero =>
            cases k2 with
            | zero => exact hrefl0
            | succ k2 =>
              rw [show tget (t :: rest) 0 = t from rfl] at hcan hne
              rw [show tget (t :: rest) (k2 + 1) = tget rest k2 from rfl] at hcan
              have h2 := ihR3 (canonOf t) prev hm k2
                (by simpa using Nat.lt_of_succ_lt_succ hk2) hcan.symm hne
              rw [show idx + (k2 + 1) = (idx + 1) + k2 by omega]
              exact sameRoot_trans hsr1f h2
          | succ k1 =>
            cases k2 with
            | zero =>
              rw [show tget (t :: rest) 0 = t from rfl] at hcan
              rw [show tget (t :: rest) (k1 + 1) = tget rest k1 from rfl] at hcan hne
              have h2 := ihR3 (canonOf t) prev hm k1
                (by simpa using Nat.lt_of_succ_lt_succ hk1) hcan
                (by rw [← hcan]; exact hne)
              rw [show idx + (k1 + 1) = (idx + 1) + k1 by omega]
              exact sameRoot_trans (sameRoot_symm h2) (sameRoot_symm hsr1f)
            | succ k2 =>
              rw [show idx + (k1 + 1) = (idx + 1) + k1 by omega,
                show idx + (k2 + 1) = (idx + 1) + k2 by omega]
              rw [show tget (t :: rest) (k1 + 1) = tget rest k1 from rfl] at hcan hne
              rw [show tget (t :: rest) (k2 + 1) = tget rest k2 from rfl] at hcan
              exact ihR2 k1 k2 (by simpa using Nat.lt_of_succ_lt_succ hk1)
                (by simpa using Nat.lt_of_succ_lt_succ hk2) hcan hne
      | none =>
        rw [show dedupePhase1 (t :: rest) idx cmap uf =
          ({ t with canonical_url := some (canonOf t) } ::
            (dedupePhase1 rest (idx + 1)
              (fun s => if s = canonOf t then some idx else cmap s) uf).1,
           (dedupePhase1 rest (idx + 1)
              (fun s => if s = canonOf t then some idx else cmap s) uf).2) from by
            rw [dedupePhase1]
            rw [if_neg hc, hm]]
        obtain ⟨ihn, ihwf, ihmono, ihlen, ihtabs, ihR3, ihR2⟩ :=
          dedupePhase1_spec rest (idx + 1)
            (fun s => if s = canonOf t then some idx else cmap s) uf hwf
            (fun s v h => by
              have h2 : (if s = canonOf t then some idx else cmap s) = some v := h
              by_cases hs : s = canonOf t
              · rw [if_pos hs] at h2
                rw [← Option.some.inj h2]
                exact hidxn
              · rw [if_neg hs] at h2
                exact hcm s v h2)
            hbrest
        refine ⟨ihn, ihwf, ihmono, by simp [ihlen], ?_, ?_, ?_⟩
        · intro k hk
          cases k with
          | zero =>
            rw [show tget (t :: rest) 0 = t from rfl,
              show tget ({ t with canonical_url := some (canonOf t) } ::
                (dedupePhase1 rest (idx + 1)
                  (fun s => if s = canonOf t then some idx else cmap s) uf).1) 0 =
                { t with canonical_url := some (canonOf t) } from rfl, if_neg hc]
          | succ k =>
            rw [show tget ({ t with canonical_url := some (canonOf t) } ::
                (dedupePhase1 rest (idx + 1)
                  (fun s => if s = canonOf t then some idx else cmap s) uf).1) (k + 1) =
                tget (dedupePhase1 rest (idx + 1)
                  (fun s => if s = canonOf t then some idx else cmap s) uf).1 k from rfl,
              show tget (t :: rest) (k + 1) = tget rest k from rfl]
            exact ihtabs k (by simpa using Nat.lt_of_succ_lt_succ hk)
        · intro s v hcm0 k hk hcan hs
          cases k with
          | zero =>
            rw [show tget (t :: rest) 0 = t from rfl] at hcan
            rw [← hcan] at hcm0
            rw [hcm0] at hm
            exact Option.noConfusion hm
          | succ k =>
            have hsne : s ≠ canonOf t := by
              intro he
              rw [he] at hcm0
              rw [hcm0] at hm
              exact Option.noConfusion hm
            rw [show idx + (k + 1) = (idx + 1) + k by omega]
            refine ihR3 s v ?_ k (by simpa using Nat.lt_of_succ_lt_succ hk)
              (by rw [show tget (t :: rest) (k + 1) = tget rest k from rfl] at hcan
                  exact hcan) hs
            show (if s = canonOf t then some idx else cmap s) = some v
            rw [if_neg hsne]
            exact hcm0
        · intro k1 k2 hk1 hk2 hcan hne
          have hrefl0 : SameRoot (dedupePhase1 rest (idx + 1)
              (fun s => if s = canonOf t then some idx else cmap s) uf).2.2.parent
              idx idx := by
            obtain ⟨r, hr⟩ := ihwf.2 idx (by rw [ihn]; exact hidxn)
            exact sameRoot_refl hr
          cases k1 with
          | zero =>
            cases k2 with
            | zero => exact hrefl0
            | succ k2 =>
              rw [show tget (t :: rest) 0 = t from rfl] at hcan hne
              rw [show tget (t :: rest) (k2 + 1) = tget rest k2 from rfl] at hcan
              have h2 := ihR3 (canonOf t) idx (by
                  show (if canonOf t = canonOf t then some idx else cmap (canonOf t)) =
                    some idx
                  rw [if_pos rfl]) k2
                (by simpa using Nat.lt_of_succ_lt_succ hk2) hcan.symm hne
              rw [show idx + (k2 + 1) = (idx + 1) + k2 by omega]
              rw [show idx + 0 = idx from rfl]
              exact h2
          | succ k1 =>
            cases k2 with
            | zero =>
              rw [show tget (t :: rest) 0 = t from rfl] at hcan
              rw [show tget (t :: rest) (k1 + 1) = tget rest k1 from rfl] at hcan hne
              have h2 := ihR3 (canonOf t) idx (by
                  show (if canonOf t = canonOf t then some idx else cmap (canonOf t)) =
                    some idx
                  rw [if_pos rfl]) k1
                (by simpa using Nat.lt_of_succ_lt_succ hk1) hcan
                (by rw [← hcan]; exact hne)
              rw [show idx + (k1 + 1) = (idx + 1) + k1 by omega]
              rw [show idx + 0 = idx from rfl]
              exact sameRoot_symm h2
            | succ k2 =>
              rw [show idx + (k1 + 1) = (idx + 1) + k1 by omega,
                show idx + (k2 + 1) = (idx + 1) + k2 by omega]
              rw [show tget (t :: rest) (k1 + 1) = tget rest k1 from rfl] at hcan hne
              rw [show tget (t :: rest) (k2 + 1) = tget rest k2 from rfl] at hcan
              exact ihR2 k1 k2 (by simpa using Nat.lt_of_succ_lt_succ hk1)
                (by simpa using Nat.lt_of_succ_lt_succ hk2) hcan hne

/-- Phase 1 as invoked by `dedupe_tabs`: since the canonical key is never
empty, every tab gets it written. -/
theorem dedupePhase1_tget (tabs : List Tab) (k : Nat) (hk : k < tabs.length) :
    tget (dedupePhase1 tabs 0 (fun _ => none) (UF.init tabs.length)).1 k =
      { tget tabs k with canonical_url := some (canonOf (tget tabs k)) } := by
  have h := (dedupePhase1_spec tabs 0 (fun _ => none) (UF.init tabs.length)
    (UF.init_WF _) (fun s v h => Option.noConfusion h)
    (show 0 + tabs.length ≤ tabs.length by omega)).2.2.2.2.1 k hk
  rw [h, if_neg (canonOf_ne_empty _)]

/-- Rewriting the canonical key into the tab leaves the key unchanged. -/
theorem canonOf_update (t : Tab) :
    canonOf { t with canonical_url := some (canonOf t) } = canonOf t := by
  show (if canonOf t = "" then canonicalize_url t.url else canonOf t) = canonOf t
  rw [if_neg (canonOf_ne_empty t)]

/-- The phase-2 condition only reads fields phase 1 leaves alone. -/
theorem dedupeCond_phase1 (tabs : List Tab) (thr i j : Nat)
    (hi : i < tabs.length) (hj : j < tabs.length) :
    dedupeCond (dedupePhase1 tabs 0 (fun _ => none) (UF.init tabs.length)).1 thr i j =
      dedupeCond tabs thr i j := by
  unfold dedupeCond
  rw [dedupePhase1_tget tabs i hi, dedupePhase1_tget tabs j hj]

theorem hamming_distance_comm (a b : Nat) :
    hamming_distance a b = hamming_distance b a := by
  unfold hamming_distance
  rw [Nat.xor_comm]

/-- The phase-2 condition is symmetric. -/
theorem dedupeCond_symm (tabs : List Tab) (thr i j : Nat)
    (h : dedupeCond tabs thr i j = true) : dedupeCond tabs thr j i = true := by
  unfold dedupeCond at h ⊢
  cases hsi : (tget tabs i).simhash with
  | none =>
    rw [hsi] at h
    exact absurd h (by simp)
  | some a =>
    cases hsj : (tget tabs j).simhash with
    | none =>
      rw [hsi, hsj] at h
      exact absurd h (by simp)
    | some b =>
      rw [hsi, hsj] at h
      simp only [decide_eq_true_eq] at h ⊢
      exact ⟨h.2.1 ▸ h.1, h.2.1.symm, by rw [hamming_distance_comm]; exact h.2.2⟩

theorem clusterStep_duplicate_of (p : Nat) (pc : Option String) (t : Tab) :
    (clusterStep p pc t).duplicate_of = some p := by
  cases hb : pyFalsy t.canonical_url <;> simp [clusterStep, hb]

theorem clusterStep_aliases (p : Nat) (pc : Option String) (t : Tab) :
    (clusterStep p pc t).aliases = t.aliases := by
  cases hb : pyFalsy t.canonical_url <;> simp [clusterStep, hb]

theorem clusterStep_canonical (p : Nat) (pc : Option String) (t : Tab) :
    (clusterStep p pc t).canonical_url =
      if pyFalsy t.canonical_url then pc else t.canonical_url := by
  cases hb : pyFalsy t.canonical_url <;> simp [clusterStep, hb]

/-- The union relation of `dedupe_tabs`: equal nonempty canonical keys
(phase 1), or same nonempty domain with simhash Hamming distance within
the threshold (phase 2). -/
def dedupeRel (tabs : List Tab) (thr : Nat) (i j : Nat) : Prop :=
  (canonOf (tget tabs i) = canonOf (tget tabs j) ∧ canonOf (tget tabs i) ≠ "") ∨
    dedupeCond tabs thr i j = true

instance (tabs : List Tab) (thr i j : Nat) : Decidable (dedupeRel tabs thr i j) := by
  unfold dedupeRel
  infer_instance

/-- Master specification of `dedupe_tabs`: the tabs split into clusters —
nonempty, in-range, covering, and closed under the union relation — and
inside each cluster the primary map points at the minimal index while the
tabs are rewritten cluster-locally over the phase-1 tabs. -/
theorem dedupe_tabs_spec (tabs : List Tab) (thr : Nat) :
    ∃ entries : List (Nat × List Nat),
      (∀ e ∈ entries, e.2 ≠ []) ∧
      (∀ e ∈ entries, ∀ x ∈ e.2, x < tabs.length) ∧
      (∀ x, x < tabs.length → ∃ e ∈ entries, x ∈ e.2) ∧
      (∀ e ∈ entries, ∀ i ∈ e.2, ∀ j, j < tabs.length →
        dedupeRel tabs thr i j → j ∈ e.2) ∧
      (∀ y, (∀ e ∈ entries, y ∉ e.2) → (dedupe_tabs tabs thr).1 y = none) ∧
      (∀ e ∈ entries, ∀ y ∈ e.2,
        (dedupe_tabs tabs thr).1 y = some (pyMin e.2) ∧
        tget (dedupe_tabs tabs thr).2.2 y =
          (if y = pyMin e.2 then
            primaryResult
              (dedupePhase1 tabs 0 (fun _ => none) (UF.init tabs.length)).1 e.2
           else
            nonprimaryResult
              (dedupePhase1 tabs 0 (fun _ => none) (UF.init tabs.length)).1 e.2 y)) := by
  obtain ⟨hn1, hwf1, hmono1, hlen1, htabs1, hR3, hR2⟩ :=
    dedupePhase1_spec tabs 0 (fun _ => none) (UF.init tabs.length)
      (UF.init_WF _) (fun s v h => Option.noConfusion h)
      (show 0 + tabs.length ≤ tabs.length by omega)
  have hn1n : (dedupePhase1 tabs 0 (fun _ => none) (UF.init tabs.length)).2.2.n =
      tabs.length := hn1
  have hbp : ∀ p ∈ pairsCondOps
      (dedupePhase1 tabs 0 (fun _ => none) (UF.init tabs.length)).1.length
      (dedupeCond (dedupePhase1 tabs 0 (fun _ => none) (UF.init tabs.length)).1 thr),
      p.1 < (dedupePhase1 tabs 0 (fun _ => none) (UF.init tabs.length)).2.2.n ∧
      p.2 < (dedupePhase1 tabs 0 (fun _ => none) (UF.init tabs.length)).2.2.n := by
    intro p hp
    obtain ⟨p1, p2⟩ := p
    have h := pairsCondOps_mem.mp hp
    rw [hn1n]
    rw [hlen1] at h
    exact ⟨by omega, by omega⟩
  obtain ⟨hn2, hwf2, hmono2, hpairs2⟩ := unionOps_spec _ _ hwf1 hbp
  have hn2n : (unionOps (pairsCondOps
      (dedupePhase1 tabs 0 (fun _ => none) (UF.init tabs.length)).1.length
      (dedupeCond (dedupePhase1 tabs 0 (fun _ => none) (UF.init tabs.length)).1 thr))
      (dedupePhase1 tabs 0 (fun _ => none) (UF.init tabs.length)).2.2).n =
      tabs.length := hn2.trans hn1n
  refine ⟨((unionOps (pairsCondOps
      (dedupePhase1 tabs 0 (fun _ => none) (UF.init tabs.length)).1.length
      (dedupeCond (dedupePhase1 tabs 0 (fun _ => none) (UF.init tabs.length)).1 thr))
      (dedupePhase1 tabs 0 (fun _ => none) (UF.init tabs.length)).2.2).groups).1,
    ?_, ?_, ?_, ?_, ?_, ?_⟩
  · exact (UF.groups_spec _ hwf2).2.2.1
  · intro e he x hx
    have h := (UF.groups_spec _ hwf2).2.2.2 e he x hx
    rw [hn2n] at h
    exact h
  · intro x hx
    obtain ⟨e, he, hxe, _⟩ := UF.groups_cover _ hwf2 (by rw [hn2n]; exact hx)
    exact ⟨e, he, hxe⟩
  · intro e he i hi j hj hrel
    have hiltn : i < tabs.length := by
      have h := (UF.groups_spec _ hwf2).2.2.2 e he i hi
      rw [hn2n] at h
      exact h
    have hsr : SameRoot (unionOps (pairsCondOps
        (dedupePhase1 tabs 0 (fun _ => none) (UF.init tabs.length)).1.length
        (dedupeCond (dedupePhase1 tabs 0 (fun _ => none) (UF.init tabs.length)).1 thr))
        (dedupePhase1 tabs 0 (fun _ => none) (UF.init tabs.length)).2.2).parent i j := by
      rcases hrel with ⟨hcan, hcne⟩ | hcond
      · have h1 := hR2 i j hiltn hj hcan hcne
        rw [Nat.zero_add, Nat.zero_add] at h1
        exact hmono2 i j (by rw [hn1n]; exact hiltn) (by rw [hn1n]; exact hj) h1
      · by_cases hij : i = j
        · subst hij
          obtain ⟨r, hr⟩ := hwf2.2 i (by rw [hn2n]; exact hiltn)
          exact sameRoot_refl hr
        · rcases Nat.lt_or_ge i j with hlt | hge
          · refine hpairs2 (i, j) (pairsCondOps_mem.mpr ⟨hlt, by rw [hlen1]; exact hj, ?_⟩)
            rw [dedupeCond_phase1 tabs thr i j hiltn hj]
            exact hcond
          · have hlt2 : j < i := by omega
            refine sameRoot_symm (hpairs2 (j, i)
              (pairsCondOps_mem.mpr ⟨hlt2, by rw [hlen1]; exact hiltn, ?_⟩))
            rw [dedupeCond_phase1 tabs thr j i hj hiltn]
            exact dedupeCond_symm tabs thr i j hcond
    exact UF.groups_closed _ hwf2 he hi (by rw [hn2n]; exact hj) hsr
  · intro y hy
    have h := (dedupeFold_spec _
      (dedupePhase1 tabs 0 (fun _ => none) (UF.init tabs.length)).1
      (fun _ => none) 0
      (UF.groups_disjoint _ hwf2)
      ((UF.groups_spec _ hwf2).2.2.1)
      (fun e he x hx => by
        rw [hlen1]
        have h := (UF.groups_spec _ hwf2).2.2.2 e he x hx
        rw [hn2n] at h
        exact h)).2.1 y hy
    exact h.2
  · intro e he y hy
    have h := (dedupeFold_spec _
      (dedupePhase1 tabs 0 (fun _ => none) (UF.init tabs.length)).1
      (fun _ => none) 0
      (UF.groups_disjoint _ hwf2)
      ((UF.groups_spec _ hwf2).2.2.1)
      (fun e he x hx => by
        rw [hlen1]
        have h := (UF.groups_spec _ hwf2).2.2.2 e he x hx
        rw [hn2n] at h
        exact h)).2.2 e he y hy
    exact h

/-- Length of the deduplicated tab list. -/
theorem dedupe_tabs_length (tabs : List Tab) (thr : Nat) :
    (dedupe_tabs tabs thr).2.2.length = tabs.length := by
  have h := congrArg List.length (dedupe_tabs_map_id tabs thr)
  simpa using h

/-- A positional read from a list (in range) is a member. -/
theorem tget_mem (tabs : List Tab) (k : Nat) (hk : k < tabs.length) :
    tget tabs k ∈ tabs := by
  rw [show tget tabs k = tabs[k] from List.getD_eq_getElem tabs default hk]
  exact List.getElem_mem hk

/-- `dedupe_tabs` keeps each slot's id. -/
theorem dedupe_tget_id (tabs : List Tab) (thr k : Nat) (hk : k < tabs.length) :
    (tget (dedupe_tabs tabs thr).2.2 k).id = (tget tabs k).id := by
  have hlen := dedupe_tabs_length tabs thr
  have hk2 : k < (dedupe_tabs tabs thr).2.2.length := by
    rw [hlen]
    exact hk
  have h2 : ((dedupe_tabs tabs thr).2.2.map Tab.id).getD k 0 =
      (tabs.map Tab.id).getD k 0 := by
    rw [dedupe_tabs_map_id]
  rw [List.getD_eq_getElem _ 0 (by simpa using hk2),
    List.getD_eq_getElem _ 0 (by simpa using hk), List.getElem_map,
    List.getElem_map] at h2
  rw [show tget (dedupe_tabs tabs thr).2.2 k = (dedupe_tabs tabs thr).2.2[k] from
    List.getD_eq_getElem _ default hk2,
    show tget tabs k = tabs[k] from List.getD_eq_getElem _ default hk]
  exact h2

/-! ## Claim C1 — dedupe partition transitivity and minimal primary -/

/-- C1: `dedupe_tabs` partitions transitively.  If `a` is unioned with `b`
(equal nonempty canonical keys, or same nonempty domain within the Hamming
threshold) and `b` with `c`, all three receive the same primary `p` in the
primary map; `p` is itself primary; and (for the loader's strictly
increasing ids) `p` is the cluster member with the smallest id. -/
theorem claim_C1_dedupe_partition (tabs : List Tab) (thr : Nat)
    (hids : (tabs.map Tab.id).Pairwise (· < ·)) (a b c : Nat)
    (ha : a < tabs.length) (hb : b < tabs.length) (hc : c < tabs.length)
    (hab : dedupeRel tabs thr a b) (hbc : dedupeRel tabs thr b c) :
    ∃ p, (dedupe_tabs tabs thr).1 a = some p ∧
      (dedupe_tabs tabs thr).1 b = some p ∧
      (dedupe_tabs tabs thr).1 c = some p ∧
      (dedupe_tabs tabs thr).1 p = some p ∧
      (∀ y, (dedupe_tabs tabs thr).1 y = some p →
        (tget (dedupe_tabs tabs thr).2.2 p).id ≤
          (tget (dedupe_tabs tabs thr).2.2 y).id) := by
  obtain ⟨entries, hnon, hbound, hcover, hclosed, huntouched, hout⟩ :=
    dedupe_tabs_spec tabs thr
  obtain ⟨e, he, hae⟩ := hcover a ha
  have hbe : b ∈ e.2 := hclosed e he a hae b hb hab
  have hce : c ∈ e.2 := hclosed e he b hbe c hc hbc
  have hpmem : pyMin e.2 ∈ e.2 := pyMin_mem e.2 (hnon e he)
  have hplt : pyMin e.2 < tabs.length := hbound e he _ hpmem
  refine ⟨pyMin e.2, (hout e he a hae).1, (hout e he b hbe).1, (hout e he c hce).1,
    (hout e he (pyMin e.2) hpmem).1, ?_⟩
  intro y hy
  by_cases hyall : ∀ e2 ∈ entries, y ∉ e2.2
  · rw [huntouched y hyall] at hy
    exact Option.noConfusion hy
  · push_neg at hyall
    obtain ⟨e2, he2, hye2⟩ := hyall
    have hpm2 := (hout e2 he2 y hye2).1
    rw [hpm2] at hy
    have hpeq : pyMin e2.2 = pyMin e.2 := Option.some.inj hy
    have hple : pyMin e.2 ≤ y := by
      rw [← hpeq]
      exact pyMin_le e2.2 y hye2
    have hylt : y < tabs.length := hbound e2 he2 y hye2
    rcases Nat.lt_or_ge (pyMin e.2) y with hlt | hge
    · have hidlt : (tget tabs (pyMin e.2)).id < (tget tabs y).id := by
        have h1 := (List.pairwise_iff_getElem.mp hids) (pyMin e.2) y
          (by simpa using hplt) (by simpa using hylt) hlt
        rw [List.getElem_map, List.getElem_map] at h1
        rw [show tget tabs (pyMin e.2) = tabs[pyMin e.2] from
            List.getD_eq_getElem _ default hplt,
          show tget tabs y = tabs[y] from List.getD_eq_getElem _ default hylt]
        exact h1
      rw [dedupe_tget_id tabs thr _ hplt, dedupe_tget_id tabs thr _ hylt]
      exact Nat.le_of_lt hidlt
    · have hyeq : y = pyMin e.2 := by omega
      rw [hyeq]

/-- Three tabs sharing one canonical url (for the C1 instance). -/
def dupTab (i : Nat) (u : String) : Tab :=
  { id := i, url := u, title := "", domain := "e.com",
    canonical_url := some "https://e.com/c", simhash := none,
    duplicate_of := none, aliases := [], keywords := [], embedding := none }

def dupTabs : List Tab :=
  [dupTab 0 "https://e.com/a", dupTab 1 "https://e.com/b",
   dupTab 2 "https://e.com/d"]

theorem claim_C1_dedupe_partition_witness :
    ∃ p, (dedupe_tabs dupTabs 8).1 0 = some p ∧
      (dedupe_tabs dupTabs 8).1 1 = some p ∧
      (dedupe_tabs dupTabs 8).1 2 = some p ∧
      (dedupe_tabs dupTabs 8).1 p = some p ∧
      (∀ y, (dedupe_tabs dupTabs 8).1 y = some p →
        (tget (dedupe_tabs dupTabs 8).2.2 p).id ≤
          (tget (dedupe_tabs dupTabs 8).2.2 y).id) :=
  claim_C1_dedupe_partition dupTabs 8 (by decide) 0 1 2 (by decide) (by decide)
    (by decide) (by decide) (by decide)

/-! ## Claim C2 — duplicate_of and aliases -/

/-- C2: for freshly loaded tabs (no `duplicate_of`, empty `aliases`), every
non-primary member of a cluster gets `duplicate_of` set to the primary,
the primary remains unmarked (so resolution is single-hop), its nonempty
raw URL is recorded in the primary's aliases, and every tab's alias list
is strictly sorted (hence deduplicated). -/
theorem claim_C2_duplicate_fields (tabs : List Tab) (thr : Nat)
    (hdup : ∀ t ∈ tabs, t.duplicate_of = none)
    (halias : ∀ t ∈ tabs, t.aliases = []) :
    (∀ y p, y < tabs.length → (dedupe_tabs tabs thr).1 y = some p → y ≠ p →
      (tget (dedupe_tabs tabs thr).2.2 y).duplicate_of = some p ∧
      (tget (dedupe_tabs tabs thr).2.2 p).duplicate_of = none ∧
      (dedupe_tabs tabs thr).1 p = some p ∧
      ((tget tabs y).url ≠ "" →
        (tget tabs y).url ∈ (tget (dedupe_tabs tabs thr).2.2 p).aliases)) ∧
    (∀ y, y < tabs.length →
      ((tget (dedupe_tabs tabs thr).2.2 y).aliases).Pairwise
        fun u v => strLtB u v = true) := by
  obtain ⟨entries, hnon, hbound, hcover, hclosed, huntouched, hout⟩ :=
    dedupe_tabs_spec tabs thr
  constructor
  · intro y p hy hpm hyp
    obtain ⟨e, he, hye⟩ := hcover y hy
    have hpm2 := (hout e he y hye).1
    rw [hpm2] at hpm
    have hpeq : pyMin e.2 = p := Option.some.inj hpm
    subst hpeq
    have hpmem : pyMin e.2 ∈ e.2 := pyMin_mem e.2 (hnon e he)
    have hplt : pyMin e.2 < tabs.length := hbound e he _ hpmem
    have hca : clusterAliases
        (dedupePhase1 tabs 0 (fun _ => none) (UF.init tabs.length)).1 e.2 ≠ [] := by
      have h1 : y ∈ e.2.filter (fun idx => idx ≠ pyMin e.2) :=
        List.mem_filter.mpr ⟨hye, by simpa using hyp⟩
      exact List.ne_nil_of_mem (List.mem_map_of_mem _ h1)
    have hty := (hout e he y hye).2
    rw [if_neg hyp] at hty
    have htp := (hout e he (pyMin e.2) hpmem).2
    rw [if_pos rfl] at htp
    refine ⟨?_, ?_, (hout e he _ hpmem).1, ?_⟩
    · rw [hty]
      unfold nonprimaryResult
      rw [if_neg hca, clusterStep_duplicate_of]
    · rw [htp]
      unfold primaryResult
      rw [if_neg hca, dedupePhase1_tget tabs _ hplt]
      exact hdup (tget tabs (pyMin e.2)) (tget_mem tabs _ hplt)
    · intro hurl
      rw [htp]
      unfold primaryResult
      rw [if_neg hca]
      show (tget tabs y).url ∈ sortedStrSet _
      rw [mem_sortedStrSet]
      refine List.mem_append.mpr (Or.inr ?_)
      refine List.mem_filter.mpr ⟨?_, by simpa using hurl⟩
      have h1 : y ∈ e.2.filter (fun idx => idx ≠ pyMin e.2) :=
        List.mem_filter.mpr ⟨hye, by simpa using hyp⟩
      have h2 : (tget (dedupePhase1 tabs 0 (fun _ => none)
          (UF.init tabs.length)).1 y).url ∈ clusterAliases
          (dedupePhase1 tabs 0 (fun _ => none) (UF.init tabs.length)).1 e.2 :=
        List.mem_map_of_mem _ h1
      rw [dedupePhase1_tget tabs y hy] at h2
      exact h2
  · intro y hy
    obtain ⟨e, he, hye⟩ := hcover y hy
    have hty := (hout e he y hye).2
    have hal1 : ((tget (dedupePhase1 tabs 0 (fun _ => none)
        (UF.init tabs.length)).1 y).aliases) = [] := by
      rw [dedupePhase1_tget tabs y hy]
      exact halias (tget tabs y) (tget_mem tabs y hy)
    by_cases hyp : y = pyMin e.2
    · rw [hty, if_pos hyp]
      unfold primaryResult
      by_cases hca : clusterAliases
          (dedupePhase1 tabs 0 (fun _ => none) (UF.init tabs.length)).1 e.2 = []
      · rw [if_pos hca, ← hyp, hal1]
        exact List.Pairwise.nil
      · rw [if_neg hca]
        exact sortedStrSet_sorted _
    · rw [hty, if_neg hyp]
      unfold nonprimaryResult
      by_cases hca : clusterAliases
          (dedupePhase1 tabs 0 (fun _ => none) (UF.init tabs.length)).1 e.2 = []
      · rw [if_pos hca, hal1]
        exact List.Pairwise.nil
      · rw [if_neg hca, clusterStep_aliases, hal1]
        exact List.Pairwise.nil

/-- Two tabs sharing one canonical url (for the C2 instance). -/
def aliasTabA : Tab :=
  { id := 0, url := "https://e.com/a", title := "", domain := "e.com",
    canonical_url := some "https://e.com/c", simhash := none,
    duplicate_of := none, aliases := [], keywords := [], embedding := none }

def aliasTabB : Tab :=
  { id := 1, url := "https://e.com/b", title := "", domain := "e.com",
    canonical_url := some "https://e.com/c", simhash := none,
    duplicate_of := none, aliases := [], keywords := [], embedding := none }

theorem claim_C2_duplicate_fields_witness :
    (∀ t ∈ [aliasTabA, aliasTabB], t.duplicate_of = none) ∧
    (∀ t ∈ [aliasTabA, aliasTabB], t.aliases = []) ∧
    ((tget (dedupe_tabs [aliasTabA, aliasTabB] 8).2.2 1).duplicate_of = some 0 ∧
     (tget (dedupe_tabs [aliasTabA, aliasTabB] 8).2.2 0).duplicate_of = none ∧
     (dedupe_tabs [aliasTabA, aliasTabB] 8).1 0 = some 0 ∧
     ((tget [aliasTabA, aliasTabB] 1).url ≠ "" →
       (tget [aliasTabA, aliasTabB] 1).url ∈
         (tget (dedupe_tabs [aliasTabA, aliasTabB] 8).2.2 0).aliases)) :=
  have happ := claim_C2_duplicate_fields [aliasTabA, aliasTabB] 8
    (by decide) (by decide)
  ⟨by decide, by decide, happ.1 1 0 (by decide) (by decide) (by decide)⟩

/-! ## Claim C3 — canonical inheritance -/

/-- A cluster primary with no input `canonical_url`. -/
def c3Tab0 : Tab :=
  { id := 0, url := "https://e.com/a", title := "", domain := "e.com",
    canonical_url := none, simhash := some 5, duplicate_of := none,
    aliases := [], keywords := [], embedding := none }

/-- Its duplicate, carrying a distinctive canonical url. -/
def c3Tab1 : Tab :=
  { id := 1, url := "https://e.com/b", title := "", domain := "e.com",
    canonical_url := some "SENTINEL", simhash := some 5, duplicate_of := none,
    aliases := [], keywords := [], embedding := none }

/-- C3, counterexample: the primary of a cluster never inherits a
`canonical_url` from an alias.  Here the primary enters with no
`canonical_url` and its alias carries `"SENTINEL"`; after `dedupe_tabs`
the cluster exists (`primary_map[1] = 0`), yet the primary's
`canonical_url` is its own `canonicalize_url(url)`, not the alias's. -/
theorem claim_C3_counterexample :
    c3Tab0.canonical_url = none ∧
    (dedupe_tabs [c3Tab0, c3Tab1] 8).1 1 = some 0 ∧
    (tget (dedupe_tabs [c3Tab0, c3Tab1] 8).2.2 0).canonical_url =
      some "https://e.com/a" ∧
    (tget (dedupe_tabs [c3Tab0, c3Tab1] 8).2.2 0).canonical_url ≠
      c3Tab1.canonical_url := by
  exact ⟨by decide, by decide, by decide, by decide⟩

/-- C3, amended: after `dedupe_tabs`, every tab — primary or duplicate —
carries its own canonical key, `canonical_url or canonicalize_url(url)`
computed from its own input fields; nothing is inherited from another
cluster member.  The code's inherit branch copies primary → duplicate
(not alias → primary, as claimed), and cannot fire at all: phase 1 writes
a canonical key into every tab, and `canonicalize_url` never returns the
empty string, so no tab's `canonical_url` is falsy when the branch is
reached. -/
theorem claim_C3_canonical_own (tabs : List Tab) (thr : Nat) (y : Nat)
    (hy : y < tabs.length) :
    (tget (dedupe_tabs tabs thr).2.2 y).canonical_url =
      some (canonOf (tget tabs y)) := by
  obtain ⟨entries, hnon, hbound, hcover, hclosed, huntouched, hout⟩ :=
    dedupe_tabs_spec tabs thr
  obtain ⟨e, he, hye⟩ := hcover y hy
  have hty := (hout e he y hye).2
  have hplt : pyMin e.2 < tabs.length := hbound e he _ (pyMin_mem e.2 (hnon e he))
  by_cases hyp : y = pyMin e.2
  · rw [hty, if_pos hyp]
    unfold primaryResult
    by_cases hca : clusterAliases
        (dedupePhase1 tabs 0 (fun _ => none) (UF.init tabs.length)).1 e.2 = []
    · rw [if_pos hca, hyp, dedupePhase1_tget tabs _ hplt]
    · rw [if_neg hca, hyp, dedupePhase1_tget tabs _ hplt]
  · rw [hty, if_neg hyp]
    unfold nonprimaryResult
    by_cases hca : clusterAliases
        (dedupePhase1 tabs 0 (fun _ => none) (UF.init tabs.length)).1 e.2 = []
    · rw [if_pos hca, dedupePhase1_tget tabs y hy]
    · rw [if_neg hca, dedupePhase1_tget tabs y hy, clusterStep_canonical]
      have hfal : ¬ (pyFalsy ({ tget tabs y with
          canonical_url := some (canonOf (tget tabs y)) } : Tab).canonical_url =
          true) := by
        show ¬ ((decide (canonOf (tget tabs y) = "")) = true)
        simp [canonOf_ne_empty (tget tabs y)]
      rw [if_neg hfal]

theorem claim_C3_canonical_own_witness :
    1 < ([c3Tab0, c3Tab1] : List Tab).length ∧
    (tget (dedupe_tabs [c3Tab0, c3Tab1] 8).2.2 1).canonical_url =
      some (canonOf (tget [c3Tab0, c3Tab1] 1)) :=
  ⟨by decide, claim_C3_canonical_own [c3Tab0, c3Tab1] 8 1 (by decide)⟩

/-! ## Claim C10 — empty input -/

set_option maxHeartbeats 3200000 in
/-- C10: on the empty tab list the whole core is total and empty:
`dedupe_tabs` returns the empty primary map, duplicate count `0` and no
tabs; `build_edges` returns no edges; `build_groups` returns no groups; and
the assembled graph has `tab_count = 0`, `group_count = 0`, `edge_count = 0`
and `duplicates = 0`, with no error for any parameter setting. -/
theorem claim_C10_empty_input (cosF : List ℚ → List ℚ → ℚ) (args : Params) :
    dedupe_tabs [] args.dedupe_hamming = (fun _ => none, 0, []) ∧
    build_edges [] (build_similarity_matrix cosF [] args.domain_bonus)
      args.edge_threshold = [] ∧
    (build_groups [] (build_similarity_matrix cosF [] args.domain_bonus)
      args.group_threshold args.domain_group args.domain_group_min
      args.mutual_knn args.knn_k).1 = [] ∧
    (mainCore cosF [] args).tab_count = 0 ∧
    (mainCore cosF [] args).group_count = 0 ∧
    (mainCore cosF [] args).edge_count = 0 ∧
    (mainCore cosF [] args).duplicates = 0 ∧
    (mainCore cosF [] args).tabs = [] ∧
    (mainCore cosF [] args).group_ids = [] ∧
    (mainCore cosF [] args).groups = [] ∧
    (mainCore cosF [] args).edges = [] := by
  obtain ⟨et, gt, db, dg, dgm, mknn, kk, dh⟩ := args
  cases dg <;> cases mknn <;>
    exact ⟨rfl, rfl, rfl, rfl, rfl, rfl, rfl, rfl, rfl, rfl, rfl⟩

/-! ## Claim C6 — fingerprint order-independence -/

/-- C6: the simhash fingerprint is order-independent: permuting the token
list leaves `simhash_from_tokens` unchanged (for every 64-bit token-hash
function `h`), so the fingerprint depends only on the token multiset. -/
theorem claim_C6_fingerprint_perm (h : String → Nat) {t1 t2 : List String}
    (hp : t1.Perm t2) : simhash_from_tokens h t1 = simhash_from_tokens h t2 := by
  unfold simhash_from_tokens
  by_cases h1 : t1 = []
  · have h2 : t2 = [] := by
      subst h1
      exact hp.symm.eq_nil
    rw [h1, h2]
  · have h2 : t2 ≠ [] := by
      intro h2
      rw [h2] at hp
      exact h1 hp.eq_nil
    rw [if_neg h1, if_neg h2, simhashVector_perm h hp]

theorem claim_C6_fingerprint_perm_witness :
    (["alpha", "beta", "beta", "gamma"] : List String).Perm
        ["gamma", "beta", "alpha", "beta"] ∧
    simhash_from_tokens String.length ["alpha", "beta", "beta", "gamma"] =
      simhash_from_tokens String.length ["gamma", "beta", "alpha", "beta"] :=
  ⟨by decide, claim_C6_fingerprint_perm String.length (by decide)⟩

/-! ## Claim C4 — canonicalizer error handling -/

/-- C4, counterexample: a malformed (non-URL-shaped) input is not always
returned unchanged.  `urlparse` accepts the bare word `"hello"` (empty
scheme and netloc, path `"hello"`), so `canonicalize_url` rewrites it to
`"https:///hello"` instead of returning it unchanged. -/
theorem claim_C4_counterexample :
    canonicalize_url "hello" = "https:///hello" ∧
    canonicalize_url "hello" ≠ "hello" := by
  exact ⟨by decide, by decide⟩

/-- C4, amended: `canonicalize_url` is total — the `urlparse` call is the
only statement its `try` guards, and when `urlparse` raises (modelled as
`urlparseM` returning `Except.error`) the input is returned unchanged.
The blanket clause of the original claim is false: a malformed string that
`urlparse` happens to parse (such as a bare word) is rewritten, not
returned — see the counterexample. -/
theorem claim_C4_error_path (u : String)
    (he : urlparseM u.data = Except.error ()) : canonicalize_url u = u := by
  unfold canonicalize_url
  rw [he]

theorem claim_C4_error_path_witness :
    urlparseM (String.data "http://[::1") = Except.error () ∧
    canonicalize_url "http://[::1" = "http://[::1" :=
  ⟨rfl, claim_C4_error_path "http://[::1" rfl⟩

/-! ## Claim C5 — canonicalizer idempotence -/

/-- C5, counterexample: `canonicalize_url` is not idempotent.  The
trailing-slash strip removes one slash per application, so a path ending in
two slashes canonicalizes to one value on the first pass and to a different
value on the second. -/
theorem claim_C5_counterexample :
    canonicalize_url "https://example.com/a//" = "https://example.com/a/" ∧
    canonicalize_url "https://example.com/a/" = "https://example.com/a" ∧
    canonicalize_url (canonicalize_url "https://example.com/a//") ≠
      canonicalize_url "https://example.com/a//" := by
  exact ⟨by decide, by decide, by decide⟩

/-! A structured family of already-canonical URLs on which the
canonicalizer is the identity, hence idempotent: lowercase `https`, a
lowercase reg-name host without port or leading `www.`, an absolute path
without params, query, fragment or trailing slash. -/

/-- Host alphabet of the canonical family: lowercase reg-name characters. -/
def hostCharOk (c : Char) : Bool :=
  c ∈ String.data "abcdefghijklmnopqrstuvwxyz0123456789-."

/-- Path alphabet of the canonical family: segment characters and `/`. -/
def pathCharOk (c : Char) : Bool :=
  c ∈ String.data
    "abcdefghijklmnopqrstuvwxyzABCDEFGHIJKLMNOPQRSTUVWXYZ0123456789-._~/"

theorem hostChar_facts (c : Char) (h : hostCharOk c = true) :
    c.toLower = c ∧ isNetlocDelim c = false ∧ isUnsafeByte c = false ∧
      c ≠ '[' ∧ c ≠ ']' ∧ c ≠ ':' := by
  have hall : ∀ x ∈ String.data "abcdefghijklmnopqrstuvwxyz0123456789-.",
      x.toLower = x ∧ isNetlocDelim x = false ∧ isUnsafeByte x = false ∧
        x ≠ '[' ∧ x ≠ ']' ∧ x ≠ ':' := by decide
  exact hall c (by simpa [hostCharOk] using h)

theorem pathChar_facts (c : Char) (h : pathCharOk c = true) :
    isUnsafeByte c = false ∧ c ≠ '#' ∧ c ≠ '?' ∧ c ≠ ';' := by
  have hall : ∀ x ∈ String.data
      "abcdefghijklmnopqrstuvwxyzABCDEFGHIJKLMNOPQRSTUVWXYZ0123456789-._~/",
      isUnsafeByte x = false ∧ x ≠ '#' ∧ x ≠ '?' ∧ x ≠ ';' := by decide
  exact hall c (by simpa [pathCharOk] using h)

theorem splitFirst_eq_none {d : Char} :
    ∀ {l : List Char}, d ∉ l → splitFirst d l = none
  | [], _ => rfl
  | c :: rest, h => by
    simp only [splitFirst]
    rw [if_neg (fun he => h (List.mem_cons.mpr (Or.inl he.symm))),
      splitFirst_eq_none (fun hm => h (List.mem_cons_of_mem c hm))]

theorem takeWhile_append_of (p : Char → Bool) :
    ∀ (xs : List Char), (∀ x ∈ xs, p x = true) → ∀ (y : Char) (ys : List Char),
      p y = false → (xs ++ y :: ys).takeWhile p = xs
  | [], _, y, ys, hy => by
    show List.takeWhile p (y :: ys) = []
    rw [List.takeWhile_cons, hy]
    rfl
  | x :: xs, hall, y, ys, hy => by
    show List.takeWhile p (x :: (xs ++ y :: ys)) = x :: xs
    rw [List.takeWhile_cons, hall x (List.mem_cons_self x xs)]
    show x :: List.takeWhile p (xs ++ y :: ys) = x :: xs
    rw [takeWhile_append_of p xs (fun z hz => hall z (List.mem_cons_of_mem x hz))
      y ys hy]

theorem dropWhile_append_of (p : Char → Bool) :
    ∀ (xs : List Char), (∀ x ∈ xs, p x = true) → ∀ (y : Char) (ys : List Char),
      p y = false → (xs ++ y :: ys).dropWhile p = y :: ys
  | [], _, y, ys, hy => by
    show List.dropWhile p (y :: ys) = y :: ys
    rw [List.dropWhile_cons, hy]
    rfl
  | x :: xs, hall, y, ys, hy => by
    show List.dropWhile p (x :: (xs ++ y :: ys)) = y :: ys
    rw [List.dropWhile_cons, hall x (List.mem_cons_self x xs)]
    show List.dropWhile p (xs ++ y :: ys) = y :: ys
    exact dropWhile_append_of p xs (fun z hz => hall z (List.mem_cons_of_mem x hz))
      y ys hy

theorem map_self_of (f : Char → Char) :
    ∀ (l : List Char), (∀ c ∈ l, f c = c) → l.map f = l
  | [], _ => rfl
  | c :: rest, h => by
    rw [List.map_cons, h c (List.mem_cons_self c rest),
      map_self_of f rest (fun x hx => h x (List.mem_cons_of_mem c hx))]

theorem contains_eq_false_of (a : Char) (l : List Char)
    (h : ∀ c ∈ l, c ≠ a) : l.contains a = false := by
  cases hc : l.contains a with
  | false => rfl
  | true => exact absurd rfl (h a (List.mem_of_elem_eq_true hc))

/-- Parsing a canonical-family URL recovers its components exactly. -/
theorem urlparse_canonical_family (host rest : List Char)
    (hhc : ∀ c ∈ host, hostCharOk c = true)
    (hrc : ∀ c ∈ rest, pathCharOk c = true) :
    urlparseM ('h' :: 't' :: 't' :: 'p' :: 's' :: ':' :: '/' :: '/' ::
      (host ++ '/' :: rest)) =
      Except.ok ⟨['h', 't', 't', 'p', 's'], host, '/' :: rest, [], [], []⟩ := by
  have hnohash : '#' ∉ '/' :: rest := by
    intro hm
    rcases List.mem_cons.mp hm with he | hm2
    · exact absurd he (by decide)
    · exact (pathChar_facts '#' (hrc '#' hm2)).2.1 rfl
  have hnoq : '?' ∉ '/' :: rest := by
    intro hm
    rcases List.mem_cons.mp hm with he | hm2
    · exact absurd he (by decide)
    · exact (pathChar_facts '?' (hrc '?' hm2)).2.2.1 rfl
  have hnosemi : ';' ∉ '/' :: rest := by
    intro hm
    rcases List.mem_cons.mp hm with he | hm2
    · exact absurd he (by decide)
    · exact (pathChar_facts ';' (hrc ';' hm2)).2.2.2 rfl
  have h1 : ('h' :: 't' :: 't' :: 'p' :: 's' :: ':' :: '/' :: '/' ::
      (host ++ '/' :: rest)).dropWhile controlOrSpace =
      'h' :: 't' :: 't' :: 'p' :: 's' :: ':' :: '/' :: '/' ::
      (host ++ '/' :: rest) := by
    rw [List.dropWhile_cons, if_neg (by decide)]
  have h2 : ('h' :: 't' :: 't' :: 'p' :: 's' :: ':' :: '/' :: '/' ::
      (host ++ '/' :: rest)).filter (fun c => ¬ isUnsafeByte c) =
      'h' :: 't' :: 't' :: 'p' :: 's' :: ':' :: '/' :: '/' ::
      (host ++ '/' :: rest) := by
    refine List.filter_eq_self.mpr ?_
    intro a ha
    have hsafe : isUnsafeByte a = false := by
      simp only [List.mem_cons] at ha
      rcases ha with rfl | rfl | rfl | rfl | rfl | rfl | rfl | rfl | ha2
      · decide
      · decide
      · decide
      · decide
      · decide
      · decide
      · decide
      · decide
      · rcases List.mem_append.mp ha2 with hhost | hpath
        · exact (hostChar_facts a (hhc a hhost)).2.2.1
        · rcases List.mem_cons.mp hpath with rfl | hm2
          · decide
          · exact (pathChar_facts a (hrc a hm2)).1
    simp [hsafe]
  have h3 : splitScheme ('h' :: 't' :: 't' :: 'p' :: 's' :: ':' :: '/' :: '/' ::
      (host ++ '/' :: rest)) =
      (['h', 't', 't', 'p', 's'], '/' :: '/' :: (host ++ '/' :: rest)) := by
    unfold splitScheme
    rw [show ('h' :: 't' :: 't' :: 'p' :: 's' :: ':' :: '/' :: '/' ::
        (host ++ '/' :: rest) : List Char) =
        ['h', 't', 't', 'p', 's'] ++ ':' :: ('/' :: '/' :: (host ++ '/' :: rest))
        from rfl,
      splitFirst_append_cons ('/' :: '/' :: (host ++ '/' :: rest)) (by decide)]
    rfl
  have hN : ∀ x ∈ host, ((fun c => ¬ isNetlocDelim c) : Char → Bool) x = true := by
    intro x hx
    simp [(hostChar_facts x (hhc x hx)).2.1]
  have hS : ((fun c => ¬ isNetlocDelim c) : Char → Bool) '/' = false := by decide
  have hbrL : host.contains '[' = false :=
    contains_eq_false_of '[' host (fun c hc => (hostChar_facts c (hhc c hc)).2.2.2.1)
  have hbrR : host.contains ']' = false :=
    contains_eq_false_of ']' host
      (fun c hc => (hostChar_facts c (hhc c hc)).2.2.2.2.1)
  have h5 : splitFragQuery ['h', 't', 't', 'p', 's'] host ('/' :: rest) =
      ⟨['h', 't', 't', 'p', 's'], host, '/' :: rest, [], []⟩ := by
    simp only [splitFragQuery, splitFirst_eq_none hnohash, splitFirst_eq_none hnoq]
  have h4 : urlsplitM ('h' :: 't' :: 't' :: 'p' :: 's' :: ':' :: '/' :: '/' ::
      (host ++ '/' :: rest)) =
      Except.ok ⟨['h', 't', 't', 'p', 's'], host, '/' :: rest, [], []⟩ := by
    simp only [urlsplitM]
    rw [h1, h2, h3]
    rw [show (((['h', 't', 't', 'p', 's'], '/' :: '/' :: (host ++ '/' :: rest)) :
        List Char × List Char)).2 = '/' :: '/' :: (host ++ '/' :: rest) from rfl]
    rw [show (((['h', 't', 't', 'p', 's'], '/' :: '/' :: (host ++ '/' :: rest)) :
        List Char × List Char)).1 = (['h', 't', 't', 'p', 's'] : List Char) from rfl]
    rw [show List.take 2 ('/' :: '/' :: (host ++ '/' :: rest)) =
      (['/', '/'] : List Char) from rfl]
    rw [if_pos (show (['/', '/'] : List Char) = ['/', '/'] from rfl)]
    rw [show List.drop 2 ('/' :: '/' :: (host ++ '/' :: rest)) =
      host ++ '/' :: rest from rfl]
    rw [takeWhile_append_of _ host hN '/' rest hS,
      dropWhile_append_of _ host hN '/' rest hS]
    rw [hbrL, hbrR]
    rw [if_neg (show ¬ (((false : Bool) != false) = true) from by decide)]
    rw [if_neg (show ¬ ((false = true) ∧
        ¬ (checkBracketedHost (bracketedHostOf host) = true)) from
      fun hcon => absurd hcon.1 (by decide))]
    rw [h5]
  simp only [urlparseM, h4]
  rw [if_neg (show ¬ ((['h', 't', 't', 'p', 's'] : List Char) ∈ uses_params ∧
    ';' ∈ '/' :: rest) from fun hcon => hnosemi hcon.2)]

/-- Rendering the canonical components reproduces the URL unchanged. -/
theorem canonParts_canonical_family (host rest : List Char)
    (hh : host ≠ []) (hhc : ∀ c ∈ host, hostCharOk c = true)
    (hw : ¬ host.take 4 = String.data "www.")
    (hts : rest = [] ∨ rest.getLast? ≠ some '/') :
    canonParts ⟨['h', 't', 't', 'p', 's'], host, '/' :: rest, [], [], []⟩ =
      'h' :: 't' :: 't' :: 'p' :: 's' :: ':' :: '/' :: '/' ::
      (host ++ '/' :: rest) := by
  have hcolon : ¬ (':' ∈ host) := fun hm =>
    (hostChar_facts ':' (hhc ':' hm)).2.2.2.2.2 rfl
  have hlow : lowerL host = host :=
    map_self_of _ host (fun c hc => (hostChar_facts c (hhc c hc)).1)
  have hts2 : stripTrailSlash ('/' :: rest) = '/' :: rest := by
    unfold stripTrailSlash
    refine if_neg ?_
    rintro ⟨hpne, hlast⟩
    cases rest with
    | nil => exact hpne rfl
    | cons c t =>
      rcases hts with h0 | hne
      · exact List.noConfusion h0
      · exact hne hlast
  have hdp : stripDefaultPort ['h', 't', 't', 'p', 's'] host = host := if_neg hcolon
  have hwww : stripWww host = host := if_neg hw
  unfold canonParts
  simp only []
  rw [if_neg (show ¬ ((['h', 't', 't', 'p', 's'] : List Char) = []) from by decide)]
  rw [show lowerL ['h', 't', 't', 'p', 's'] = (['h', 't', 't', 'p', 's'] : List Char)
    from by decide]
  rw [hlow, hdp, hwww]
  rw [if_neg (show ¬ (('/' :: rest : List Char) = []) from
    fun hcon => List.noConfusion hcon)]
  rw [hts2]
  rw [show canonQuery [] = ([] : List Char) from rfl]
  unfold urlunparseM urlunsplitM
  simp only []
  rw [if_neg (show ¬ (([] : List Char) ≠ []) from fun hcon => hcon rfl)]
  rw [if_neg (show ¬ (([] : List Char) ≠ []) from fun hcon => hcon rfl)]
  rw [if_neg (show ¬ (([] : List Char) ≠ []) from fun hcon => hcon rfl)]
  rw [if_pos (show host ≠ [] ∨ ((['h', 't', 't', 'p', 's'] : List Char) ≠ [] ∧
      (['h', 't', 't', 'p', 's'] : List Char) ∈ uses_netloc ∧
      List.take 2 ('/' :: rest) ≠ ['/', '/']) from Or.inl hh)]
  rw [if_neg (show ¬ (('/' :: rest : List Char) ≠ [] ∧
      List.take 1 ('/' :: rest) ≠ ['/']) from fun hcon => hcon.2 rfl)]
  rw [if_pos (show (['h', 't', 't', 'p', 's'] : List Char) ≠ [] from by decide)]
  rfl

/-- C5, amended: `canonicalize_url` is not idempotent on all inputs (the
trailing-slash strip removes one slash per pass), but it is the identity —
and therefore idempotent — on every URL already in canonical shape:
`https://host/path` with a nonempty lowercase reg-name host that has no
port and no leading `www.`, and an absolute path over unreserved
characters with no params, query, fragment or trailing slash. -/
theorem claim_C5_restricted_idempotent (host rest : List Char)
    (hh : host ≠ []) (hhc : ∀ c ∈ host, hostCharOk c = true)
    (hw : ¬ host.take 4 = String.data "www.")
    (hrc : ∀ c ∈ rest, pathCharOk c = true)
    (hts : rest = [] ∨ rest.getLast? ≠ some '/') :
    canonicalize_url (String.mk ('h' :: 't' :: 't' :: 'p' :: 's' :: ':' :: '/' ::
      '/' :: (host ++ '/' :: rest))) =
      String.mk ('h' :: 't' :: 't' :: 'p' :: 's' :: ':' :: '/' :: '/' ::
        (host ++ '/' :: rest)) ∧
    canonicalize_url (canonicalize_url (String.mk ('h' :: 't' :: 't' :: 'p' ::
      's' :: ':' :: '/' :: '/' :: (host ++ '/' :: rest)))) =
      canonicalize_url (String.mk ('h' :: 't' :: 't' :: 'p' :: 's' :: ':' ::
        '/' :: '/' :: (host ++ '/' :: rest))) := by
  have hfix : canonicalize_url (String.mk ('h' :: 't' :: 't' :: 'p' :: 's' ::
      ':' :: '/' :: '/' :: (host ++ '/' :: rest))) =
      String.mk ('h' :: 't' :: 't' :: 'p' :: 's' :: ':' :: '/' :: '/' ::
        (host ++ '/' :: rest)) := by
    unfold canonicalize_url
    rw [show (String.mk ('h' :: 't' :: 't' :: 'p' :: 's' :: ':' :: '/' :: '/' ::
        (host ++ '/' :: rest))).data =
        'h' :: 't' :: 't' :: 'p' :: 's' :: ':' :: '/' :: '/' ::
        (host ++ '/' :: rest) from rfl]
    rw [urlparse_canonical_family host rest hhc hrc]
    show String.mk
      (canonParts ⟨['h', 't', 't', 'p', 's'], host, '/' :: rest, [], [], []⟩) =
      String.mk ('h' :: 't' :: 't' :: 'p' :: 's' :: ':' :: '/' :: '/' ::
        (host ++ '/' :: rest))
    rw [canonParts_canonical_family host rest hh hhc hw hts]
  exact ⟨hfix, by rw [hfix]; exact hfix⟩

theorem claim_C5_restricted_idempotent_witness :
    canonicalize_url (String.mk ('h' :: 't' :: 't' :: 'p' :: 's' :: ':' :: '/' ::
      '/' :: (String.data "example.com" ++ '/' :: String.data "a"))) =
      String.mk ('h' :: 't' :: 't' :: 'p' :: 's' :: ':' :: '/' :: '/' ::
        (String.data "example.com" ++ '/' :: String.data "a")) ∧
    canonicalize_url (canonicalize_url (String.mk ('h' :: 't' :: 't' :: 'p' ::
      's' :: ':' :: '/' :: '/' ::
      (String.data "example.com" ++ '/' :: String.data "a")))) =
      canonicalize_url (String.mk ('h' :: 't' :: 't' :: 'p' :: 's' :: ':' ::
        '/' :: '/' :: (String.data "example.com" ++ '/' :: String.data "a"))) :=
  claim_C5_restricted_idempotent (String.data "example.com") (String.data "a")
    (by decide) (by decide) (by decide) (by decide) (Or.inr (by decide))

/-! ## Claim C8 — edge invariants -/

/-- A concrete primary tab for the rounding scenario: 8 distinct keywords,
one shared with `roundTabB`, so the keyword Jaccard is `1/16 = 0.0625`. -/
def roundTabA : Tab :=
  { id := 0, url := "https://a.com/x", title := "A", domain := "a.com",
    canonical_url := none, simhash := none, duplicate_of := none,
    aliases := [], keywords := ["a", "b", "c", "d", "e", "f", "g", "h"],
    embedding := none }

def roundTabB : Tab :=
  { id := 1, url := "https://b.com/y", title := "B", domain := "b.com",
    canonical_url := none, simhash := none, duplicate_of := none,
    aliases := [], keywords := ["a", "p", "q", "r", "s", "t", "u", "v", "w"],
    embedding := none }

/-- Arguments with `edge_threshold = 0.0625`, exactly the raw similarity of
the pair above. -/
def roundArgs : Params :=
  { edge_threshold := 1/16, group_threshold := 1/4, domain_bonus := 1/5,
    domain_group := true, domain_group_min := 2, mutual_knn := true,
    knn_k := 6, dedupe_hamming := 8 }

/-- C8, counterexample: the stored weight is `round(weight, 3)` of the raw
similarity, and rounding can push it below the threshold the raw value
cleared.  Two tabs with keyword Jaccard `0.0625` and `edge_threshold =
0.0625` produce exactly one edge whose stored weight is `round(0.0625, 3)
= 0.062 < 0.0625`: an emitted edge with `weight < edge_threshold`. -/
theorem claim_C8_counterexample :
    (mainCore (fun _ _ => 0) [roundTabA, roundTabB] roundArgs).edges =
      [{ source := 0, target := 1, weight := 31/500, reason := "similarity" }] ∧
    roundArgs.edge_threshold = 1/16 ∧ ((31 : ℚ)/500) < 1/16 := by
  exact ⟨by decide, by decide, by decide⟩

/-- C8, amended: for input tabs whose ids are strictly increasing along the
list (as the loader assigns them), every output edge has: both endpoints
ids of primary tabs (`duplicate_of` unset), `source < target`, and stored
weight within `1/2000` below the configured threshold — the raw similarity
clears the threshold, but the stored weight is `round(weight, 3)`, which
can dip below it by up to half a thousandth (see the counterexample).
When the threshold itself is a whole number of thousandths, the stored
weight does satisfy `weight ≥ edge_threshold`. -/
theorem claim_C8_edge_invariants (cosF : List ℚ → List ℚ → ℚ) (tabs : List Tab)
    (args : Params) (hids : (tabs.map Tab.id).Pairwise (· < ·)) :
    ∀ e ∈ (mainCore cosF tabs args).edges,
      ((∃ t ∈ (mainCore cosF tabs args).tabs, t.duplicate_of = none ∧ t.id = e.source) ∧
       (∃ t ∈ (mainCore cosF tabs args).tabs, t.duplicate_of = none ∧ t.id = e.target)) ∧
      e.source < e.target ∧
      args.edge_threshold - 1/2000 ≤ e.weight ∧
      ((∃ m : ℤ, args.edge_threshold * 1000 = (m : ℚ)) →
        args.edge_threshold ≤ e.weight) := by
  intro e he
  have hmt : (mainCore cosF tabs args).tabs =
      (dedupe_tabs tabs args.dedupe_hamming).2.2 := rfl
  have hme : (mainCore cosF tabs args).edges =
      build_edges
        ((dedupe_tabs tabs args.dedupe_hamming).2.2.filter
          fun t => t.duplicate_of = none)
        (build_similarity_matrix cosF
          ((dedupe_tabs tabs args.dedupe_hamming).2.2.filter
            fun t => t.duplicate_of = none)
          args.domain_bonus)
        args.edge_threshold := rfl
  rw [hme] at he
  obtain ⟨i, j, hij, hjlen, hthr, hsrc, htgt, hw⟩ := build_edges_mem he
  have hilen : i < ((dedupe_tabs tabs args.dedupe_hamming).2.2.filter
      fun t => t.duplicate_of = none).length := Nat.lt_trans hij hjlen
  have hgi : tget ((dedupe_tabs tabs args.dedupe_hamming).2.2.filter
          fun t => t.duplicate_of = none) i =
      ((dedupe_tabs tabs args.dedupe_hamming).2.2.filter
          fun t => t.duplicate_of = none)[i] :=
    List.getD_eq_getElem _ default hilen
  have hgj : tget ((dedupe_tabs tabs args.dedupe_hamming).2.2.filter
          fun t => t.duplicate_of = none) j =
      ((dedupe_tabs tabs args.dedupe_hamming).2.2.filter
          fun t => t.duplicate_of = none)[j] :=
    List.getD_eq_getElem _ default hjlen
  have hpair : ((((dedupe_tabs tabs args.dedupe_hamming).2.2.filter
      fun t => t.duplicate_of = none).map Tab.id)).Pairwise (· < ·) := by
    have hsub : (((dedupe_tabs tabs args.dedupe_hamming).2.2.filter
        fun t => t.duplicate_of = none).map Tab.id).Sublist
        ((dedupe_tabs tabs args.dedupe_hamming).2.2.map Tab.id) :=
      (List.filter_sublist _).map Tab.id
    rw [dedupe_tabs_map_id] at hsub
    exact hids.sublist hsub
  refine ⟨⟨?_, ?_⟩, ?_, ?_, ?_⟩
  · refine ⟨((dedupe_tabs tabs args.dedupe_hamming).2.2.filter
        fun t => t.duplicate_of = none)[i], ?_, ?_, ?_⟩
    · rw [hmt]
      exact (List.mem_filter.mp (List.getElem_mem hilen)).1
    · have := (List.mem_filter.mp (List.getElem_mem hilen)).2
      exact of_decide_eq_true this
    · rw [hsrc, hgi]
  · refine ⟨((dedupe_tabs tabs args.dedupe_hamming).2.2.filter
        fun t => t.duplicate_of = none)[j], ?_, ?_, ?_⟩
    · rw [hmt]
      exact (List.mem_filter.mp (List.getElem_mem hjlen)).1
    · have := (List.mem_filter.mp (List.getElem_mem hjlen)).2
      exact of_decide_eq_true this
    · rw [htgt, hgj]
  · have hmaplen : i < (((dedupe_tabs tabs args.dedupe_hamming).2.2.filter
        fun t => t.duplicate_of = none).map Tab.id).length ∧
        j < (((dedupe_tabs tabs args.dedupe_hamming).2.2.filter
        fun t => t.duplicate_of = none).map Tab.id).length := by
      rw [List.length_map]
      exact ⟨hilen, hjlen⟩
    have := (List.pairwise_iff_getElem.mp hpair) i j hmaplen.1 hmaplen.2 hij
    rw [List.getElem_map, List.getElem_map] at this
    rw [hsrc, htgt, hgi, hgj]
    exact this
  · rw [hw]
    have := round3_ge (build_similarity_matrix cosF
      ((dedupe_tabs tabs args.dedupe_hamming).2.2.filter
        fun t => t.duplicate_of = none) args.domain_bonus i j)
    linarith
  · rintro ⟨m, hm⟩
    rw [hw]
    exact round3_thousandth_le hm hthr

theorem claim_C8_edge_invariants_witness :
    (([roundTabA, roundTabB].map Tab.id).Pairwise (· < ·)) ∧
    ({ source := 0, target := 1, weight := 31/500, reason := "similarity" } : EdgeRec) ∈
      (mainCore (fun _ _ => 0) [roundTabA, roundTabB] roundArgs).edges ∧
    ((0 : Nat) < 1 ∧ roundArgs.edge_threshold - 1/2000 ≤ (31 : ℚ)/500) :=
  have happ := claim_C8_edge_invariants (fun _ _ => 0) [roundTabA, roundTabB]
    roundArgs (by decide)
    { source := 0, target := 1, weight := 31/500, reason := "similarity" }
    (by decide)
  ⟨by decide, by decide, happ.2.1, happ.2.2.1⟩

/-! ## Claim C9 — domain grouping, and C7 — mutual-KNN refinement -/

/-- A same-domain, textually dissimilar tab (no keywords, no embedding)
for the concrete grouping instances. -/
def domTab (i : Nat) (u : String) : Tab :=
  { id := i, url := u, title := "", domain := "d.com", canonical_url := none,
    simhash := none, duplicate_of := none, aliases := [], keywords := [],
    embedding := none }

def domTabs : List Tab :=
  [domTab 0 "https://d.com/1", domTab 1 "https://d.com/2",
   domTab 2 "https://d.com/3"]

/-- C9: with domain grouping enabled, any two tabs sharing a nonempty
domain held by at least `domain_group_min` tabs land in one group of
`build_groups`, independent of the similarity matrix and of the mutual-KNN
setting; and, concretely, three same-domain but textually dissimilar tabs
(zero pairwise similarity) with `domain_group_min = 2` yield exactly one
group. -/
theorem claim_C9_domain_grouping (tabs : List Tab) (sim : Nat → Nat → ℚ)
    (thr : ℚ) (dgm : Nat) (mknn : Bool) (kk : Nat) (d : String) (hd : d ≠ "")
    (hcount : dgm ≤ (tabs.filter fun t => t.domain = d).length) :
    (∀ i j, i < tabs.length → j < tabs.length →
      (tget tabs i).domain = d → (tget tabs j).domain = d →
      ∃ g ∈ (build_groups tabs sim thr true dgm mknn kk).1,
        (tget tabs i).id ∈ g.tab_ids ∧ (tget tabs j).id ∈ g.tab_ids) ∧
    (build_groups domTabs (fun _ _ => 0) (1/4) true 2 true 6).1.length = 1 := by
  constructor
  · intro i j hi hj hdi hdj
    have hwf0 : (UF.init tabs.length).WF := UF.init_WF tabs.length
    have hb1 : ∀ p ∈ domainOps tabs dgm,
        p.1 < (UF.init tabs.length).n ∧ p.2 < (UF.init tabs.length).n :=
      fun p hp => domainOps_bound p hp
    obtain ⟨hn1, hwf1, hmono1, hpairs1⟩ :=
      unionOps_spec (domainOps tabs dgm) (UF.init tabs.length) hwf0 hb1
    have hsr1 : SameRoot (unionOps (domainOps tabs dgm)
        (UF.init tabs.length)).parent i j := by
      by_cases hij : i = j
      · subst hij
        obtain ⟨r, hr⟩ := hwf1.2 i (by rw [hn1]; exact hi)
        exact sameRoot_refl hr
      · have hgi : tget tabs i = tabs[i] := List.getD_eq_getElem tabs default hi
        have hgj : tget tabs j = tabs[j] := List.getD_eq_getElem tabs default hj
        have hdi2 : (tabs[i]).domain = d := by rw [← hgi]; exact hdi
        have hdj2 : (tabs[j]).domain = d := by rw [← hgj]; exact hdj
        have hmi : i ∈ lookupG (domainMapOf tabs) d := by
          have h := domainMapAux_mem tabs 0 [] i hi (by rw [hdi2]; exact hd)
          rw [hdi2] at h
          simpa using h
        have hmj : j ∈ lookupG (domainMapOf tabs) d := by
          have h := domainMapAux_mem tabs 0 [] j hj (by rw [hdj2]; exact hd)
          rw [hdj2] at h
          simpa using h
        have hne : lookupG (domainMapOf tabs) d ≠ [] := by
          intro h
          rw [h] at hmi
          exact absurd hmi (List.not_mem_nil i)
        have hentry : (d, lookupG (domainMapOf tabs) d) ∈ domainMapOf tabs :=
          mem_of_lookupG _ d hne
        have hlen2 : (lookupG (domainMapOf tabs) d).length =
            (tabs.filter fun t => t.domain = d).length := by
          have h := domainMapAux_len tabs 0 [] d hd
          simpa [lookupG] using h
        have hlen : (lookupG (domainMapOf tabs) d).length ≥ max 2 dgm :=
          Nat.max_le.mpr ⟨two_le_length_of_ne hmi hmj (fun e => hij e),
            by rw [hlen2]; exact hcount⟩
        obtain ⟨root, restIdx, hmm⟩ :
            ∃ root restIdx, lookupG (domainMapOf tabs) d = root :: restIdx := by
          cases hc : lookupG (domainMapOf tabs) d with
          | nil => exact absurd hc hne
          | cons a b => exact ⟨a, b, rfl⟩
        have hboundmem : ∀ x ∈ lookupG (domainMapOf tabs) d, x < tabs.length := by
          intro x hx
          have h := domainMapAux_bound tabs 0 [] (by simp [lookupG])
            (d, lookupG (domainMapOf tabs) d) hentry x hx
          omega
        have hpairsD : ∀ x ∈ restIdx, (root, x) ∈ domainOps tabs dgm := by
          have he2 : (d, root :: restIdx) ∈ domainMapOf tabs := by
            rw [← hmm]
            exact hentry
          exact domainOps_pairs he2 (by rw [← hmm]; exact hlen)
        have hsrroot : ∀ x ∈ lookupG (domainMapOf tabs) d,
            SameRoot (unionOps (domainOps tabs dgm)
              (UF.init tabs.length)).parent root x := by
          intro x hx
          have hxb := hboundmem x hx
          rw [hmm] at hx
          rcases List.mem_cons.mp hx with hxr0 | hxr
          · obtain ⟨r, hr⟩ := hwf1.2 x (by rw [hn1]; exact hxb)
            rw [hxr0]
            rw [hxr0] at hr
            exact sameRoot_refl hr
          · exact hpairs1 (root, x) (hpairsD x hxr)
        exact sameRoot_trans (sameRoot_symm (hsrroot i hmi)) (hsrroot j hmj)
    cases mknn with
    | true =>
      have hbk : ∀ p ∈ knnOps tabs.length sim thr kk,
          p.1 < (unionOps (domainOps tabs dgm) (UF.init tabs.length)).n ∧
          p.2 < (unionOps (domainOps tabs dgm) (UF.init tabs.length)).n := by
        intro p hp
        have h := knnOps_mem hp
        rw [hn1]
        exact ⟨h.1, h.2.1⟩
      obtain ⟨hn2, hwf2, hmono2, _⟩ := unionOps_spec (knnOps tabs.length sim thr kk)
        (unionOps (domainOps tabs dgm) (UF.init tabs.length)) hwf1 hbk
      have hsr2 := hmono2 i j (by rw [hn1]; exact hi) (by rw [hn1]; exact hj) hsr1
      exact sameRoot_groups_core tabs
        (unionOps (knnOps tabs.length sim thr kk)
          (unionOps (domainOps tabs dgm) (UF.init tabs.length)))
        hwf2 (by rw [hn2, hn1]; rfl) hi hj hsr2
    | false =>
      have hbp : ∀ p ∈ pairsCondOps tabs.length (fun a b => decide (sim a b ≥ thr)),
          p.1 < (unionOps (domainOps tabs dgm) (UF.init tabs.length)).n ∧
          p.2 < (unionOps (domainOps tabs dgm) (UF.init tabs.length)).n := by
        intro p hp
        obtain ⟨p1, p2⟩ := p
        have h := pairsCondOps_mem.mp hp
        rw [hn1]
        exact ⟨show p1 < tabs.length by omega, show p2 < tabs.length by omega⟩
      obtain ⟨hn2, hwf2, hmono2, _⟩ := unionOps_spec
        (pairsCondOps tabs.length (fun a b => decide (sim a b ≥ thr)))
        (unionOps (domainOps tabs dgm) (UF.init tabs.length)) hwf1 hbp
      have hsr2 := hmono2 i j (by rw [hn1]; exact hi) (by rw [hn1]; exact hj) hsr1
      exact sameRoot_groups_core tabs
        (unionOps (pairsCondOps tabs.length (fun a b => decide (sim a b ≥ thr)))
          (unionOps (domainOps tabs dgm) (UF.init tabs.length)))
        hwf2 (by rw [hn2, hn1]; rfl) hi hj hsr2
  · decide

theorem claim_C9_domain_grouping_witness :
    ("d.com" : String) ≠ "" ∧
    2 ≤ (domTabs.filter fun t => t.domain = "d.com").length ∧
    (∃ g ∈ (build_groups domTabs (fun _ _ => 0) (1/4) true 2 true 6).1,
      (tget domTabs 0).id ∈ g.tab_ids ∧ (tget domTabs 2).id ∈ g.tab_ids) :=
  have happ := claim_C9_domain_grouping domTabs (fun _ _ => 0) (1/4) 2 true 6
    "d.com" (by decide) (by decide)
  ⟨by decide, by decide, happ.1 0 2 (by decide) (by decide) (by decide) (by decide)⟩

/-- C7: with a fixed tab list, similarity matrix and first-phase
(domain-grouping) setting, every group produced with mutual-KNN enabled is
contained in a group produced by the plain-threshold fallback: mutual KNN
only refines the fallback partition and never produces extra merges. -/
theorem claim_C7_knn_refines (tabs : List Tab) (sim : Nat → Nat → ℚ) (thr : ℚ)
    (dg : Bool) (dgm kk : Nat) :
    ∀ g ∈ (build_groups tabs sim thr dg dgm true kk).1,
      ∃ g2 ∈ (build_groups tabs sim thr dg dgm false kk).1,
        ∀ x ∈ g.tab_ids, x ∈ g2.tab_ids := by
  have huf1 : (if dg then unionOps (domainOps tabs dgm) (UF.init tabs.length)
      else UF.init tabs.length).WF ∧
      (if dg then unionOps (domainOps tabs dgm) (UF.init tabs.length)
      else UF.init tabs.length).n = tabs.length := by
    cases dg with
    | true =>
      obtain ⟨hn1, hwf1, _, _⟩ := unionOps_spec (domainOps tabs dgm)
        (UF.init tabs.length) (UF.init_WF tabs.length)
        (fun p hp => domainOps_bound p hp)
      exact ⟨by simpa using hwf1, by simpa using hn1⟩
    | false => exact ⟨UF.init_WF tabs.length, rfl⟩
  exact knn_refines_core tabs sim thr kk
    (if dg then unionOps (domainOps tabs dgm) (UF.init tabs.length)
      else UF.init tabs.length) huf1.1 huf1.2

theorem claim_C7_knn_refines_witness :
    ∃ g ∈ (build_groups domTabs (fun _ _ => 0) (1/4) true 2 true 6).1,
      ∃ g2 ∈ (build_groups domTabs (fun _ _ => 0) (1/4) true 2 false 6).1,
        ∀ x ∈ g.tab_ids, x ∈ g2.tab_ids :=
  ⟨{ id := 0, tab_ids := [0, 1, 2], size := 3 }, by decide,
    claim_C7_knn_refines domTabs (fun _ _ => 0) (1/4) true 2 6
      { id := 0, tab_ids := [0, 1, 2], size := 3 } (by decide)⟩

end TabGraph
